import Mathlib

/-!
# Binary floating-point arithmetic (`double`, `float`)

The values of the C types `double` and `float` are the data of the IEEE 754 formats
binary64 and binary32; an operation returns the datum nearest to the exact result, the
one with an even significand when two are equally near.  A finite datum is written with
an integer significand, `(-1) ^ neg * m * 2 ^ e`, in the one way the format stores it:
`m < 2 ^ prec`, `emin ≤ e ≤ emax`, and `2 ^ (prec - 1) ≤ m` unless `e = emin`.
-/

namespace IEEE

/-- Number of binary digits of `n`, the recursion bounded by `fuel`. -/
def bitLenAux : Nat → Nat → Nat
  | 0, _ => 0
  | fuel + 1, n => if n = 0 then 0 else bitLenAux fuel (n / 2) + 1

/-- Number of binary digits of `n`: 0 for 0, and `k` when `2 ^ (k - 1) ≤ n < 2 ^ k`. -/
def bitLen (n : Nat) : Nat := bitLenAux n n

/-- A binary format: the number `prec` of digits of the significand and the least and
the largest exponent of the integer significand. -/
structure Format where
  prec : Nat
  emin : Int
  emax : Int

/-- Format of the type `double`. -/
def binary64 : Format := { prec := 53, emin := -1074, emax := 971 }

/-- Format of the type `float`. -/
def binary32 : Format := { prec := 24, emin := -149, emax := 104 }

/-- A floating-point datum: a finite number `(-1) ^ neg * m * 2 ^ e`, an infinity, or a
NaN. -/
inductive Flt where
  | finite (neg : Bool) (m : Nat) (e : Int)
  | inf (neg : Bool)
  | nan
  deriving DecidableEq

/-- Datum of the format `f` nearest to `(-1) ^ neg * N / D` (`D > 0`), ties to the even
significand; an infinity when the result exceeds the largest finite number. -/
def round (f : Format) (neg : Bool) (N D : Nat) : Flt :=
  if N = 0 then Flt.finite neg 0 f.emin
  else
    let k : Int := (bitLen N : Int) - (bitLen D : Int)
    let E : Int := if D * 2 ^ k.toNat ≤ N * 2 ^ (-k).toNat then k else k - 1
    let e : Int := max (E + 1 - f.prec) f.emin
    let num : Nat := N * 2 ^ (-e).toNat
    let den : Nat := D * 2 ^ e.toNat
    let q : Nat := num / den
    let r : Nat := num % den
    let q1 : Nat := if den < 2 * r ∨ (2 * r = den ∧ q % 2 = 1) then q + 1 else q
    let m : Nat := if q1 = 2 ^ f.prec then 2 ^ (f.prec - 1) else q1
    let e1 : Int := if q1 = 2 ^ f.prec then e + 1 else e
    if f.emax < e1 then Flt.inf neg else Flt.finite neg m e1

/-- Conversion of an integer to the format `f`. -/
def ofInt (f : Format) (n : Int) : Flt := round f (decide (n < 0)) n.natAbs 1

/-- Conversion of a datum to the format `f` (the cast `(float)` of a `double`). -/
def convert (f : Format) : Flt → Flt
  | Flt.finite neg m e => round f neg (m * 2 ^ e.toNat) (2 ^ (-e).toNat)
  | Flt.inf neg => Flt.inf neg
  | Flt.nan => Flt.nan

/-- Sum of two data of the format `f`.  The sum of a datum and a zero is the datum (the
sum of two zeros is the negative zero when both are negative); an exact sum 0 of two
non-zero data is the positive zero. -/
def add (f : Format) : Flt → Flt → Flt
  | Flt.nan, _ => Flt.nan
  | _, Flt.nan => Flt.nan
  | Flt.inf a, Flt.inf b => if a = b then Flt.inf a else Flt.nan
  | Flt.inf a, Flt.finite _ _ _ => Flt.inf a
  | Flt.finite _ _ _, Flt.inf b => Flt.inf b
  | Flt.finite n1 m1 e1, Flt.finite n2 m2 e2 =>
    if m1 = 0 ∧ m2 = 0 then Flt.finite (n1 && n2) 0 f.emin
    else if m1 = 0 then Flt.finite n2 m2 e2
    else if m2 = 0 then Flt.finite n1 m1 e1
    else
      let e : Int := min e1 e2
      let a : Int := (if n1 then -1 else 1) * ((m1 * 2 ^ (e1 - e).toNat : Nat) : Int)
      let b : Int := (if n2 then -1 else 1) * ((m2 * 2 ^ (e2 - e).toNat : Nat) : Int)
      if a + b = 0 then Flt.finite false 0 f.emin
      else round f (decide (a + b < 0)) ((a + b).natAbs * 2 ^ e.toNat) (2 ^ (-e).toNat)

/-- Product of two data in the format `f`. -/
def mul (f : Format) : Flt → Flt → Flt
  | Flt.nan, _ => Flt.nan
  | _, Flt.nan => Flt.nan
  | Flt.inf a, Flt.inf b => Flt.inf (a != b)
  | Flt.inf a, Flt.finite n m _ => if m = 0 then Flt.nan else Flt.inf (a != n)
  | Flt.finite n m _, Flt.inf b => if m = 0 then Flt.nan else Flt.inf (n != b)
  | Flt.finite n1 m1 e1, Flt.finite n2 m2 e2 =>
    round f (n1 != n2) (m1 * m2 * 2 ^ (e1 + e2).toNat) (2 ^ (-(e1 + e2)).toNat)

/-- Comparison `a != b` of C: a NaN differs from every datum, the two zeros are equal. -/
def ne : Flt → Flt → Bool
  | Flt.nan, _ => true
  | _, Flt.nan => true
  | Flt.finite n1 m1 e1, Flt.finite n2 m2 e2 =>
    if m1 = 0 ∧ m2 = 0 then false else !(decide (n1 = n2 ∧ m1 = m2 ∧ e1 = e2))
  | Flt.inf a, Flt.inf b => a != b
  | _, _ => true

/-- Values of the C type `double`. -/
def Double : Type := Flt

instance : DecidableEq Double := inferInstanceAs (DecidableEq Flt)

instance : Add Double := ⟨add binary64⟩

instance : Mul Double := ⟨mul binary64⟩

instance (n : Nat) : OfNat Double n := ⟨ofInt binary64 n⟩

/-- The `double` of value `2 ^ i`, for `-1074 ≤ i ≤ 1023`. -/
def twoPow (i : Int) : Double := round binary64 false (2 ^ i.toNat) (2 ^ (-i).toNat)

end IEEE

/-!
# Library functions `atoi` and `atof`

The option values are C strings; `GetUserOptions` reads them with `atoi` and `atof`.
Both are embedded on the list of the characters of the string, after the C standard
(`strtol` in base 10 and `strtod`, "C" locale).
-/

namespace Libc

/-- Function `isspace` in the "C" locale. -/
def isspace (c : Char) : Bool :=
  c = ' ' || c = '\t' || c = '\n' || c = '\x0b' || c = '\x0c' || c = '\r'

/-- Value of a decimal digit. -/
def digitVal (c : Char) : Option Nat :=
  if '0' ≤ c ∧ c ≤ '9' then some (c.toNat - 48) else none

/-- Value of a hexadecimal digit. -/
def hexVal (c : Char) : Option Nat :=
  if '0' ≤ c ∧ c ≤ '9' then some (c.toNat - 48)
  else if 'a' ≤ c ∧ c ≤ 'f' then some (c.toNat - 87)
  else if 'A' ≤ c ∧ c ≤ 'F' then some (c.toNat - 55)
  else none

/-- Letter in lower case. -/
def lower (c : Char) : Char :=
  if 'A' ≤ c ∧ c ≤ 'Z' then Char.ofNat (c.toNat + 32) else c

/-- The text without its leading white space. -/
def skipSpace : List Char → List Char
  | [] => []
  | c :: cs => if isspace c then skipSpace cs else c :: cs

/-- An optional sign: whether it is `-`, and the text after it. -/
def takeSign : List Char → Bool × List Char
  | '-' :: cs => (true, cs)
  | '+' :: cs => (false, cs)
  | cs => (false, cs)

/-- The longest run of digits in base `base` at the head of the text, read after digits
of value `v`: the value, the number of digits of the run, and the text after it. -/
def takeDigits (digit : Char → Option Nat) (base : Nat) :
    List Char → Nat → Nat × Nat × List Char
  | [], v => (v, 0, [])
  | c :: cs, v =>
    match digit c with
    | some d =>
      ((takeDigits digit base cs (base * v + d)).1,
        (takeDigits digit base cs (base * v + d)).2.1 + 1,
        (takeDigits digit base cs (base * v + d)).2.2)
    | none => (v, 0, c :: cs)

/-- The text after the word `w` when the text starts with it, letter case ignored. -/
def dropWord : List Char → List Char → Option (List Char)
  | [], cs => some cs
  | _ :: _, [] => none
  | w :: ws, c :: cs => if lower c = w then dropWord ws cs else none

/-- Largest value of the type `long` (64 bits). -/
def LONG_MAX : Int := 9223372036854775807

/-- Smallest value of the type `long`. -/
def LONG_MIN : Int := -9223372036854775808

/-- Function `strtol(nptr, NULL, 10)`: white space, an optional sign, decimal digits; 0
when there is no digit; a value outside the type `long` gives `LONG_MAX` or `LONG_MIN`. -/
def strtol (s : List Char) : Int :=
  let t := takeSign (skipSpace s)
  let v : Int := ((takeDigits digitVal 10 t.2 0).1 : Int)
  max LONG_MIN (min LONG_MAX (if t.1 then -v else v))

/-- Conversion of a `long` to `int`: the value modulo `2 ^ 32` in
`[-2 ^ 31, 2 ^ 31)`. -/
def longToInt (x : Int) : Int := (x + 2147483648) % 4294967296 - 2147483648

/-- Function `atoi(nptr)`, `(int) strtol(nptr, NULL, 10)`. -/
def atoi (s : String) : Int := longToInt (strtol s.data)

/-- A decimal floating constant at the head of the text: digits with an optional point,
at least one digit, and an optional exponent `e` or `E` with an optional sign and at
least one digit.  The result is the numerator and the denominator of its value, or
`none` when the text does not start with such a constant. -/
def decimalConstant (s : List Char) : Option (Nat × Nat) :=
  let i := takeDigits digitVal 10 s 0
  let f : Nat × Nat × List Char :=
    match i.2.2 with
    | '.' :: cs => takeDigits digitVal 10 cs i.1
    | cs => (i.1, 0, cs)
  if i.2.1 + f.2.1 = 0 then none
  else
    let x : Int :=
      match f.2.2 with
      | 'e' :: cs =>
        if (takeDigits digitVal 10 (takeSign cs).2 0).2.1 = 0 then 0
        else if (takeSign cs).1 then -((takeDigits digitVal 10 (takeSign cs).2 0).1 : Int)
        else ((takeDigits digitVal 10 (takeSign cs).2 0).1 : Int)
      | 'E' :: cs =>
        if (takeDigits digitVal 10 (takeSign cs).2 0).2.1 = 0 then 0
        else if (takeSign cs).1 then -((takeDigits digitVal 10 (takeSign cs).2 0).1 : Int)
        else ((takeDigits digitVal 10 (takeSign cs).2 0).1 : Int)
      | _ => 0
    some (f.1 * 10 ^ (x - f.2.1).toNat, 10 ^ (-(x - f.2.1)).toNat)

/-- A hexadecimal floating constant at the head of the text, after `0x` or `0X`:
hexadecimal digits with an optional point, at least one digit, and an optional binary
exponent `p` or `P` with an optional sign and at least one decimal digit. -/
def hexConstant (s : List Char) : Option (Nat × Nat) :=
  let i := takeDigits hexVal 16 s 0
  let f : Nat × Nat × List Char :=
    match i.2.2 with
    | '.' :: cs => takeDigits hexVal 16 cs i.1
    | cs => (i.1, 0, cs)
  if i.2.1 + f.2.1 = 0 then none
  else
    let x : Int :=
      match f.2.2 with
      | 'p' :: cs =>
        if (takeDigits digitVal 10 (takeSign cs).2 0).2.1 = 0 then 0
        else if (takeSign cs).1 then -((takeDigits digitVal 10 (takeSign cs).2 0).1 : Int)
        else ((takeDigits digitVal 10 (takeSign cs).2 0).1 : Int)
      | 'P' :: cs =>
        if (takeDigits digitVal 10 (takeSign cs).2 0).2.1 = 0 then 0
        else if (takeSign cs).1 then -((takeDigits digitVal 10 (takeSign cs).2 0).1 : Int)
        else ((takeDigits digitVal 10 (takeSign cs).2 0).1 : Int)
      | _ => 0
    some (f.1 * 2 ^ (x - 4 * f.2.1).toNat, 2 ^ (-(x - 4 * f.2.1)).toNat)

/-- Function `strtod(nptr, NULL)`: after white space and an optional sign, `inf` or
`infinity`, `nan`, a hexadecimal constant after `0x`, or a decimal constant, converted
to the nearest `double`; the positive zero when the text starts with none of them. -/
def strtod (s : List Char) : IEEE.Flt :=
  let t := takeSign (skipSpace s)
  match dropWord ['i', 'n', 'f'] t.2 with
  | some _ => IEEE.Flt.inf t.1
  | none =>
    match dropWord ['n', 'a', 'n'] t.2 with
    | some _ => IEEE.Flt.nan
    | none =>
      match (dropWord ['0', 'x'] t.2).bind hexConstant with
      | some v => IEEE.round IEEE.binary64 t.1 v.1 v.2
      | none =>
        match decimalConstant t.2 with
        | some v => IEEE.round IEEE.binary64 t.1 v.1 v.2
        | none => IEEE.Flt.finite false 0 IEEE.binary64.emin

/-- Function `atof(nptr)`, `strtod(nptr, NULL)`. -/
def atof (s : String) : IEEE.Flt := strtod s.data

end Libc

/-!
# Forest-fire cellular automaton (`fire-serial.c`): embedding and verification

The C program keeps its parameters and its grid in global variables.  The
embedding splits them in two records: `Params` holds the globals that are
fixed once `main` has read the options (`NRows`, `NCols`, `BurnProb`,
`NMaxBurnSteps`, `IsRandFirstTree`, and the quantities `main` derives from
them), `Forest` holds the globals that the simulation mutates (`Trees`,
`NewTrees`, `NBurnedTrees`) together with the number of calls made to
`random()` so far.

C `int` values are modelled by `Int` in the first part of the embedding, which
describes the runs in which no `int` expression exceeds the type, that is the
runs in which `(NRows + 2) * (NCols + 2)` fits an `int`.  The section `Machine`
embeds the same functions with 32-bit `int` arithmetic and with blocks that
end; its theorems show that the two agree when the size fits an `int`, and what
happens when it does not.

The two arrays are lists of `Int`; the block returned by `malloc` is an
arbitrary list of the requested length.  A read outside the list yields `0`
and a write outside the list is dropped, so a theorem that finds a written
value back at an index also shows that the index was inside the array.

The values returned by successive calls of `random()` are a sequence
`rnd : Nat → Nat` (the C function returns a non-negative `long`).
-/

namespace FireSerial

/-! ## Index macros -/

/-- Macro `TREE_MAP(row, col, nColsPlusBounds)`: index in the array with boundaries. -/
def TREE_MAP (row col nColsPlusBounds : Int) : Int :=
  row * nColsPlusBounds + col

/-- Macro `NEW_TREE_MAP(row, col, nCols)`: index in the array without boundaries. -/
def NEW_TREE_MAP (row col nCols : Int) : Int :=
  (row - 1) * nCols + (col - 1)

/-! ## Globals -/

/-- Globals fixed after option parsing. -/
structure Params where
  NRows : Int
  NCols : Int
  BurnProb : Int
  NMaxBurnSteps : Int
  IsRandFirstTree : Bool

/-- The product `NRows * NCols`: the value of the global `NTrees` when the product fits
an `int` (`Machine.NTrees` is the `int` that `main` computes). -/
def Params.NTrees (p : Params) : Int := p.NRows * p.NCols

/-- Global `NRowsPlusBounds`, as `main` computes it: `NRows + 2`. -/
def Params.NRowsPlusBounds (p : Params) : Int := p.NRows + 2

/-- Global `NColsPlusBounds`, as `main` computes it: `NCols + 2`. -/
def Params.NColsPlusBounds (p : Params) : Int := p.NCols + 2

/-- The product `NRowsPlusBounds * NColsPlusBounds`: the value of the global
`NTreesPlusBounds` when the product fits an `int` (`Machine.NTreesPlusBounds` is the
`int` that `main` computes). -/
def Params.NTreesPlusBounds (p : Params) : Int :=
  p.NRowsPlusBounds * p.NColsPlusBounds

/-- Global `MiddleRow`, as `main` computes it: `NRows / 2` (C division truncates). -/
def Params.MiddleRow (p : Params) : Int := Int.tdiv p.NRows 2

/-- Global `MiddleCol`, as `main` computes it: `NCols / 2` (C division truncates). -/
def Params.MiddleCol (p : Params) : Int := Int.tdiv p.NCols 2

/-- Globals mutated by the simulation, and the number of `random()` calls made. -/
structure Forest where
  Trees : List Int
  NewTrees : List Int
  NBurnedTrees : Int
  NRandom : Nat

/-! ## Memory and loops -/

/-- Array read `a[i]`. -/
def readAt (a : List Int) (i : Int) : Int :=
  if i < 0 then 0 else a.getD i.toNat 0

/-- Array write `a[i] = v`. -/
def writeAt (a : List Int) (i v : Int) : List Int :=
  if i < 0 then a else a.set i.toNat v

/-- Values taken by `x` in `for (x = lo; x < hi; x++)`, in order. -/
def loopRange (lo hi : Int) : List Int :=
  (List.range (hi - lo).toNat).map (fun (k : Nat) => lo + (k : Int))

/-- Loop `for (x = lo; x < hi; x++) body`, the body acting on the state. -/
def forLoop {σ : Type} (lo hi : Int) (body : Int → σ → σ) (s : σ) : σ :=
  (loopRange lo hi).foldl (fun acc x => body x acc) s

/-- Value of `Trees[TREE_MAP(row, col, NColsPlusBounds)]`. -/
def treeAt (p : Params) (s : Forest) (row col : Int) : Int :=
  readAt s.Trees (TREE_MAP row col p.NColsPlusBounds)

/-- Value of `NewTrees[NEW_TREE_MAP(row, col, NCols)]`. -/
def newTreeAt (p : Params) (s : Forest) (row col : Int) : Int :=
  readAt s.NewTrees (NEW_TREE_MAP row col p.NCols)

/-- Assignment `Trees[TREE_MAP(row, col, NColsPlusBounds)] = v`. -/
def setTree (p : Params) (row col v : Int) (s : Forest) : Forest :=
  { s with Trees := writeAt s.Trees (TREE_MAP row col p.NColsPlusBounds) v }

/-- Assignment `NewTrees[NEW_TREE_MAP(row, col, NCols)] = v`. -/
def setNewTree (p : Params) (row col v : Int) (s : Forest) : Forest :=
  { s with NewTrees := writeAt s.NewTrees (NEW_TREE_MAP row col p.NCols) v }

/-! ## Functions of `fire-serial.c` -/

/-- Function `RandBetween(min, max)`: `min + (random() % (max - min))`, one call of
`random()`.  C `%` truncates. -/
def RandBetween (rnd : Nat → Nat) (min max : Int) (s : Forest) : Int × Forest :=
  (min + Int.tmod (rnd s.NRandom : Int) (max - min), { s with NRandom := s.NRandom + 1 })

/-- First loop nest of `InitData`: every tree has burned for 0 time steps. -/
def InitInterior (p : Params) (s : Forest) : Forest :=
  forLoop 1 (p.NRows + 1) (fun row s =>
    forLoop 1 (p.NCols + 1) (fun col s =>
      setTree p row col 0 (setNewTree p row col 0 s)) s) s

/-- Body of the boundary loop of `InitData` for one `row`. -/
def InitBoundaryRow (p : Params) (row : Int) (s : Forest) : Forest :=
  let s := setTree p row 0 p.NMaxBurnSteps s
  let s :=
    if row = 0 ∨ row = p.NRows + 1 then
      forLoop 1 (p.NCols + 1) (fun col s => setTree p row col p.NMaxBurnSteps s) s
    else s
  setTree p row (p.NCols + 1) p.NMaxBurnSteps s

/-- Second loop of `InitData`: the boundaries are burnt out. -/
def InitBoundary (p : Params) (s : Forest) : Forest :=
  forLoop 0 p.NRowsPlusBounds (fun row s => InitBoundaryRow p row s) s

/-- Choice of the first tree in `InitData`: `(row, col)` and the state after the draws. -/
def FirstTree (p : Params) (rnd : Nat → Nat) (s : Forest) : Int × Int × Forest :=
  if p.IsRandFirstTree then
    let r := RandBetween rnd 1 (p.NRows + 1) s
    let c := RandBetween rnd 1 (p.NCols + 1) r.2
    (r.1, c.1, c.2)
  else
    (p.MiddleRow + 1, p.MiddleCol + 1, s)

/-- Function `InitData`. -/
def InitData (p : Params) (rnd : Nat → Nat) (s : Forest) : Forest :=
  let s := InitInterior p s
  let s := InitBoundary p s
  let f := FirstTree p rnd s
  let s := setTree p f.1 f.2.1 1 (setNewTree p f.1 f.2.1 1 f.2.2)
  { s with NBurnedTrees := s.NBurnedTrees + 1 }

/-- Function `IsBurntOut(row, col)`. -/
def IsBurntOut (p : Params) (s : Forest) (row col : Int) : Bool :=
  decide (treeAt p s row col ≥ p.NMaxBurnSteps)

/-- Function `IsOnFire(row, col)`. -/
def IsOnFire (p : Params) (s : Forest) (row col : Int) : Bool :=
  decide (treeAt p s row col > 0) && !IsBurntOut p s row col

/-- Body of the loop nest of `ContinueBurning` for one cell. -/
def ContinueBurningCell (p : Params) (row col : Int) (s : Forest) : Forest :=
  if IsOnFire p s row col then
    setNewTree p row col (treeAt p s row col + 1) s
  else s

/-- Function `ContinueBurning`. -/
def ContinueBurning (p : Params) (s : Forest) : Forest :=
  forLoop 1 (p.NRows + 1) (fun row s =>
    forLoop 1 (p.NCols + 1) (fun col s => ContinueBurningCell p row col s) s) s

/-- Body of the loop nest of `BurnNew` for one cell.  The `&&` of C evaluates
`RandBetween(0, 100)` only when a neighbour is on fire. -/
def BurnNewCell (p : Params) (rnd : Nat → Nat) (row col : Int) (s : Forest) : Forest :=
  if !IsOnFire p s row col && !IsBurntOut p s row col then
    if IsOnFire p s (row - 1) col || IsOnFire p s row (col - 1) ||
        IsOnFire p s (row + 1) col || IsOnFire p s row (col + 1) then
      let d := RandBetween rnd 0 100 s
      if d.1 < p.BurnProb then
        let s := setNewTree p row col 1 d.2
        { s with NBurnedTrees := s.NBurnedTrees + 1 }
      else d.2
    else s
  else s

/-- Function `BurnNew`. -/
def BurnNew (p : Params) (rnd : Nat → Nat) (s : Forest) : Forest :=
  forLoop 1 (p.NRows + 1) (fun row s =>
    forLoop 1 (p.NCols + 1) (fun col s => BurnNewCell p rnd row col s) s) s

/-- Function `AdvanceTime`. -/
def AdvanceTime (p : Params) (s : Forest) : Forest :=
  forLoop 1 (p.NRows + 1) (fun row s =>
    forLoop 1 (p.NCols + 1) (fun col s => setTree p row col (newTreeAt p s row col) s) s) s

/-- Body of the simulation loop of `main` (without the optional output). -/
def step (p : Params) (rnd : Nat → Nat) (s : Forest) : Forest :=
  AdvanceTime p (BurnNew p rnd (ContinueBurning p s))

/-- Simulation loop of `main` run for `n` time steps. -/
def steps (p : Params) (rnd : Nat → Nat) (n : Nat) (s : Forest) : Forest :=
  (List.range n).foldl (fun acc _ => step p rnd acc) s

/-- State in which `main` calls `InitData`: the two blocks `AllocateMemory` got
from `malloc` (contents `t0`, `n0`), `NBurnedTrees = 0`, no `random()` call yet. -/
def startState (t0 n0 : List Int) : Forest :=
  { Trees := t0, NewTrees := n0, NBurnedTrees := 0, NRandom := 0 }

/-- State of `main` after `InitData` and `n` time steps. -/
def simulate (p : Params) (rnd : Nat → Nat) (t0 n0 : List Int) (n : Nat) : Forest :=
  steps p rnd n (InitData p rnd (startState t0 n0))

/-! ## Definitions used to state and prove the properties -/

/-- Interior cells `(row, col)` in the order the loop nests visit them. -/
def cells (p : Params) : List (Int × Int) :=
  (loopRange 1 (p.NRows + 1)) ×ˢ (loopRange 1 (p.NCols + 1))

/-- Sequence of array writes `a[w.1] = w.2`, first to last. -/
def applyWrites (a : List Int) (ws : List (Int × Int)) : List Int :=
  ws.foldl (fun acc w => writeAt acc w.1 w.2) a

/-- Index of the interior cell `x = (row, col)` in `Trees`. -/
def treeIdx (p : Params) (x : Int × Int) : Int := TREE_MAP x.1 x.2 p.NColsPlusBounds

/-- Index of the interior cell `x = (row, col)` in `NewTrees`. -/
def newIdx (p : Params) (x : Int × Int) : Int := NEW_TREE_MAP x.1 x.2 p.NCols

/-- Whether the cell `x = (row, col)` is on fire: `IsOnFire(row, col)`. -/
def onFire (p : Params) (s : Forest) (x : Int × Int) : Bool := IsOnFire p s x.1 x.2

/-- Condition under which `BurnNew` calls `RandBetween` for the cell `x`: the cell is
neither on fire nor burnt out and one of its four neighbours is on fire. -/
def candidate (p : Params) (s : Forest) (x : Int × Int) : Bool :=
  (!IsOnFire p s x.1 x.2 && !IsBurntOut p s x.1 x.2) &&
    (IsOnFire p s (x.1 - 1) x.2 || IsOnFire p s x.1 (x.2 - 1) ||
      IsOnFire p s (x.1 + 1) x.2 || IsOnFire p s x.1 (x.2 + 1))

/-- Value `RandBetween(0, 100)` returns at the call of `random()` number `n`. -/
def draw (rnd : Nat → Nat) (n : Nat) : Int := 0 + Int.tmod (rnd n : Int) (100 - 0)

/-- Cells that `BurnNew` sets on fire when it visits the cells `l` in order, the
grid being that of `s0` and `n` calls of `random()` having been made before. -/
def ignitedFrom (p : Params) (rnd : Nat → Nat) (s0 : Forest) :
    Nat → List (Int × Int) → List (Int × Int)
  | _, [] => []
  | n, x :: l =>
    if candidate p s0 x then
      if draw rnd n < p.BurnProb then x :: ignitedFrom p rnd s0 (n + 1) l
      else ignitedFrom p rnd s0 (n + 1) l
    else ignitedFrom p rnd s0 n l

/-- The two arrays have the lengths `AllocateMemory` asks `malloc` for, when the sizes
fit an `int`. -/
def Sized (p : Params) (s : Forest) : Prop :=
  (s.Trees.length : Int) = p.NTreesPlusBounds ∧ (s.NewTrees.length : Int) = p.NTrees

/-- The array `NewTrees` holds the interior of `Trees`. -/
def Synced (p : Params) (s : Forest) : Prop :=
  ∀ x ∈ cells p, newTreeAt p s x.1 x.2 = treeAt p s x.1 x.2

/-- Cells that `BurnNew` sets on fire in the step that starts in state `s`. -/
def ignited (p : Params) (rnd : Nat → Nat) (s : Forest) : List (Int × Int) :=
  ignitedFrom p rnd s s.NRandom (cells p)

/-- Columns of the array with boundaries. -/
def inCols (p : Params) (x : Int × Int) : Prop := 0 ≤ x.2 ∧ x.2 ≤ p.NCols + 1

/-- Burn age of the interior cell `x` after the step that starts in state `s`. -/
def nextAge (p : Params) (rnd : Nat → Nat) (s : Forest) (x : Int × Int) : Int :=
  if x ∈ ignited p rnd s then 1
  else if onFire p s x then treeAt p s x.1 x.2 + 1
  else newTreeAt p s x.1 x.2

/-- Row-major order of the loop nests: the cell `y` is visited before the cell `x`. -/
def visitedBefore (y x : Int × Int) : Prop :=
  y.1 < x.1 ∨ (y.1 = x.1 ∧ y.2 < x.2)

instance (y x : Int × Int) : Decidable (visitedBefore y x) := by
  unfold visitedBefore; infer_instance

/-- Number of the `random()` call that `BurnNew` makes for the cell `x` in the step
that starts in state `s`: the calls made before the step, plus one call for each
cell visited before `x` for which `BurnNew` calls `RandBetween`. -/
def drawIndex (p : Params) (s : Forest) (x : Int × Int) : Nat :=
  s.NRandom + (cells p).countP (fun y => decide (visitedBefore y x) && candidate p s y)

/-- Value `RandBetween(0, 100)` returns for the cell `x` in the step from `s`. -/
def cellDraw (p : Params) (rnd : Nat → Nat) (s : Forest) (x : Int × Int) : Int :=
  draw rnd (drawIndex p s x)

/-- Whether one of the four neighbours of `(row, col)` is on fire: the test `BurnNew`
makes on the north, west, south and east neighbours. -/
def neighbourOnFire (p : Params) (s : Forest) (row col : Int) : Bool :=
  IsOnFire p s (row - 1) col || IsOnFire p s row (col - 1) ||
    IsOnFire p s (row + 1) col || IsOnFire p s row (col + 1)

/-- Cells that the boundary loop of `InitData` writes for one `row`, in order. -/
def boundaryRowCells (p : Params) (row : Int) : List (Int × Int) :=
  (row, 0) ::
    ((if row = 0 ∨ row = p.NRows + 1 then
        (loopRange 1 (p.NCols + 1)).map (fun col => (row, col))
      else []) ++ [(row, p.NCols + 1)])

/-- Cells that the boundary loop of `InitData` writes, in order. -/
def boundaryCells (p : Params) : List (Int × Int) :=
  (loopRange 0 p.NRowsPlusBounds).flatMap (boundaryRowCells p)

/-- Cell `(row, col)` that `InitData` sets on fire. -/
def firstCell (p : Params) (rnd : Nat → Nat) (s : Forest) : Int × Int :=
  ((FirstTree p rnd s).1, (FirstTree p rnd s).2.1)

/-- Invariant of the simulation loop: array lengths, `NewTrees` in step with `Trees`,
burnt-out boundary, non-negative ages, and `NBurnedTrees` counting the interior cells
with a non-zero age. -/
structure Inv (p : Params) (s : Forest) : Prop where
  sized : Sized p s
  synced : Synced p s
  boundary : ∀ x ∈ boundaryCells p, treeAt p s x.1 x.2 = p.NMaxBurnSteps
  nonneg : ∀ x ∈ cells p, 0 ≤ treeAt p s x.1 x.2
  burned : s.NBurnedTrees = (cells p).countP (fun x => decide (treeAt p s x.1 x.2 ≠ 0))

/-- Example parameters: a 3 x 3 forest, `BurnProb = 100`, `NMaxBurnSteps = 2`, centre
ignition. -/
def exParams : Params :=
  { NRows := 3, NCols := 3, BurnProb := 100, NMaxBurnSteps := 2, IsRandFirstTree := false }

/-- Example random source: `random()` returns 7 at every call. -/
def exRnd : Nat → Nat := fun _ => 7

/-- Example state: the 3 x 3 forest with its centre tree on fire. -/
def exForest : Forest :=
  { Trees := [2, 2, 2, 2, 2,  2, 0, 0, 0, 2,  2, 0, 1, 0, 2,  2, 0, 0, 0, 2,  2, 2, 2, 2, 2]
    NewTrees := [0, 0, 0,  0, 1, 0,  0, 0, 0]
    NBurnedTrees := 1
    NRandom := 0 }

instance (p : Params) (s : Forest) : Decidable (Sized p s) := by
  unfold Sized; infer_instance

instance (p : Params) (s : Forest) : Decidable (Synced p s) := by
  unfold Synced; infer_instance

/-- Example of memory as `malloc` may return it for the 3 x 3 forest: 25 and 9 cells
holding the value 9. -/
def exGarbage : Forest :=
  { Trees := List.replicate 25 9, NewTrees := List.replicate 9 9,
    NBurnedTrees := 0, NRandom := 0 }

/-- Manhattan distance between two cells. -/
def manhattan (x y : Int × Int) : Int := |x.1 - y.1| + |x.2 - y.2|

/-- Burn age, after `k` steps with `BurnProb = 100`, of a cell at Manhattan distance `d`
from the first tree: `0` while the fire has not reached it, then the number of steps
since it caught fire plus one, capped at `NMaxBurnSteps`. -/
def spreadAge (p : Params) (d : Int) (k : Nat) : Int :=
  if d ≤ k then min ((k : Int) - d + 1) p.NMaxBurnSteps else 0

/-- Example parameters with `BurnProb = 0`: a 3 x 3 forest, `NMaxBurnSteps = 2`, centre
ignition. -/
def exParamsZero : Params :=
  { NRows := 3, NCols := 3, BurnProb := 0, NMaxBurnSteps := 2, IsRandFirstTree := false }

/-- Loop body of `ContinueBurning` run over the interior cells `l`, in the order of `l`
(`ContinueBurning` itself visits `cells p`, the row-major order). -/
def ContinueBurningIn (p : Params) (l : List (Int × Int)) (s : Forest) : Forest :=
  l.foldl (fun acc x => ContinueBurningCell p x.1 x.2 acc) s

/-- Loop body of `BurnNew` run over the interior cells `l`, in the order of `l`
(`BurnNew` itself visits `cells p`, the row-major order). -/
def BurnNewIn (p : Params) (rnd : Nat → Nat) (l : List (Int × Int)) (s : Forest) : Forest :=
  l.foldl (fun acc x => BurnNewCell p rnd x.1 x.2 acc) s

/-- One time step in which the continue-burning pass visits the interior cells in the
order `l1` and the ignition pass visits them in the order `l2` (`step` uses the
row-major order `cells p` for both). -/
def stepIn (p : Params) (rnd : Nat → Nat) (l1 l2 : List (Int × Int)) (s : Forest) : Forest :=
  AdvanceTime p (BurnNewIn p rnd l2 (ContinueBurningIn p l1 s))

/-- Example parameters with `BurnProb = 50`: a 3 x 3 forest, `NMaxBurnSteps = 2`, centre
ignition. -/
def exParamsHalf : Params :=
  { NRows := 3, NCols := 3, BurnProb := 50, NMaxBurnSteps := 2, IsRandFirstTree := false }

/-- Example random source: `random()` returns 10 at its first call and 90 afterwards. -/
def exRndMixed : Nat → Nat := fun n => if n = 0 then 10 else 90

/-! ## Option parsing (`GetUserOptions`) -/

/-- One option as `getopt` returns it: the option character `c` (`'?'` for an illegal
option or a missing argument) and the text `optarg` of its value. -/
structure OptArg where
  c : Char
  optarg : String

/-- Globals that `GetUserOptions` sets, the messages `PrintError` wrote to `stderr`, and
whether `PrintUsageAndExit` ended the program. -/
structure Options where
  NRows : Int
  NCols : Int
  BurnProb : Int
  NMaxBurnSteps : Int
  NSteps : Int
  RandSeed : Int
  IsOutputtingEachStep : Bool
  IsRandFirstTree : Bool
  OutputFilename : String
  AreParamsValid : Bool
  Stderr : List String
  Exited : Bool

/-- Initial values of the globals (`N_ROWS_DEFAULT` and so on, `AreParamsValid = true`). -/
def initialOptions : Options :=
  { NRows := 21, NCols := 21, BurnProb := 100, NMaxBurnSteps := 2, NSteps := 21,
    RandSeed := 1, IsOutputtingEachStep := false, IsRandFirstTree := false,
    OutputFilename := "", AreParamsValid := true, Stderr := [], Exited := false }

/-- Function `PrintError`: writes the message and sets `AreParamsValid = false`. -/
def PrintError (errorMsg : String) (o : Options) : Options :=
  { o with Stderr := o.Stderr ++ [errorMsg], AreParamsValid := false }

/-- Function `PrintUsageAndExit`: the program ends. -/
def PrintUsageAndExit (o : Options) : Options :=
  { o with Exited := true }

/-- Message of `AssertInteger` for the option character `optChar`. -/
def msgInteger (optChar : Char) : String :=
  "ERROR: value for -" ++ String.singleton optChar ++ " must be an integer\n"

/-- Message of `AssertPositiveInteger` for the option character `optChar`. -/
def msgPositiveInteger (optChar : Char) : String :=
  "ERROR: value for -" ++ String.singleton optChar ++ " must be positive integer\n"

/-- Message of `AssertBigger` for the option character `optChar`. -/
def msgBigger (optChar : Char) (val : Int) : String :=
  "ERROR: value for -" ++ String.singleton optChar ++ " must be bigger than "
    ++ toString val ++ "\n"

/-- Message of `AssertBetweenInclusive` for the option character `optChar`. -/
def msgBetweenInclusive (optChar : Char) (low high : Int) : String :=
  "ERROR: value for -" ++ String.singleton optChar ++ " must be between "
    ++ toString low ++ " and " ++ toString high ++ ", inclusive\n"

/-- Message of `AssertFileDNE` for the file `filename`. -/
def msgFileExists (filename : String) : String :=
  "ERROR: File \x27" ++ filename ++ "\x27 already exists\n"

/-- Local `floatParam` of `AssertInteger` and `AssertPositiveInteger`:
`const float floatParam = atof(optarg)`, the `double` converted to `float`. -/
def floatParam (optarg : String) : IEEE.Flt :=
  IEEE.convert IEEE.binary32 (Libc.atof optarg)

/-- Test `floatParam != param` of `AssertInteger` and `AssertPositiveInteger`: the `int`
`param` is converted to `float` for the comparison. -/
def floatParamDiffers (optarg : String) (param : Int) : Bool :=
  IEEE.ne (floatParam optarg) (IEEE.ofInt IEEE.binary32 param)

/-- Function `AssertInteger(param, optChar)`; it reads the global `optarg`. -/
def AssertInteger (optarg : String) (param : Int) (optChar : Char) (o : Options) : Options :=
  if floatParamDiffers optarg param then PrintError (msgInteger optChar) o else o

/-- Function `AssertPositiveInteger(param, optChar)`; it reads the global `optarg`. -/
def AssertPositiveInteger (optarg : String) (param : Int) (optChar : Char)
    (o : Options) : Options :=
  if decide (param < 1) || floatParamDiffers optarg param then
    PrintError (msgPositiveInteger optChar) o
  else o

/-- Function `AssertBigger(param, val, optChar)`. -/
def AssertBigger (param val : Int) (optChar : Char) (o : Options) : Options :=
  if param ≤ val then PrintError (msgBigger optChar val) o else o

/-- Function `AssertBetweenInclusive(param, low, high, optChar)`. -/
def AssertBetweenInclusive (param low high : Int) (optChar : Char) (o : Options) : Options :=
  if decide (param < low) || decide (param > high) then
    PrintError (msgBetweenInclusive optChar low high) o
  else o

/-- Function `AssertFileDNE(filename)`; `fileExists` is the outcome of
`access(filename, F_OK) != -1`. -/
def AssertFileDNE (filename : String) (fileExists : Bool) (o : Options) : Options :=
  if fileExists then PrintError (msgFileExists filename) o else o

/-- Option characters of `GETOPT_STRING`. -/
def legalOptionChars : List Char := ['r', 'c', 'b', 'm', 't', 's', 'o', 'f']

/-- Body of the `switch` of `GetUserOptions` for one option; the `default` case prints
an error and ends the program. -/
def handleOption (a : OptArg) (o : Options) : Options :=
  if a.c = 'r' then
    AssertPositiveInteger a.optarg (Libc.atoi a.optarg) 'r'
      { o with NRows := Libc.atoi a.optarg }
  else if a.c = 'c' then
    AssertPositiveInteger a.optarg (Libc.atoi a.optarg) 'c'
      { o with NCols := Libc.atoi a.optarg }
  else if a.c = 'b' then
    AssertBetweenInclusive (Libc.atoi a.optarg) 0 100 'b'
      (AssertInteger a.optarg (Libc.atoi a.optarg) 'b'
        { o with BurnProb := Libc.atoi a.optarg })
  else if a.c = 'm' then
    AssertBigger (Libc.atoi a.optarg) 1 'm'
      (AssertPositiveInteger a.optarg (Libc.atoi a.optarg) 'm'
        { o with NMaxBurnSteps := Libc.atoi a.optarg })
  else if a.c = 't' then
    AssertPositiveInteger a.optarg (Libc.atoi a.optarg) 't'
      { o with NSteps := Libc.atoi a.optarg }
  else if a.c = 's' then
    AssertPositiveInteger a.optarg (Libc.atoi a.optarg) 's'
      { o with RandSeed := Libc.atoi a.optarg }
  else if a.c = 'o' then
    { o with IsOutputtingEachStep := true, OutputFilename := a.optarg }
  else if a.c = 'f' then
    { o with IsRandFirstTree := true }
  else
    PrintUsageAndExit (PrintError "ERROR: illegal option\n" o)

/-- The `while` loop of `GetUserOptions` over the options `getopt` returns; it stops
when `PrintUsageAndExit` has ended the program. -/
def optionLoop : List OptArg → Options → Options
  | [], o => o
  | a :: rest, o =>
    if (handleOption a o).Exited then handleOption a o
    else optionLoop rest (handleOption a o)

/-- Function `GetUserOptions`: the loop, then the test of the output file. -/
def GetUserOptions (opts : List OptArg) (fileExists : Bool) (o : Options) : Options :=
  if (optionLoop opts o).Exited then optionLoop opts o
  else if (optionLoop opts o).IsOutputtingEachStep then
    AssertFileDNE (optionLoop opts o).OutputFilename fileExists (optionLoop opts o)
  else optionLoop opts o

/-- Whether `main` goes on to `AllocateMemory` and `InitData` after `GetUserOptions`:
the program has not ended and `AreParamsValid` holds. -/
def mainStartsSimulation (o : Options) : Bool :=
  !o.Exited && o.AreParamsValid

/-- Value of a text made of decimal digits only, read after digits of value `v`; `none`
when a character is not a digit. -/
def digitsValue : List Char → Nat → Option Nat
  | [], v => some v
  | c :: cs, v =>
    match Libc.digitVal c with
    | some d => digitsValue cs (10 * v + d)
    | none => none

/-- The integer a text denotes when it is written as a decimal integer, an optional sign
followed by one or more decimal digits and nothing else; `none` for any other text. -/
def integerText (s : String) : Option Int :=
  if (Libc.takeSign s.data).2 = [] then none
  else
    (digitsValue (Libc.takeSign s.data).2 0).map
      (fun v : Nat => if (Libc.takeSign s.data).1 then -(v : Int) else (v : Int))

/-- Constraints on one option whose value is written as a decimal integer of the type
`int`: positive for `-r`, `-c`, `-t` and `-s`, in `[0, 100]` for `-b`, bigger than 1 for
`-m`; the option is not `-o`, and `-f` has no value. -/
def OptArgOk (a : OptArg) : Prop :=
  a.c ∈ legalOptionChars ∧ a.c ≠ 'o' ∧
    (a.c ≠ 'f' → ∃ n : Int, integerText a.optarg = some n ∧
      -2147483648 ≤ n ∧ n ≤ 2147483647 ∧
      (a.c = 'r' → 0 < n) ∧ (a.c = 'c' → 0 < n) ∧
      (a.c = 'b' → 0 ≤ n ∧ n ≤ 100) ∧ (a.c = 'm' → 1 < n) ∧
      (a.c = 't' → 0 < n) ∧ (a.c = 's' → 0 < n))

/-- Later state of the globals: an error stays an error and no message is lost. -/
def ErrorsKept (o o' : Options) : Prop :=
  (o.AreParamsValid = false → o'.AreParamsValid = false) ∧ ∀ m ∈ o.Stderr, m ∈ o'.Stderr

/-- Outcome of `GetUserOptions` when a value is rejected: `AreParamsValid` is false,
`main` does not go on to the simulation, and `msg` was written to `stderr`. -/
def Rejected (o : Options) (msg : String) : Prop :=
  o.AreParamsValid = false ∧ mainStartsSimulation o = false ∧ msg ∈ o.Stderr

/-- Example command line: `-r 0 -m 5`. -/
def exOptionsBad : List OptArg :=
  [{ c := 'r', optarg := "0" }, { c := 'm', optarg := "5" }]

/-- Example command line: `-r 0 -x -c 0`; `getopt` returns `'?'` for the option `-x`. -/
def exOptionsIllegal : List OptArg :=
  [{ c := 'r', optarg := "0" }, { c := '?', optarg := "" }, { c := 'c', optarg := "0" }]

/-- Example command line: `-r 4294967297`. -/
def exOptionsBeyondInt : List OptArg :=
  [{ c := 'r', optarg := "4294967297" }]

/-- Example command line: `-r 1e2`. -/
def exOptionsExponent : List OptArg :=
  [{ c := 'r', optarg := "1e2" }]

/-- Example command line: `-b 100.000001`. -/
def exOptionsNearInteger : List OptArg :=
  [{ c := 'b', optarg := "100.000001" }]

/-- Example command line: `-b 100.5`. -/
def exOptionsFraction : List OptArg :=
  [{ c := 'b', optarg := "100.5" }]

/-- Example command line: `-r 50000 -c 50000 -b 100 -m 2 -t 7 -s 3 -f`. -/
def exOptionsGood : List OptArg :=
  [{ c := 'r', optarg := "50000" }, { c := 'c', optarg := "50000" },
   { c := 'b', optarg := "100" }, { c := 'm', optarg := "2" }, { c := 't', optarg := "7" },
   { c := 's', optarg := "3" }, { c := 'f', optarg := "" }]

/-! ## The program on the machine: 32-bit `int` and array bounds

The definitions above compute with exact integers and let an array access outside the
block pass (a read gives 0, a write is dropped).  The definitions of this section follow
the same source lines with the arithmetic of the type `int` (32 bits, a result outside
the range is reduced modulo `2 ^ 32`) and with blocks that end: an access outside the
block, which is undefined behaviour in C and a fault when the block is `NULL`, makes the
function return `none`. -/

namespace Machine

/-- Largest value of the type `int`. -/
def INT_MAX : Int := 2147483647

/-- Smallest value of the type `int`. -/
def INT_MIN : Int := -2147483648

/-- Value an `int` holds when the exact result of an operation on `int` is `x`: `x`
reduced modulo `2 ^ 32` into `[INT_MIN, INT_MAX]`. -/
def wrapInt (x : Int) : Int := (x + 2147483648) % 4294967296 - 2147483648

/-- Macro `TREE_MAP(row, col, nColsPlusBounds)` on `int`. -/
def TREE_MAP (row col nColsPlusBounds : Int) : Int :=
  wrapInt (wrapInt (row * nColsPlusBounds) + col)

/-- Macro `NEW_TREE_MAP(row, col, nCols)` on `int`. -/
def NEW_TREE_MAP (row col nCols : Int) : Int :=
  wrapInt (wrapInt (wrapInt (row - 1) * nCols) + wrapInt (col - 1))

/-- Global `NTrees`, as `main` computes it: `NRows * NCols` on `int`. -/
def NTrees (p : Params) : Int := wrapInt (p.NRows * p.NCols)

/-- Global `NRowsPlusBounds`, as `main` computes it: `NRows + 2` on `int`. -/
def NRowsPlusBounds (p : Params) : Int := wrapInt (p.NRows + 2)

/-- Global `NColsPlusBounds`, as `main` computes it: `NCols + 2` on `int`. -/
def NColsPlusBounds (p : Params) : Int := wrapInt (p.NCols + 2)

/-- Global `NTreesPlusBounds`, as `main` computes it:
`NRowsPlusBounds * NColsPlusBounds` on `int`. -/
def NTreesPlusBounds (p : Params) : Int := wrapInt (NRowsPlusBounds p * NColsPlusBounds p)

/-- Global `MiddleRow`, as `main` computes it: `NRows / 2` (C division truncates). -/
def MiddleRow (p : Params) : Int := Int.tdiv p.NRows 2

/-- Global `MiddleCol`, as `main` computes it: `NCols / 2` (C division truncates). -/
def MiddleCol (p : Params) : Int := Int.tdiv p.NCols 2

/-- Largest number of bytes a call of `malloc` can return (`PTRDIFF_MAX`, 64 bits). -/
def PTRDIFF_MAX : Int := 9223372036854775807

/-- Number of `int` cells of the block `malloc(n * sizeof(int))` returns for an `int`
`n`: `n` is converted to `size_t` (64 bits, so modulo `2 ^ 64`) and multiplied by
`sizeof(int) = 4` modulo `2 ^ 64`; a request of more than `PTRDIFF_MAX` bytes fails and
`malloc` returns `NULL`, a block without cells; any other request is taken to succeed. -/
def mallocCells (n : Int) : Nat :=
  if (n % 18446744073709551616) * 4 % 18446744073709551616 ≤ PTRDIFF_MAX then
    ((n % 18446744073709551616) * 4 % 18446744073709551616 / 4).toNat
  else 0

/-- Function `AllocateMemory`: `Trees` and `NewTrees` become the blocks `malloc` returns
for `NTreesPlusBounds` and `NTrees` cells; `malloc` does not clear memory, the cell `i` of
the blocks holds `g1 i` and `g2 i`.  The result of `malloc` is not tested. -/
def AllocateMemory (p : Params) (g1 g2 : Nat → Int) (s : Forest) : Forest :=
  { s with
    Trees := (List.range (mallocCells (NTreesPlusBounds p))).map g1
    NewTrees := (List.range (mallocCells (NTrees p))).map g2 }

/-- Array read `a[i]`: `none` when `i` is outside the block. -/
def read (a : List Int) (i : Int) : Option Int :=
  if 0 ≤ i ∧ i < a.length then some (readAt a i) else none

/-- Array write `a[i] = v`: `none` when `i` is outside the block. -/
def write (a : List Int) (i v : Int) : Option (List Int) :=
  if 0 ≤ i ∧ i < a.length then some (writeAt a i v) else none

/-- Loop `for (x = lo; x < hi; x++) body`, the body acting on the state; the loop stops
with `none` when the body does. -/
def forLoop {σ : Type} (lo hi : Int) (body : Int → σ → Option σ) (s : σ) : Option σ :=
  (loopRange lo hi).foldlM (fun acc x => body x acc) s

/-- Value of `Trees[TREE_MAP(row, col, NColsPlusBounds)]`. -/
def treeAt (p : Params) (s : Forest) (row col : Int) : Option Int :=
  read s.Trees (TREE_MAP row col (NColsPlusBounds p))

/-- Value of `NewTrees[NEW_TREE_MAP(row, col, NCols)]`. -/
def newTreeAt (p : Params) (s : Forest) (row col : Int) : Option Int :=
  read s.NewTrees (NEW_TREE_MAP row col p.NCols)

/-- Assignment `Trees[TREE_MAP(row, col, NColsPlusBounds)] = v`. -/
def setTree (p : Params) (row col v : Int) (s : Forest) : Option Forest :=
  (write s.Trees (TREE_MAP row col (NColsPlusBounds p)) v).map
    (fun t => { s with Trees := t })

/-- Assignment `NewTrees[NEW_TREE_MAP(row, col, NCols)] = v`. -/
def setNewTree (p : Params) (row col v : Int) (s : Forest) : Option Forest :=
  (write s.NewTrees (NEW_TREE_MAP row col p.NCols) v).map
    (fun t => { s with NewTrees := t })

/-- Function `RandBetween(min, max)`: `min + (random() % (max - min))`, one call of
`random()`; `max - min` is computed on `int`, the remainder and the sum on `long`, and
the result is converted to `int`.  A remainder by 0 is undefined: `none`. -/
def RandBetween (rnd : Nat → Nat) (min max : Int) (s : Forest) : Option (Int × Forest) :=
  if wrapInt (max - min) = 0 then none
  else some (wrapInt (min + Int.tmod (rnd s.NRandom : Int) (wrapInt (max - min))),
    { s with NRandom := s.NRandom + 1 })

/-- First loop nest of `InitData`: every tree has burned for 0 time steps. -/
def InitInterior (p : Params) (s : Forest) : Option Forest :=
  forLoop 1 (wrapInt (p.NRows + 1)) (fun row s =>
    forLoop 1 (wrapInt (p.NCols + 1)) (fun col s =>
      (setNewTree p row col 0 s).bind (fun s => setTree p row col 0 s)) s) s

/-- Body of the boundary loop of `InitData` for one `row`. -/
def InitBoundaryRow (p : Params) (row : Int) (s : Forest) : Option Forest :=
  (setTree p row 0 p.NMaxBurnSteps s).bind (fun s =>
    (if row = 0 ∨ row = wrapInt (p.NRows + 1) then
        forLoop 1 (wrapInt (p.NCols + 1)) (fun col s => setTree p row col p.NMaxBurnSteps s) s
      else some s).bind (fun s =>
        setTree p row (wrapInt (p.NCols + 1)) p.NMaxBurnSteps s))

/-- Second loop of `InitData`: the boundaries are burnt out. -/
def InitBoundary (p : Params) (s : Forest) : Option Forest :=
  forLoop 0 (NRowsPlusBounds p) (fun row s => InitBoundaryRow p row s) s

/-- Choice of the first tree in `InitData`: `(row, col)` and the state after the draws. -/
def FirstTree (p : Params) (rnd : Nat → Nat) (s : Forest) : Option (Int × Int × Forest) :=
  if p.IsRandFirstTree then
    (RandBetween rnd 1 (wrapInt (p.NRows + 1)) s).bind (fun r =>
      (RandBetween rnd 1 (wrapInt (p.NCols + 1)) r.2).bind (fun c =>
        some (r.1, c.1, c.2)))
  else
    some (wrapInt (MiddleRow p + 1), wrapInt (MiddleCol p + 1), s)

/-- Function `InitData`. -/
def InitData (p : Params) (rnd : Nat → Nat) (s : Forest) : Option Forest :=
  (InitInterior p s).bind (fun s =>
    (InitBoundary p s).bind (fun s =>
      (FirstTree p rnd s).bind (fun f =>
        (setNewTree p f.1 f.2.1 1 f.2.2).bind (fun s =>
          (setTree p f.1 f.2.1 1 s).bind (fun s =>
            some { s with NBurnedTrees := wrapInt (s.NBurnedTrees + 1) })))))

/-- Function `IsBurntOut(row, col)`. -/
def IsBurntOut (p : Params) (s : Forest) (row col : Int) : Option Bool :=
  (treeAt p s row col).map (fun a => decide (a ≥ p.NMaxBurnSteps))

/-- Operator `a && b` of C: `b` is evaluated only when `a` is true. -/
def andThen (a b : Option Bool) : Option Bool :=
  a.bind (fun x => if x then b else some false)

/-- Operator `a || b` of C: `b` is evaluated only when `a` is false. -/
def orElse (a b : Option Bool) : Option Bool :=
  a.bind (fun x => if x then some true else b)

/-- Function `IsOnFire(row, col)`. -/
def IsOnFire (p : Params) (s : Forest) (row col : Int) : Option Bool :=
  andThen ((treeAt p s row col).map (fun a => decide (a > 0)))
    ((IsBurntOut p s row col).map (fun b => !b))

/-- Body of the loop nest of `ContinueBurning` for one cell. -/
def ContinueBurningCell (p : Params) (row col : Int) (s : Forest) : Option Forest :=
  (IsOnFire p s row col).bind (fun f =>
    if f then
      (treeAt p s row col).bind (fun a => setNewTree p row col (wrapInt (a + 1)) s)
    else some s)

/-- Function `ContinueBurning`. -/
def ContinueBurning (p : Params) (s : Forest) : Option Forest :=
  forLoop 1 (wrapInt (p.NRows + 1)) (fun row s =>
    forLoop 1 (wrapInt (p.NCols + 1)) (fun col s => ContinueBurningCell p row col s) s) s

/-- Body of the loop nest of `BurnNew` for one cell.  The `&&` of C evaluates
`RandBetween(0, 100)` only when a neighbour is on fire. -/
def BurnNewCell (p : Params) (rnd : Nat → Nat) (row col : Int) (s : Forest) :
    Option Forest :=
  (andThen ((IsOnFire p s row col).map (fun b => !b))
      ((IsBurntOut p s row col).map (fun b => !b))).bind (fun unburned =>
    if unburned then
      (orElse (orElse (orElse (IsOnFire p s (wrapInt (row - 1)) col)
            (IsOnFire p s row (wrapInt (col - 1))))
          (IsOnFire p s (wrapInt (row + 1)) col))
        (IsOnFire p s row (wrapInt (col + 1)))).bind (fun near =>
          if near then
            (RandBetween rnd 0 100 s).bind (fun d =>
              if d.1 < p.BurnProb then
                (setNewTree p row col 1 d.2).map (fun s =>
                  { s with NBurnedTrees := wrapInt (s.NBurnedTrees + 1) })
              else some d.2)
          else some s)
    else some s)

/-- Function `BurnNew`. -/
def BurnNew (p : Params) (rnd : Nat → Nat) (s : Forest) : Option Forest :=
  forLoop 1 (wrapInt (p.NRows + 1)) (fun row s =>
    forLoop 1 (wrapInt (p.NCols + 1)) (fun col s => BurnNewCell p rnd row col s) s) s

/-- Function `AdvanceTime`. -/
def AdvanceTime (p : Params) (s : Forest) : Option Forest :=
  forLoop 1 (wrapInt (p.NRows + 1)) (fun row s =>
    forLoop 1 (wrapInt (p.NCols + 1)) (fun col s =>
      (newTreeAt p s row col).bind (fun v => setTree p row col v s)) s) s

/-- Body of the simulation loop of `main` (without the optional output). -/
def step (p : Params) (rnd : Nat → Nat) (s : Forest) : Option Forest :=
  (ContinueBurning p s).bind (fun s => (BurnNew p rnd s).bind (fun s => AdvanceTime p s))

/-- Simulation loop of `main` run for `n` time steps. -/
def steps (p : Params) (rnd : Nat → Nat) (n : Nat) (s : Forest) : Option Forest :=
  (List.range n).foldlM (fun acc _ => step p rnd acc) s

/-- State in which `main` calls `InitData`: the blocks of `AllocateMemory`,
`NBurnedTrees = 0`, no `random()` call yet. -/
def startState (p : Params) (g1 g2 : Nat → Int) : Forest :=
  AllocateMemory p g1 g2 { Trees := [], NewTrees := [], NBurnedTrees := 0, NRandom := 0 }

/-- State of `main` after `InitData` and `n` time steps, `none` when an access outside
a block has been made on the way. -/
def simulate (p : Params) (rnd : Nat → Nat) (g1 g2 : Nat → Int) (n : Nat) : Option Forest :=
  (InitData p rnd (startState p g1 g2)).bind (fun s => steps p rnd n s)

end Machine

/-- Example parameters: a forest of 50000 x 50000 trees, as the options
`-r 50000 -c 50000` give it; the other parameters have their default values. -/
def exParamsBig : Params :=
  { NRows := 50000, NCols := 50000, BurnProb := 100, NMaxBurnSteps := 2,
    IsRandFirstTree := false }

/-- Example content of a block `malloc` returns: every cell holds 9. -/
def exCells : Nat → Int := fun _ => 9

end FireSerial

/-!
# Matrix multiplication benchmark (`matrixmult.c`): embedding

The three matrices are the globals `matX`, `matY`, `matZ`, arrays of `NUM_ROW` rows of
`NUM_COL` entries of type `double`.  A matrix is modelled by the function giving the
entry at `[i][j]`.  The loops are written for entries of any type `α` with a sum, a
product and the constants 0, 1 and 2: the entries of the program are the values of
`IEEE.Double`, the type `double` with its rounded operations, and the entries `Int`
give the same loops in exact arithmetic.
-/

namespace MatrixMult

/-- Macro `NUM_ROW`. -/
def NUM_ROW : Nat := 1500

/-- Macro `NUM_COL`. -/
def NUM_COL : Nat := 1500

/-- Local `block_size` of `matrix_mult_tiling`. -/
def block_size : Nat := 362

/-- Globals `matX`, `matY`, `matZ`, with entries of type `α`. -/
structure Matrices (α : Type) where
  matX : Nat → Nat → α
  matY : Nat → Nat → α
  matZ : Nat → Nat → α

/-- Assignment `m[i][j] = v`. -/
def setEntry {α : Type} (m : Nat → Nat → α) (i j : Nat) (v : α) : Nat → Nat → α :=
  fun a b => if a = i ∧ b = j then v else m a b

/-- Loop nest `for (i = 0; i < nrow; i++) for (j = 0; j < ncol; j++) m[i][j] = v`. -/
def fillMatrix {α : Type} (nrow ncol : Nat) (v : α) (m : Nat → Nat → α) : Nat → Nat → α :=
  (List.range nrow).foldl (fun acc i =>
    (List.range ncol).foldl (fun acc j => setEntry acc i j v) acc) m

/-- Innermost statement of both multiplications:
`matZ[row][col] = matZ[row][col] + matX[row][prod] * matY[prod][col]`. -/
def accumulate {α : Type} [Add α] [Mul α] (x y z : Nat → Nat → α) (row col prod : Nat) :
    Nat → Nat → α :=
  setEntry z row col (z row col + x row prod * y prod col)

/-- Triple loop of `matrix_mult_naive` on matrices of `nrow` rows and `ncol` columns:
`matZ[i][j] = 0.0`, then the sum over `k < nrow`. -/
def naiveLoops {α : Type} [Add α] [Mul α] [OfNat α 0] (nrow ncol : Nat)
    (x y z : Nat → Nat → α) : Nat → Nat → α :=
  (List.range nrow).foldl (fun acc i =>
    (List.range ncol).foldl (fun acc j =>
      (List.range nrow).foldl (fun acc k => accumulate x y acc i j k)
        (setEntry acc i j 0)) acc) z

/-- Function `matrix_mult_naive`: fills `matX` with 1 and `matY` with 2, then runs the
triple loop. -/
def matrix_mult_naive {α : Type} [Add α] [Mul α] [OfNat α 0] [OfNat α 1] [OfNat α 2]
    (m : Matrices α) : Matrices α :=
  let x := fillMatrix NUM_ROW NUM_COL 1 m.matX
  let y := fillMatrix NUM_ROW NUM_COL 2 m.matY
  { matX := x, matY := y, matZ := naiveLoops NUM_ROW NUM_COL x y m.matZ }

/-- Values of `t` in `for (t = 0; t < n; t = t + bs)`, in order. -/
def tileStarts (n bs : Nat) : List Nat :=
  (List.range ((n + bs - 1) / bs)).map (fun k => k * bs)

/-- Values of `x` in `for (x = t; x < fmin(n, t + bs); x++)`, in order. -/
def tile (n bs t : Nat) : List Nat :=
  List.range' t (min n (t + bs) - t)

/-- Six nested tiling loops of `matrix_mult_tiling` on matrices of `nrow` rows and `ncol`
columns with block size `bs`; as in the source, `t_r` runs below `nrow`, `t_c` and
`t_prod` below `ncol`, and the three inner bounds are clamped to `ncol`. -/
def tilingLoops {α : Type} [Add α] [Mul α] (nrow ncol bs : Nat) (x y z : Nat → Nat → α) :
    Nat → Nat → α :=
  (tileStarts nrow bs).foldl (fun acc t_r =>
    (tileStarts ncol bs).foldl (fun acc t_c =>
      (tileStarts ncol bs).foldl (fun acc t_prod =>
        (tile ncol bs t_r).foldl (fun acc row =>
          (tile ncol bs t_c).foldl (fun acc col =>
            (tile ncol bs t_prod).foldl (fun acc prod =>
              accumulate x y acc row col prod) acc) acc) acc) acc) acc) z

/-- Function `matrix_mult_tiling`: fills `matX` with 1 and `matY` with 2, then runs the
tiling loops; `matZ` is not set before the loops. -/
def matrix_mult_tiling {α : Type} [Add α] [Mul α] [OfNat α 1] [OfNat α 2]
    (m : Matrices α) : Matrices α :=
  let x := fillMatrix NUM_ROW NUM_COL 1 m.matX
  let y := fillMatrix NUM_ROW NUM_COL 2 m.matY
  { matX := x, matY := y, matZ := tilingLoops NUM_ROW NUM_COL block_size x y m.matZ }

/-- Triples `(row, col, prod)` at which the tiling loops run the innermost statement, in
order. -/
def tilingVisits (nrow ncol bs : Nat) : List (Nat × Nat × Nat) :=
  (tileStarts nrow bs).flatMap (fun t_r =>
    (tileStarts ncol bs).flatMap (fun t_c =>
      (tileStarts ncol bs).flatMap (fun t_prod =>
        (tile ncol bs t_r).flatMap (fun row =>
          (tile ncol bs t_c).flatMap (fun col =>
            (tile ncol bs t_prod).map (fun prod => (row, col, prod)))))))

/-- Values of `prod` at which a sequence of visits updates the entry `[r][c]`, in
order. -/
def prodsAt (r c : Nat) (visits : List (Nat × Nat × Nat)) : List Nat :=
  visits.filterMap (fun v => if v.1 = r ∧ v.2.1 = c then some v.2.2 else none)

/-- Inner loop of the naive multiplication for the entry `[r][c]`, started with the
value `z0` in the entry: `z0` plus the products `x[r][k] * y[k][c]`, added one after the
other for `k = 0, ..., n - 1`. -/
def dotLoop {α : Type} [Add α] [Mul α] (n : Nat) (x y : Nat → Nat → α) (r c : Nat)
    (z0 : α) : α :=
  (List.range n).foldl (fun acc k => acc + x r k * y k c) z0

/-- Memory as `malloc` may return it, in exact arithmetic: every entry of the three
matrices holds 1. -/
def exOnes : Matrices Int :=
  { matX := fun _ _ => 1, matY := fun _ _ => 1, matZ := fun _ _ => 1 }

/-- Memory whose entries all hold the `double` `2 ^ (-60)`. -/
def exTiny : Matrices IEEE.Double :=
  { matX := fun _ _ => IEEE.twoPow (-60), matY := fun _ _ => IEEE.twoPow (-60),
    matZ := fun _ _ => IEEE.twoPow (-60) }

/-- Memory whose entries all hold the `double` `2 ^ 54`. -/
def exHuge : Matrices IEEE.Double :=
  { matX := fun _ _ => IEEE.twoPow 54, matY := fun _ _ => IEEE.twoPow 54,
    matZ := fun _ _ => IEEE.twoPow 54 }

/-- Memory in which `matZ` holds 0.0 everywhere, as `calloc` would return it; the
entries of `matX` and `matY` hold the `double` `2 ^ 54`. -/
def exCleared : Matrices IEEE.Double :=
  { matX := fun _ _ => IEEE.twoPow 54, matY := fun _ _ => IEEE.twoPow 54,
    matZ := fun _ _ => 0 }

/-- Memory as `malloc` may return it: every entry of the three matrices holds the
`double` 1.0. -/
def exOnesDouble : Matrices IEEE.Double :=
  { matX := fun _ _ => 1, matY := fun _ _ => 1, matZ := fun _ _ => 1 }

/-- Sum over `k < n` of `x[r][k] * y[k][c]`: the entry `[r][c]` of the product, in exact
arithmetic. -/
def dotProduct (n : Nat) (x y : Nat → Nat → Int) (r c : Nat) : Int :=
  ((List.range n).map (fun k => x r k * y k c)).sum

end MatrixMult

namespace IEEE

theorem bitLenAux_spec : ∀ fuel n : Nat, n ≤ fuel → 0 < n →
    2 ^ (bitLenAux fuel n - 1) ≤ n ∧ n < 2 ^ bitLenAux fuel n ∧ 0 < bitLenAux fuel n := by
  intro fuel
  induction fuel with
  | zero => intro n h1 h2; omega
  | succ fuel ih =>
    intro n h1 h2
    unfold bitLenAux
    rw [if_neg (by omega)]
    by_cases h : n / 2 = 0
    · have hn : n = 1 := by omega
      subst hn
      have : bitLenAux fuel (1 / 2) = 0 := by
        cases fuel with
        | zero => rfl
        | succ k => unfold bitLenAux; simp
      rw [this]
      decide
    · have h3 := ih (n / 2) (by omega) (by omega)
      obtain ⟨a, b, c⟩ := h3
      refine ⟨?_, ?_, by omega⟩
      · have e : bitLenAux fuel (n / 2) + 1 - 1 = (bitLenAux fuel (n / 2) - 1) + 1 := by omega
        rw [e, pow_succ]
        omega
      · rw [pow_succ]
        omega

theorem bitLen_spec (n : Nat) (h : 0 < n) :
    2 ^ (bitLen n - 1) ≤ n ∧ n < 2 ^ bitLen n ∧ 0 < bitLen n :=
  bitLenAux_spec n n le_rfl h

theorem bitLen_unique (n a : Nat) (h : 0 < n) (h1 : 2 ^ (a - 1) ≤ n) (h2 : n < 2 ^ a)
    (h3 : 0 < a) : bitLen n = a := by
  obtain ⟨b1, b2, b3⟩ := bitLen_spec n h
  have c1 : 2 ^ (a - 1) < 2 ^ bitLen n := lt_of_le_of_lt h1 b2
  have c2 : 2 ^ (bitLen n - 1) < 2 ^ a := lt_of_le_of_lt b1 h2
  have d1 := (Nat.pow_lt_pow_iff_right (by decide : 1 < 2)).1 c1
  have d2 := (Nat.pow_lt_pow_iff_right (by decide : 1 < 2)).1 c2
  omega

theorem bitLen_mul_two_pow (n j : Nat) (h : 0 < n) : bitLen (n * 2 ^ j) = bitLen n + j := by
  obtain ⟨b1, b2, b3⟩ := bitLen_spec n h
  have hp : 0 < 2 ^ j := Nat.two_pow_pos j
  apply bitLen_unique
  · exact Nat.mul_pos h hp
  · have e : bitLen n + j - 1 = (bitLen n - 1) + j := by omega
    rw [e, pow_add]
    exact Nat.mul_le_mul_right _ b1
  · rw [pow_add]
    exact Nat.mul_lt_mul_of_pos_right b2 hp
  · omega

theorem round_scale_aux (f : Format) (neg : Bool) (N D j : Nat)
    (b1 : bitLen (N * 2 ^ j) = bitLen N + j) (b2 : bitLen (D * 2 ^ j) = bitLen D + j) :
    round f neg (N * 2 ^ j) (D * 2 ^ j) = round f neg N D := by
  by_cases hN : N = 0
  · subst hN
    simp [round]
  · have hp : 0 < 2 ^ j := Nat.two_pow_pos j
    have hN1 : N * 2 ^ j ≠ 0 := Nat.mul_ne_zero hN (by omega)
    have hcmp : ∀ a b : Nat, (D * 2 ^ j * a ≤ N * 2 ^ j * b) ↔ (D * a ≤ N * b) := by
      intro a b
      have e1 : D * 2 ^ j * a = D * a * 2 ^ j := by ring
      have e2 : N * 2 ^ j * b = N * b * 2 ^ j := by ring
      rw [e1, e2]
      exact ⟨fun h => Nat.le_of_mul_le_mul_right h hp, fun h => Nat.mul_le_mul_right _ h⟩
    have hdiv : ∀ a b : Nat, (N * 2 ^ j * a) / (D * 2 ^ j * b) = (N * a) / (D * b) := by
      intro a b
      have e1 : D * 2 ^ j * b = D * b * 2 ^ j := by ring
      have e2 : N * 2 ^ j * a = N * a * 2 ^ j := by ring
      rw [e1, e2]
      exact Nat.mul_div_mul_right _ _ hp
    have hmod : ∀ a b : Nat,
        (N * 2 ^ j * a) % (D * 2 ^ j * b) = (N * a) % (D * b) * 2 ^ j := by
      intro a b
      have e1 : D * 2 ^ j * b = D * b * 2 ^ j := by ring
      have e2 : N * 2 ^ j * a = N * a * 2 ^ j := by ring
      rw [e1, e2]
      exact Nat.mul_mod_mul_right _ _ _
    have hlt : ∀ d r : Nat, (D * 2 ^ j * d < 2 * (r * 2 ^ j)) ↔ (D * d < 2 * r) := by
      intro d r
      have e1 : D * 2 ^ j * d = D * d * 2 ^ j := by ring
      have e2 : 2 * (r * 2 ^ j) = 2 * r * 2 ^ j := by ring
      rw [e1, e2]
      exact Nat.mul_lt_mul_right hp
    have heq : ∀ d r : Nat, (2 * (r * 2 ^ j) = D * 2 ^ j * d) ↔ (2 * r = D * d) := by
      intro d r
      have e1 : D * 2 ^ j * d = D * d * 2 ^ j := by ring
      have e2 : 2 * (r * 2 ^ j) = 2 * r * 2 ^ j := by ring
      rw [e1, e2]
      exact Nat.mul_left_inj (by omega)
    unfold round
    rw [if_neg hN1, if_neg hN]
    simp only [b1, b2, Nat.cast_add, add_sub_add_right_eq_sub, hcmp, hdiv, hmod, hlt, heq]

theorem round_scale (f : Format) (neg : Bool) (N D j : Nat) (hD : 0 < D) :
    round f neg (N * 2 ^ j) (D * 2 ^ j) = round f neg N D := by
  by_cases hN : N = 0
  · subst hN
    simp [round]
  · exact round_scale_aux f neg N D j (bitLen_mul_two_pow N j (Nat.pos_of_ne_zero hN))
      (bitLen_mul_two_pow D j hD)

theorem round_binary64_int (neg : Bool) (w : Nat) (h0 : 0 < w) (h : w < 2 ^ 53) :
    round binary64 neg w 1
      = Flt.finite neg (w * 2 ^ (53 - bitLen w)) ((bitLen w : Int) - 53) := by
  obtain ⟨b1, b2, b3⟩ := bitLen_spec w h0
  have hb : bitLen w - 1 < 53 :=
    (Nat.pow_lt_pow_iff_right (by decide : 1 < 2)).1 (lt_of_le_of_lt b1 h)
  have hone : bitLen 1 = 1 := by decide
  have hk : ((bitLen w : Int) - ((1 : Nat) : Int)).toNat = bitLen w - 1 := by omega
  have hk2 : (-((bitLen w : Int) - ((1 : Nat) : Int))).toNat = 0 := by omega
  unfold round
  rw [if_neg (by omega)]
  simp only [hone, binary64, hk, hk2]
  have hc : 1 * 2 ^ (bitLen w - 1) ≤ w * 2 ^ 0 := by simpa using b1
  rw [if_pos hc]
  have he : ((bitLen w : Int) - ((1 : Nat) : Int) + 1 - ((53 : Nat) : Int)) ⊔ -1074
      = (bitLen w : Int) - 53 := by
    rw [max_eq_left (by omega)]
    omega
  have he1 : ((bitLen w : Int) - 53).toNat = 0 := by omega
  have he2 : (-((bitLen w : Int) - 53)).toNat = 53 - bitLen w := by omega
  have hlt : w * 2 ^ (53 - bitLen w) < 2 ^ 53 := by
    have e : 2 ^ 53 = 2 ^ bitLen w * 2 ^ (53 - bitLen w) := by
      rw [← pow_add]
      congr 1
      omega
    rw [e]
    exact Nat.mul_lt_mul_of_pos_right b2 (Nat.two_pow_pos _)
  simp only [he, he1, he2, pow_zero, mul_one, Nat.mod_one, Nat.div_one, mul_zero]
  have hq : ¬ (1 < 0 ∨ 0 = 1 ∧ w * 2 ^ (53 - bitLen w) % 2 = 1) := by omega
  simp only [if_neg hq, if_neg (Nat.ne_of_lt hlt)]
  rw [if_neg (by omega)]

theorem convert_round_binary64_int (f : Format) (neg : Bool) (w : Nat) (h : w < 2 ^ 53) :
    convert f (round binary64 neg w 1) = round f neg w 1 := by
  by_cases h0 : w = 0
  · subst h0
    simp [round, convert]
  · rw [round_binary64_int neg w (Nat.pos_of_ne_zero h0) h]
    obtain ⟨b1, b2, b3⟩ := bitLen_spec w (Nat.pos_of_ne_zero h0)
    have hb : bitLen w - 1 < 53 :=
      (Nat.pow_lt_pow_iff_right (by decide : 1 < 2)).1 (lt_of_le_of_lt b1 h)
    have he1 : ((bitLen w : Int) - 53).toNat = 0 := by omega
    have he2 : (-((bitLen w : Int) - 53)).toNat = 53 - bitLen w := by omega
    unfold convert
    simp only [he1, he2, pow_zero, mul_one]
    have e := round_scale f neg w 1 (53 - bitLen w) (by decide)
    rw [one_mul] at e
    exact e

theorem ne_round_self (f : Format) (neg : Bool) (N D : Nat) :
    ne (round f neg N D) (round f neg N D) = false := by
  have key : ∀ x : Flt, x ≠ Flt.nan → ne x x = false := by
    intro x hx
    cases x with
    | finite n m e =>
      unfold ne
      by_cases hm : m = 0 <;> simp [hm]
    | inf a => simp [ne]
    | nan => exact absurd rfl hx
  have hite : ∀ (c : Prop) [Decidable c] (n : Bool) (m : Nat) (e : Int),
      (if c then Flt.inf n else Flt.finite n m e) ≠ Flt.nan := by
    intro c _ n m e
    split <;> simp
  apply key
  unfold round
  by_cases hN : N = 0
  · rw [if_pos hN]
    simp
  · rw [if_neg hN]
    exact hite _ _ _ _

theorem ne_round_zero (f : Format) (neg1 neg2 : Bool) (D1 D2 : Nat) :
    ne (round f neg1 0 D1) (round f neg2 0 D2) = false := by
  simp [round, ne]

set_option maxRecDepth 20000 in
/-- Values of the rounded operations of `double` on some data: `0.1 + 0.2` is not the
`double` nearest to `0.3`, `1e16 + 1` is `1e16` (a tie, to the even significand),
`1e16 + 3` is `1e16 + 4`, and `1 / 3` is rounded down. -/
theorem double_values :
    round binary64 false 1 10 = Flt.finite false 7205759403792794 (-56) ∧
    add binary64 (round binary64 false 1 10) (round binary64 false 2 10)
      = Flt.finite false 5404319552844596 (-54) ∧
    round binary64 false 3 10 = Flt.finite false 5404319552844595 (-54) ∧
    add binary64 (ofInt binary64 10000000000000000) (ofInt binary64 1)
      = ofInt binary64 10000000000000000 ∧
    add binary64 (ofInt binary64 10000000000000000) (ofInt binary64 3)
      = Flt.finite false 5000000000000002 1 ∧
    mul binary64 (round binary64 false 1 10) (round binary64 false 1 10)
      = Flt.finite false 5764607523034236 (-59) ∧
    add binary64 (round binary64 false 1 10) (round binary64 true 3 10)
      = Flt.finite true 7205759403792793 (-55) ∧
    round binary64 false 1 3 = Flt.finite false 6004799503160661 (-54) ∧
    ne (ofInt binary64 0) (round binary64 true 0 1) = false ∧
    ne Flt.nan Flt.nan = true := by
  decide

theorem ofInt_natCast (f : Format) (n : Nat) : ofInt f (n : Int) = round f false n 1 := by
  unfold ofInt
  have h : decide ((n : Int) < 0) = false := by
    rw [decide_eq_false_iff_not]
    omega
  rw [h, Int.natAbs_ofNat]

/-- The `double` of a positive integer below `2 ^ 53` has the integer as its value: its
significand is the integer times `2 ^ j` and its exponent is `-j`. -/
theorem round_binary64_nat (neg : Bool) (w : Nat) (h0 : 0 < w) (h : w < 2 ^ 53) :
    ∃ j : Nat, round binary64 neg w 1 = Flt.finite neg (w * 2 ^ j) (-(j : Int)) := by
  obtain ⟨b1, b2, b3⟩ := bitLen_spec w h0
  have hb : bitLen w - 1 < 53 :=
    (Nat.pow_lt_pow_iff_right (by decide : 1 < 2)).1 (lt_of_le_of_lt b1 h)
  refine ⟨53 - bitLen w, ?_⟩
  rw [round_binary64_int neg w h0 h]
  congr 1
  omega

theorem add_finite_pos (f : Format) (m1 m2 j1 j2 : Nat) (h1 : 0 < m1) (h2 : 0 < m2) :
    add f (Flt.finite false m1 (-(j1 : Int))) (Flt.finite false m2 (-(j2 : Int)))
      = round f false (m1 * 2 ^ (max j1 j2 - j1) + m2 * 2 ^ (max j1 j2 - j2))
          (2 ^ max j1 j2) := by
  have he : min (-(j1 : Int)) (-(j2 : Int)) = -((max j1 j2 : Nat) : Int) := by omega
  have ht1 : (-(j1 : Int) - -((max j1 j2 : Nat) : Int)).toNat = max j1 j2 - j1 := by omega
  have ht2 : (-(j2 : Int) - -((max j1 j2 : Nat) : Int)).toNat = max j1 j2 - j2 := by omega
  have ht3 : (-((max j1 j2 : Nat) : Int)).toNat = 0 := by omega
  have ht4 : (- -((max j1 j2 : Nat) : Int)).toNat = max j1 j2 := by omega
  have hp1 : 0 < m1 * 2 ^ (max j1 j2 - j1) := Nat.mul_pos h1 (Nat.two_pow_pos _)
  have hp2 : 0 < m2 * 2 ^ (max j1 j2 - j2) := Nat.mul_pos h2 (Nat.two_pow_pos _)
  unfold add
  simp only [he, ht1, ht2, ht3, ht4]
  rw [if_neg (by omega), if_neg (by omega), if_neg (by omega)]
  simp only [Bool.false_eq_true, if_false, one_mul, pow_zero, mul_one]
  have hs : ((m1 * 2 ^ (max j1 j2 - j1) : Nat) : Int) + ((m2 * 2 ^ (max j1 j2 - j2) : Nat) : Int)
      = ((m1 * 2 ^ (max j1 j2 - j1) + m2 * 2 ^ (max j1 j2 - j2) : Nat) : Int) := by
    push_cast
    ring
  rw [hs]
  have hpos : 0 < ((m1 * 2 ^ (max j1 j2 - j1) + m2 * 2 ^ (max j1 j2 - j2) : Nat) : Int) := by
    exact_mod_cast Nat.add_pos_left hp1 _
  rw [if_neg (by omega)]
  have hd : decide (((m1 * 2 ^ (max j1 j2 - j1) + m2 * 2 ^ (max j1 j2 - j2) : Nat) : Int) < 0)
      = false := by
    rw [decide_eq_false_iff_not]
    omega
  rw [hd, Int.natAbs_ofNat]

/-- In `double` arithmetic the sum of two positive integers is exact when it is below
`2 ^ 53`. -/
theorem add_ofInt_nat (a b : Nat) (ha : 0 < a) (hb : 0 < b) (h : a + b < 2 ^ 53) :
    add binary64 (ofInt binary64 (a : Int)) (ofInt binary64 (b : Int))
      = ofInt binary64 ((a + b : Nat) : Int) := by
  rw [ofInt_natCast, ofInt_natCast, ofInt_natCast]
  obtain ⟨j1, h1⟩ := round_binary64_nat false a ha (by omega)
  obtain ⟨j2, h2⟩ := round_binary64_nat false b hb (by omega)
  rw [h1, h2, add_finite_pos binary64 _ _ j1 j2 (Nat.mul_pos ha (Nat.two_pow_pos _))
    (Nat.mul_pos hb (Nat.two_pow_pos _))]
  have e1 : a * 2 ^ j1 * 2 ^ (max j1 j2 - j1) = a * 2 ^ max j1 j2 := by
    rw [Nat.mul_assoc, ← pow_add]
    congr 2
    omega
  have e2 : b * 2 ^ j2 * 2 ^ (max j1 j2 - j2) = b * 2 ^ max j1 j2 := by
    rw [Nat.mul_assoc, ← pow_add]
    congr 2
    omega
  rw [e1, e2, ← Nat.add_mul]
  have hs := round_scale binary64 false (a + b) 1 (max j1 j2) (by decide)
  rw [one_mul] at hs
  exact hs

/-- The `double` of a natural number below `2 ^ 53` determines the number. -/
theorem ofInt_nat_inj (a b : Nat) (ha : a < 2 ^ 53) (hb : b < 2 ^ 53)
    (h : ofInt binary64 (a : Int) = ofInt binary64 (b : Int)) : a = b := by
  rw [ofInt_natCast, ofInt_natCast] at h
  have hz : ∀ w : Nat, 0 < w → w < 2 ^ 53 →
      round binary64 false 0 1 ≠ round binary64 false w 1 := by
    intro w h0 hw e
    rw [round_binary64_int false w h0 hw] at e
    have e0 : round binary64 false 0 1 = Flt.finite false 0 binary64.emin := by
      simp [round]
    rw [e0] at e
    injection e with _ em _
    have := Nat.mul_pos h0 (Nat.two_pow_pos (53 - bitLen w))
    omega
  by_cases ha0 : a = 0
  · by_cases hb0 : b = 0
    · rw [ha0, hb0]
    · subst ha0
      exact absurd h (hz b (Nat.pos_of_ne_zero hb0) hb)
  · by_cases hb0 : b = 0
    · subst hb0
      exact absurd h.symm (hz a (Nat.pos_of_ne_zero ha0) ha)
    · rw [round_binary64_int false a (Nat.pos_of_ne_zero ha0) ha,
        round_binary64_int false b (Nat.pos_of_ne_zero hb0) hb] at h
      injection h with _ em ee
      have hbl : bitLen a = bitLen b := by omega
      rw [hbl] at em
      exact Nat.eq_of_mul_eq_mul_right (Nat.two_pow_pos _) em

set_option maxRecDepth 20000 in
/-- In `double` arithmetic, adding `1 * 2` to a non-negative integer `k` times is exact
while the result stays below `2 ^ 53`. -/
theorem iterate_add_one_mul_two (k z : Nat) (h : z + 2 * k < 2 ^ 53) :
    (fun a : Double => a + 1 * 2)^[k] (ofInt binary64 (z : Int))
      = ofInt binary64 ((z + 2 * k : Nat) : Int) := by
  induction k generalizing z with
  | zero => rfl
  | succ k ih =>
    rw [Function.iterate_succ_apply]
    have h12 : (1 : Double) * 2 = ofInt binary64 ((2 : Nat) : Int) := by decide
    have hstep : (fun a : Double => a + 1 * 2) (ofInt binary64 (z : Int))
        = ofInt binary64 ((z + 2 : Nat) : Int) := by
      show add binary64 (ofInt binary64 (z : Int)) ((1 : Double) * 2) = _
      rw [h12]
      by_cases hz : z = 0
      · subst hz
        decide
      · exact add_ofInt_nat z 2 (Nat.pos_of_ne_zero hz) (by decide) (by omega)
    have hgoal : (fun a : Double => a + 1 * 2)^[k]
        ((fun a : Double => a + 1 * 2) (ofInt binary64 (z : Int)))
          = ofInt binary64 ((z + 2 * (k + 1) : Nat) : Int) := by
      rw [hstep, ih (z + 2) (by omega)]
      congr 2
      omega
    exact hgoal

end IEEE

namespace Libc

theorem digitVal_some (c : Char) (d : Nat) (h : digitVal c = some d) :
    48 ≤ c.toNat ∧ c.toNat ≤ 57 := by
  unfold digitVal at h
  split at h
  · rename_i hc
    obtain ⟨h1, h2⟩ := hc
    have a1 : ('0' : Char).toNat ≤ c.toNat := h1
    have a2 : c.toNat ≤ ('9' : Char).toNat := h2
    exact ⟨a1, a2⟩
  · cases h

theorem isspace_digit (c : Char) (d : Nat) (h : digitVal c = some d) : isspace c = false := by
  have hc := digitVal_some c d h
  unfold isspace
  have : ∀ k : Char, k.toNat < 48 → c ≠ k := by
    intro k hk e
    subst e
    omega
  simp [this ' ' (by decide), this '\t' (by decide), this '\n' (by decide),
    this '\x0b' (by decide), this '\x0c' (by decide), this '\r' (by decide)]

theorem lower_digit (c : Char) (d : Nat) (h : digitVal c = some d) : lower c = c := by
  have hc := digitVal_some c d h
  unfold lower
  rw [if_neg]
  rintro ⟨h1, h2⟩
  have a1 : ('A' : Char).toNat ≤ c.toNat := h1
  have a2 : ('A' : Char).toNat = 65 := by decide
  omega

theorem ne_of_digit (c k : Char) (d : Nat) (h : digitVal c = some d)
    (hk : k.toNat < 48 ∨ 57 < k.toNat) : c ≠ k := by
  have hc := digitVal_some c d h
  intro e
  subst e
  omega

theorem takeDigits_digitsValue : ∀ (cs : List Char) (v w : Nat),
    FireSerial.digitsValue cs v = some w →
      takeDigits digitVal 10 cs v = (w, cs.length, []) := by
  intro cs
  induction cs with
  | nil =>
    intro v w h
    simp only [FireSerial.digitsValue, Option.some.injEq] at h
    subst h
    rfl
  | cons c cs ih =>
    intro v w h
    unfold FireSerial.digitsValue at h
    unfold takeDigits
    cases hd : digitVal c with
    | none => rw [hd] at h; cases h
    | some d =>
      rw [hd] at h
      simp only at h ⊢
      rw [ih _ _ h]
      rfl

theorem digitsValue_head (c : Char) (cs : List Char) (v w : Nat)
    (h : FireSerial.digitsValue (c :: cs) v = some w) :
    ∃ d, digitVal c = some d ∧ FireSerial.digitsValue cs (10 * v + d) = some w := by
  unfold FireSerial.digitsValue at h
  cases hd : digitVal c with
  | none => rw [hd] at h; cases h
  | some d => rw [hd] at h; exact ⟨d, rfl, h⟩

theorem skipSpace_of_not_space (c : Char) (cs : List Char) (h : isspace c = false) :
    skipSpace (c :: cs) = c :: cs := by
  unfold skipSpace
  rw [h]
  rfl

theorem takeSign_cases (l : List Char) :
    (l = '-' :: (takeSign l).2 ∧ (takeSign l).1 = true) ∨
    (l = '+' :: (takeSign l).2 ∧ (takeSign l).1 = false) ∨
    (takeSign l = (false, l)) := by
  unfold takeSign
  split
  · exact Or.inl ⟨rfl, rfl⟩
  · exact Or.inr (Or.inl ⟨rfl, rfl⟩)
  · exact Or.inr (Or.inr rfl)

theorem takeSign_digit (c : Char) (cs : List Char) (d : Nat) (h : digitVal c = some d) :
    takeSign (c :: cs) = (false, c :: cs) := by
  have h1 := ne_of_digit c '-' d h (Or.inl (by decide))
  have h2 := ne_of_digit c '+' d h (Or.inl (by decide))
  unfold takeSign
  split
  · rename_i e
    simp only [List.cons.injEq] at e
    exact absurd e.1 h1
  · rename_i e
    simp only [List.cons.injEq] at e
    exact absurd e.1 h2
  · rfl

/-- A text that `integerText` reads: after white space (none) and the sign, the digits
`ds` of value `w`, and nothing else. -/
theorem integerText_shape (s : String) (n : Int) (h : FireSerial.integerText s = some n) :
    ∃ (ds : List Char) (w : Nat), ds ≠ [] ∧ FireSerial.digitsValue ds 0 = some w ∧
      takeSign (skipSpace s.data) = ((takeSign s.data).1, ds) ∧
      n = (if (takeSign s.data).1 then -(w : Int) else (w : Int)) := by
  unfold FireSerial.integerText at h
  split at h
  · cases h
  · rename_i hne
    cases hv : FireSerial.digitsValue (takeSign s.data).2 0 with
    | none => rw [hv] at h; cases h
    | some w =>
      rw [hv] at h
      simp only [Option.map_some', Option.some.injEq] at h
      refine ⟨(takeSign s.data).2, w, hne, hv, ?_, h.symm⟩
      rcases takeSign_cases s.data with ⟨e, _⟩ | ⟨e, _⟩ | e
      · have hs : skipSpace s.data = s.data := by
          rw [e]
          exact skipSpace_of_not_space _ _ (by decide)
        rw [hs]
      · have hs : skipSpace s.data = s.data := by
          rw [e]
          exact skipSpace_of_not_space _ _ (by decide)
        rw [hs]
      · rw [e] at hne hv
        simp only at hne hv
        obtain ⟨c, cs, hcs⟩ := List.exists_cons_of_ne_nil hne
        rw [hcs] at hv
        obtain ⟨d, hd, _⟩ := digitsValue_head c cs 0 w hv
        have hs : skipSpace s.data = s.data := by
          rw [hcs]
          exact skipSpace_of_not_space _ _ (isspace_digit c d hd)
        rw [hs]

theorem dropWord_digit (k : Char) (ws : List Char) (c : Char) (cs : List Char) (d : Nat)
    (h : digitVal c = some d) (hk : k.toNat < 48 ∨ 57 < k.toNat) :
    dropWord (k :: ws) (c :: cs) = none := by
  unfold dropWord
  rw [lower_digit c d h, if_neg (ne_of_digit c k d h hk)]

theorem dropWord_0x_digits (c : Char) (cs : List Char) (v w : Nat)
    (h : FireSerial.digitsValue (c :: cs) v = some w) :
    dropWord ['0', 'x'] (c :: cs) = none := by
  obtain ⟨d, hd, h2⟩ := digitsValue_head c cs v w h
  unfold dropWord
  split
  · cases cs with
    | nil => rfl
    | cons c2 cs2 =>
      obtain ⟨d2, hd2, _⟩ := digitsValue_head c2 cs2 _ w h2
      exact dropWord_digit 'x' [] c2 cs2 d2 hd2 (Or.inr (by decide))
  · rfl

theorem decimalConstant_digits (ds : List Char) (w : Nat) (hne : ds ≠ [])
    (h : FireSerial.digitsValue ds 0 = some w) : decimalConstant ds = some (w, 1) := by
  have hlen : ds.length ≠ 0 := by
    intro e
    exact hne (List.length_eq_zero.1 e)
  unfold decimalConstant
  simp [takeDigits_digitsValue ds 0 w h, hlen]

theorem strtol_integerText (s : String) (n : Int) (h : FireSerial.integerText s = some n)
    (h1 : LONG_MIN ≤ n) (h2 : n ≤ LONG_MAX) : strtol s.data = n := by
  obtain ⟨ds, w, hne, hv, hts, hn⟩ := integerText_shape s n h
  unfold strtol
  simp only [hts, takeDigits_digitsValue ds 0 w hv]
  rw [← hn]
  rw [min_eq_right h2, max_eq_right h1]

theorem atoi_integerText (s : String) (n : Int) (h : FireSerial.integerText s = some n)
    (h1 : -2147483648 ≤ n) (h2 : n ≤ 2147483647) : atoi s = n := by
  unfold atoi
  rw [strtol_integerText s n h (by unfold LONG_MIN; omega) (by unfold LONG_MAX; omega)]
  unfold longToInt
  omega

theorem strtod_integerText (s : String) (n : Int) (h : FireSerial.integerText s = some n) :
    ∃ w : Nat, strtod s.data = IEEE.round IEEE.binary64 (takeSign s.data).1 w 1 ∧
      n = (if (takeSign s.data).1 then -(w : Int) else (w : Int)) := by
  obtain ⟨ds, w, hne, hv, hts, hn⟩ := integerText_shape s n h
  refine ⟨w, ?_, hn⟩
  obtain ⟨c, cs, hcs⟩ := List.exists_cons_of_ne_nil hne
  subst hcs
  obtain ⟨d, hd, _⟩ := digitsValue_head c cs 0 w hv
  unfold strtod
  simp only [hts, dropWord_digit 'i' ['n', 'f'] c cs d hd (Or.inr (by decide)),
    dropWord_digit 'n' ['a', 'n'] c cs d hd (Or.inr (by decide)),
    dropWord_0x_digits c cs 0 w hv, Option.none_bind,
    decimalConstant_digits (c :: cs) w hne hv]

set_option maxRecDepth 20000 in
/-- Values of `atoi` on some texts: digits after white space and a sign, up to the first
character that is not a digit; a `long` outside `int` is reduced modulo `2 ^ 32`. -/
theorem atoi_values :
    atoi "42" = 42 ∧ atoi " \t-42abc" = -42 ∧ atoi "+7" = 7 ∧ atoi "" = 0 ∧
    atoi "abc" = 0 ∧ atoi "100.5" = 100 ∧ atoi "1e2" = 1 ∧ atoi "0x10" = 0 ∧
    atoi "2147483648" = -2147483648 ∧ atoi "4294967297" = 1 ∧
    atoi "99999999999999999999" = -1 := by
  decide

set_option maxRecDepth 20000 in
/-- Values of `atof` on some texts, as significand and exponent of the `double`, and
their conversion to `float`. -/
theorem atof_values :
    atof "0.1" = IEEE.Flt.finite false 7205759403792794 (-56) ∧
    atof "1e23" = IEEE.Flt.finite false 5960464477539062 24 ∧
    atof "-2.5" = IEEE.Flt.finite true 5629499534213120 (-51) ∧
    atof ".5e1" = IEEE.Flt.finite false 5629499534213120 (-50) ∧
    atof "0x1p-2" = IEEE.Flt.finite false 4503599627370496 (-54) ∧
    atof " 42abc" = IEEE.Flt.finite false 5910974510923776 (-47) ∧
    atof "abc" = IEEE.Flt.finite false 0 (-1074) ∧
    atof "-Infinity" = IEEE.Flt.inf true ∧
    atof "nan" = IEEE.Flt.nan ∧
    atof "100.000001" = IEEE.Flt.finite false 7036874488135144 (-46) ∧
    IEEE.convert IEEE.binary32 (atof "0.1") = IEEE.Flt.finite false 13421773 (-27) ∧
    IEEE.convert IEEE.binary32 (atof "100.000001") = IEEE.Flt.finite false 13107200 (-17) ∧
    IEEE.convert IEEE.binary32 (atof "100.0000038") = IEEE.Flt.finite false 13107200 (-17) ∧
    IEEE.convert IEEE.binary32 (atof "100.0000039") = IEEE.Flt.finite false 13107201 (-17) ∧
    IEEE.convert IEEE.binary32 (atof "4294967297") = IEEE.Flt.finite false 8388608 9 ∧
    IEEE.ofInt IEEE.binary32 100 = IEEE.Flt.finite false 13107200 (-17) := by
  decide

end Libc

namespace FireSerial

/-! ## Theorems -/

theorem length_writeAt (a : List Int) (i v : Int) : (writeAt a i v).length = a.length := by
  unfold writeAt; split <;> simp

theorem readAt_writeAt_eq {a : List Int} {i : Int} (v : Int) (h0 : 0 ≤ i)
    (h1 : i < a.length) : readAt (writeAt a i v) i = v := by
  have h2 : i.toNat < a.length := by omega
  simp [readAt, writeAt, Int.not_lt.mpr h0, h2]

theorem readAt_writeAt_ne {a : List Int} {i j : Int} (v : Int) (h : i ≠ j) :
    readAt (writeAt a i v) j = readAt a j := by
  unfold readAt writeAt
  by_cases hj : j < 0
  · simp [hj]
  · by_cases hi : i < 0
    · simp [hi]
    · have h2 : i.toNat ≠ j.toNat := by omega
      simp [hi, hj, List.getElem?_set_ne h2]

theorem mem_loopRange {lo hi x : Int} : x ∈ loopRange lo hi ↔ lo ≤ x ∧ x < hi := by
  unfold loopRange
  simp only [List.mem_map, List.mem_range]
  constructor
  · rintro ⟨k, hk, rfl⟩; omega
  · intro h; exact ⟨(x - lo).toNat, by omega, by omega⟩

theorem loopRange_pairwise (lo hi : Int) : (loopRange lo hi).Pairwise (· < ·) := by
  unfold loopRange
  rw [List.pairwise_map]
  exact (List.pairwise_lt_range _).imp (by intro a b h; omega)

theorem loopRange_nodup (lo hi : Int) : (loopRange lo hi).Nodup :=
  (loopRange_pairwise lo hi).imp (by intro a b h; omega)

theorem length_loopRange (lo hi : Int) : (loopRange lo hi).length = (hi - lo).toNat := by
  simp [loopRange]

theorem forLoop_nest {σ : Type} (rows cols : List Int) (body : Int → Int → σ → σ) (s : σ) :
    rows.foldl (fun acc r => cols.foldl (fun acc c => body r c acc) acc) s
      = (rows ×ˢ cols).foldl (fun acc x => body x.1 x.2 acc) s := by
  induction rows generalizing s with
  | nil => rfl
  | cons r rs ih =>
    rw [List.product_cons, List.foldl_append, List.foldl_map, List.foldl_cons]
    exact ih _

theorem mem_cells {p : Params} {x : Int × Int} :
    x ∈ cells p ↔ (1 ≤ x.1 ∧ x.1 ≤ p.NRows) ∧ (1 ≤ x.2 ∧ x.2 ≤ p.NCols) := by
  obtain ⟨r, c⟩ := x
  simp only [cells, List.mem_product, mem_loopRange]
  omega

theorem cells_nodup (p : Params) : (cells p).Nodup :=
  (loopRange_nodup _ _).product (loopRange_nodup _ _)

theorem length_cells (p : Params) (hr : 0 ≤ p.NRows) (hc : 0 ≤ p.NCols) :
    ((cells p).length : Int) = p.NTrees := by
  simp only [cells, List.length_product, length_loopRange, Params.NTrees]
  push_cast
  rw [Int.toNat_of_nonneg (by omega), Int.toNat_of_nonneg (by omega)]
  ring

theorem applyWrites_nil (a : List Int) : applyWrites a [] = a := rfl

theorem applyWrites_cons (a : List Int) (w : Int × Int) (ws : List (Int × Int)) :
    applyWrites a (w :: ws) = applyWrites (writeAt a w.1 w.2) ws := rfl

theorem applyWrites_append (a : List Int) (ws vs : List (Int × Int)) :
    applyWrites a (ws ++ vs) = applyWrites (applyWrites a ws) vs := by
  simp [applyWrites, List.foldl_append]

theorem length_applyWrites (a : List Int) (ws : List (Int × Int)) :
    (applyWrites a ws).length = a.length := by
  induction ws generalizing a with
  | nil => rfl
  | cons w ws ih => rw [applyWrites_cons, ih, length_writeAt]

theorem readAt_applyWrites_not_mem (a : List Int) (ws : List (Int × Int)) (j : Int)
    (h : ∀ w ∈ ws, w.1 ≠ j) : readAt (applyWrites a ws) j = readAt a j := by
  induction ws generalizing a with
  | nil => rfl
  | cons w ws ih =>
    rw [applyWrites_cons, ih _ (fun w' hw' => h w' (List.mem_cons_of_mem _ hw')),
      readAt_writeAt_ne _ (h w (List.mem_cons_self _ _))]

theorem readAt_applyWrites_mem (a : List Int) (ws : List (Int × Int)) (j v : Int)
    (hmem : (j, v) ∈ ws) (huniq : ∀ w ∈ ws, w.1 = j → w.2 = v)
    (h0 : 0 ≤ j) (h1 : j < a.length) : readAt (applyWrites a ws) j = v := by
  induction ws using List.reverseRecOn with
  | nil => simp at hmem
  | append_singleton ws w ih =>
    rw [applyWrites_append, applyWrites_cons, applyWrites_nil]
    by_cases hw : w.1 = j
    · have hv : w.2 = v := huniq w (by simp) hw
      rw [hw, hv]
      exact readAt_writeAt_eq v h0 (by rw [length_applyWrites]; exact h1)
    · rw [readAt_writeAt_ne _ hw]
      have hm : (j, v) ∈ ws := by
        rcases List.mem_append.mp hmem with h | h
        · exact h
        · simp only [List.mem_singleton] at h
          exact absurd (by rw [← h]) hw
      exact ih hm (fun w' hw' => huniq w' (List.mem_append_left _ hw'))

theorem TREE_MAP_bounds {rows cols r c : Int} (hr0 : 0 ≤ r) (hr1 : r ≤ rows + 1)
    (hc0 : 0 ≤ c) (hc1 : c ≤ cols + 1) :
    0 ≤ TREE_MAP r c (cols + 2) ∧ TREE_MAP r c (cols + 2) < (rows + 2) * (cols + 2) := by
  unfold TREE_MAP
  constructor
  · nlinarith
  · nlinarith

theorem NEW_TREE_MAP_bounds {rows cols r c : Int} (hr0 : 1 ≤ r) (hr1 : r ≤ rows)
    (hc0 : 1 ≤ c) (hc1 : c ≤ cols) :
    0 ≤ NEW_TREE_MAP r c cols ∧ NEW_TREE_MAP r c cols < rows * cols := by
  unfold NEW_TREE_MAP
  constructor
  · nlinarith
  · nlinarith

theorem TREE_MAP_inj {n r c r' c' : Int} (hc0 : 0 ≤ c) (hc1 : c < n)
    (hc0' : 0 ≤ c') (hc1' : c' < n) (h : TREE_MAP r c n = TREE_MAP r' c' n) :
    r = r' ∧ c = c' := by
  unfold TREE_MAP at h
  have hr : r = r' := by
    rcases lt_trichotomy r r' with hlt | heq | hgt
    · exfalso; nlinarith
    · exact heq
    · exfalso; nlinarith
  subst hr
  exact ⟨rfl, by omega⟩

theorem NEW_TREE_MAP_inj {n r c r' c' : Int} (hc0 : 1 ≤ c) (hc1 : c ≤ n)
    (hc0' : 1 ≤ c') (hc1' : c' ≤ n) (h : NEW_TREE_MAP r c n = NEW_TREE_MAP r' c' n) :
    r = r' ∧ c = c' := by
  unfold NEW_TREE_MAP at h
  have hr : r = r' := by
    rcases lt_trichotomy r r' with hlt | heq | hgt
    · exfalso; nlinarith
    · exact heq
    · exfalso; nlinarith
  subst hr
  exact ⟨rfl, by omega⟩

theorem treeAt_congr {p : Params} {s s' : Forest} (h : s.Trees = s'.Trees) (r c : Int) :
    treeAt p s r c = treeAt p s' r c := by
  simp [treeAt, h]

theorem newTreeAt_congr {p : Params} {s s' : Forest} (h : s.NewTrees = s'.NewTrees)
    (r c : Int) : newTreeAt p s r c = newTreeAt p s' r c := by
  simp [newTreeAt, h]

theorem IsBurntOut_congr {p : Params} {s s' : Forest} (h : s.Trees = s'.Trees) (r c : Int) :
    IsBurntOut p s r c = IsBurntOut p s' r c := by
  simp [IsBurntOut, treeAt_congr h]

theorem IsOnFire_congr {p : Params} {s s' : Forest} (h : s.Trees = s'.Trees) (r c : Int) :
    IsOnFire p s r c = IsOnFire p s' r c := by
  simp [IsOnFire, IsBurntOut_congr h, treeAt_congr h]

theorem candidate_congr {p : Params} {s s' : Forest} (h : s.Trees = s'.Trees)
    (x : Int × Int) : candidate p s x = candidate p s' x := by
  simp [candidate, IsOnFire_congr h, IsBurntOut_congr h]

theorem ContinueBurning_eq_fold (p : Params) (s : Forest) :
    ContinueBurning p s
      = (cells p).foldl (fun acc x => ContinueBurningCell p x.1 x.2 acc) s :=
  forLoop_nest _ _ (fun r c acc => ContinueBurningCell p r c acc) s

theorem BurnNew_eq_fold (p : Params) (rnd : Nat → Nat) (s : Forest) :
    BurnNew p rnd s = (cells p).foldl (fun acc x => BurnNewCell p rnd x.1 x.2 acc) s :=
  forLoop_nest _ _ (fun r c acc => BurnNewCell p rnd r c acc) s

theorem AdvanceTime_eq_fold (p : Params) (s : Forest) :
    AdvanceTime p s
      = (cells p).foldl (fun acc x => setTree p x.1 x.2 (newTreeAt p acc x.1 x.2) acc) s :=
  forLoop_nest _ _ (fun r c acc => setTree p r c (newTreeAt p acc r c) acc) s

theorem InitInterior_eq_fold (p : Params) (s : Forest) :
    InitInterior p s
      = (cells p).foldl (fun acc x => setTree p x.1 x.2 0 (setNewTree p x.1 x.2 0 acc)) s :=
  forLoop_nest _ _ (fun r c acc => setTree p r c 0 (setNewTree p r c 0 acc)) s

theorem ContinueBurning_fold (p : Params) (s0 : Forest) (l : List (Int × Int)) :
    ∀ s : Forest, s.Trees = s0.Trees →
      l.foldl (fun acc x => ContinueBurningCell p x.1 x.2 acc) s
        = { s with NewTrees := (applyWrites s.NewTrees
              ((l.filter (onFire p s0)).map
                (fun x => (newIdx p x, treeAt p s0 x.1 x.2 + 1)))) } := by
  induction l with
  | nil => intro s _; rfl
  | cons y l ih =>
    intro s hs
    rw [List.foldl_cons]
    by_cases hy : onFire p s0 y = true
    · have hy' : IsOnFire p s y.1 y.2 = true := by rw [IsOnFire_congr hs]; exact hy
      rw [ContinueBurningCell, if_pos hy', ih _ (by simpa [setNewTree] using hs),
        List.filter_cons_of_pos hy, List.map_cons, applyWrites_cons]
      simp [setNewTree, newIdx, treeAt_congr hs]
    · have hy' : ¬ IsOnFire p s y.1 y.2 = true := by rw [IsOnFire_congr hs]; exact hy
      rw [ContinueBurningCell, if_neg hy', ih _ hs, List.filter_cons_of_neg hy]

theorem BurnNew_fold (p : Params) (rnd : Nat → Nat) (s0 : Forest) (l : List (Int × Int)) :
    ∀ s : Forest, s.Trees = s0.Trees →
      l.foldl (fun acc x => BurnNewCell p rnd x.1 x.2 acc) s
        = { Trees := s.Trees
            NewTrees := applyWrites s.NewTrees
              ((ignitedFrom p rnd s0 s.NRandom l).map (fun x => (newIdx p x, 1)))
            NBurnedTrees := s.NBurnedTrees + (ignitedFrom p rnd s0 s.NRandom l).length
            NRandom := s.NRandom + l.countP (candidate p s0) } := by
  induction l with
  | nil => intro s _; simp [ignitedFrom, applyWrites_nil]
  | cons y l ih =>
    intro s hs
    rw [List.foldl_cons]
    have hc : candidate p s y = candidate p s0 y := candidate_congr hs y
    by_cases h1 : (!IsOnFire p s y.1 y.2 && !IsBurntOut p s y.1 y.2) = true
    · by_cases h2 : (IsOnFire p s (y.1 - 1) y.2 || IsOnFire p s y.1 (y.2 - 1) ||
          IsOnFire p s (y.1 + 1) y.2 || IsOnFire p s y.1 (y.2 + 1)) = true
      · have hcand : candidate p s0 y = true := by rw [← hc, candidate, h1, h2]; rfl
        by_cases h3 : draw rnd s.NRandom < p.BurnProb
        · have h3' : (RandBetween rnd 0 100 s).1 < p.BurnProb := h3
          rw [BurnNewCell, if_pos h1, if_pos h2]
          simp only [h3', if_true]
          rw [ih _ (by simpa [setNewTree, RandBetween] using hs)]
          simp only [ignitedFrom, hcand, h3, if_true, List.map_cons, applyWrites_cons,
            List.length_cons, List.countP_cons_of_pos, setNewTree, RandBetween, newIdx]
          simp only [Forest.mk.injEq, true_and]
          refine ⟨?_, ?_⟩
          · push_cast; ring
          · omega
        · have h3' : ¬ (RandBetween rnd 0 100 s).1 < p.BurnProb := h3
          rw [BurnNewCell, if_pos h1, if_pos h2]
          simp only [h3', if_false]
          rw [ih _ (by simpa [RandBetween] using hs)]
          simp only [ignitedFrom, hcand, h3, if_true, if_false, List.countP_cons_of_pos,
            RandBetween]
          simp only [Forest.mk.injEq, true_and]
          omega
      · have hcand : ¬ candidate p s0 y = true := by
          rw [← hc, candidate, h1]; simpa using h2
        rw [BurnNewCell, if_pos h1, if_neg h2, ih _ hs]
        simp [ignitedFrom, hcand]
    · have hcand : ¬ candidate p s0 y = true := by
        rw [← hc, candidate]
        intro h
        rw [Bool.and_eq_true] at h
        exact h1 h.1
      rw [BurnNewCell, if_neg h1, ih _ hs]
      simp [ignitedFrom, hcand]

theorem AdvanceTime_fold (p : Params) (s0 : Forest) (l : List (Int × Int)) :
    ∀ s : Forest, s.NewTrees = s0.NewTrees →
      l.foldl (fun acc x => setTree p x.1 x.2 (newTreeAt p acc x.1 x.2) acc) s
        = { s with Trees := (applyWrites s.Trees
              (l.map (fun x => (treeIdx p x, newTreeAt p s0 x.1 x.2)))) } := by
  induction l with
  | nil => intro s _; rfl
  | cons y l ih =>
    intro s hs
    rw [List.foldl_cons, ih _ (by simpa [setTree] using hs), List.map_cons, applyWrites_cons]
    simp [setTree, treeIdx, newTreeAt_congr hs]

theorem InitInterior_fold (p : Params) (l : List (Int × Int)) :
    ∀ s : Forest,
      l.foldl (fun acc x => setTree p x.1 x.2 0 (setNewTree p x.1 x.2 0 acc)) s
        = { s with
            Trees := applyWrites s.Trees (l.map (fun x => (treeIdx p x, 0)))
            NewTrees := applyWrites s.NewTrees (l.map (fun x => (newIdx p x, 0))) } := by
  induction l with
  | nil => intro s; rfl
  | cons y l ih =>
    intro s
    rw [List.foldl_cons, ih, List.map_cons, applyWrites_cons, List.map_cons, applyWrites_cons]
    simp [setTree, setNewTree, treeIdx, newIdx]

theorem readAt_applyWrites_map_mem (idx : Int × Int → Int) (C : Int × Int → Prop)
    (hinj : ∀ x y, C x → C y → idx x = idx y → x = y) (a : List Int)
    (l : List (Int × Int)) (hl : ∀ y ∈ l, C y) (v : Int × Int → Int) (x : Int × Int)
    (hx : x ∈ l) (h0 : 0 ≤ idx x) (h1 : idx x < a.length) :
    readAt (applyWrites a (l.map (fun y => (idx y, v y)))) (idx x) = v x := by
  apply readAt_applyWrites_mem _ _ _ _ _ _ h0 h1
  · exact List.mem_map.mpr ⟨x, hx, rfl⟩
  · intro w hw hwx
    obtain ⟨y, hy, rfl⟩ := List.mem_map.mp hw
    have : y = x := hinj y x (hl y hy) (hl x hx) hwx
    rw [this]

theorem readAt_applyWrites_map_not_mem (idx : Int × Int → Int) (C : Int × Int → Prop)
    (hinj : ∀ x y, C x → C y → idx x = idx y → x = y) (a : List Int)
    (l : List (Int × Int)) (hl : ∀ y ∈ l, C y) (v : Int × Int → Int) (x : Int × Int)
    (hC : C x) (hx : x ∉ l) :
    readAt (applyWrites a (l.map (fun y => (idx y, v y)))) (idx x) = readAt a (idx x) := by
  apply readAt_applyWrites_not_mem
  intro w hw hwx
  obtain ⟨y, hy, rfl⟩ := List.mem_map.mp hw
  have : y = x := hinj y x (hl y hy) hC hwx
  exact hx (this ▸ hy)

theorem treeIdx_inj (p : Params) :
    ∀ x y, inCols p x → inCols p y → treeIdx p x = treeIdx p y → x = y := by
  intro x y hx hy h
  have := TREE_MAP_inj (n := p.NColsPlusBounds) hx.1 (by unfold Params.NColsPlusBounds; have := hx.2; omega)
    hy.1 (by unfold Params.NColsPlusBounds; have := hy.2; omega) h
  exact Prod.ext this.1 this.2

theorem newIdx_inj (p : Params) :
    ∀ x y, x ∈ cells p → y ∈ cells p → newIdx p x = newIdx p y → x = y := by
  intro x y hx hy h
  rw [mem_cells] at hx hy
  have := NEW_TREE_MAP_inj hx.2.1 hx.2.2 hy.2.1 hy.2.2 h
  exact Prod.ext this.1 this.2

theorem inCols_of_mem_cells {p : Params} {x : Int × Int} (hx : x ∈ cells p) : inCols p x := by
  rw [mem_cells] at hx
  exact ⟨by omega, by omega⟩

theorem treeIdx_bounds {p : Params} {x : Int × Int} (hr0 : 0 ≤ x.1) (hr1 : x.1 ≤ p.NRows + 1)
    (hc : inCols p x) : 0 ≤ treeIdx p x ∧ treeIdx p x < p.NTreesPlusBounds :=
  TREE_MAP_bounds hr0 hr1 hc.1 hc.2

theorem newIdx_bounds {p : Params} {x : Int × Int} (hx : x ∈ cells p) :
    0 ≤ newIdx p x ∧ newIdx p x < p.NTrees := by
  rw [mem_cells] at hx
  exact NEW_TREE_MAP_bounds hx.1.1 hx.1.2 hx.2.1 hx.2.2

theorem ignitedFrom_sublist (p : Params) (rnd : Nat → Nat) (s0 : Forest)
    (l : List (Int × Int)) : ∀ n, (ignitedFrom p rnd s0 n l).Sublist l := by
  induction l with
  | nil => intro n; exact List.Sublist.slnil
  | cons y l ih =>
    intro n
    unfold ignitedFrom
    split
    · split
      · exact (ih _).cons₂ _
      · exact (ih _).cons _
    · exact (ih _).cons _

theorem candidate_of_mem_ignitedFrom (p : Params) (rnd : Nat → Nat) (s0 : Forest)
    (l : List (Int × Int)) (x : Int × Int) :
    ∀ n, x ∈ ignitedFrom p rnd s0 n l → candidate p s0 x = true := by
  induction l with
  | nil => intro n h; simp [ignitedFrom] at h
  | cons y l ih =>
    intro n h
    unfold ignitedFrom at h
    split at h
    · rename_i hy
      split at h
      · rcases List.mem_cons.mp h with h | h
        · rw [h]; exact hy
        · exact ih _ h
      · exact ih _ h
    · exact ih _ h

theorem mem_cells_of_mem_ignited {p : Params} {rnd : Nat → Nat} {s : Forest} {x : Int × Int}
    (h : x ∈ ignited p rnd s) : x ∈ cells p :=
  (ignitedFrom_sublist p rnd s (cells p) _).subset h

theorem candidate_of_mem_ignited {p : Params} {rnd : Nat → Nat} {s : Forest} {x : Int × Int}
    (h : x ∈ ignited p rnd s) : candidate p s x = true :=
  candidate_of_mem_ignitedFrom p rnd s _ x _ h

theorem ignited_nodup (p : Params) (rnd : Nat → Nat) (s : Forest) : (ignited p rnd s).Nodup :=
  (ignitedFrom_sublist p rnd s (cells p) _).nodup (cells_nodup p)

/-- One time step, as three sequences of writes. -/
theorem step_eq (p : Params) (rnd : Nat → Nat) (s : Forest) :
    step p rnd s =
      { Trees := applyWrites s.Trees ((cells p).map (fun x => (treeIdx p x,
          readAt (applyWrites (applyWrites s.NewTrees
            (((cells p).filter (onFire p s)).map
              (fun x => (newIdx p x, treeAt p s x.1 x.2 + 1))))
            ((ignited p rnd s).map (fun x => (newIdx p x, 1)))) (newIdx p x))))
        NewTrees := applyWrites (applyWrites s.NewTrees
            (((cells p).filter (onFire p s)).map
              (fun x => (newIdx p x, treeAt p s x.1 x.2 + 1))))
            ((ignited p rnd s).map (fun x => (newIdx p x, 1)))
        NBurnedTrees := s.NBurnedTrees + (ignited p rnd s).length
        NRandom := s.NRandom + (cells p).countP (candidate p s) } := by
  have h1 := ContinueBurning_fold p s (cells p) s rfl
  rw [← ContinueBurning_eq_fold] at h1
  have h2 := BurnNew_fold p rnd s (cells p) (ContinueBurning p s) (by rw [h1])
  rw [← BurnNew_eq_fold] at h2
  have h3 := AdvanceTime_fold p (BurnNew p rnd (ContinueBurning p s)) (cells p) _ rfl
  rw [← AdvanceTime_eq_fold] at h3
  unfold step
  rw [h3, h2, h1]
  rfl

theorem step_NBurnedTrees (p : Params) (rnd : Nat → Nat) (s : Forest) :
    (step p rnd s).NBurnedTrees = s.NBurnedTrees + (ignited p rnd s).length := by
  rw [step_eq]

theorem step_Sized {p : Params} (rnd : Nat → Nat) {s : Forest} (hs : Sized p s) :
    Sized p (step p rnd s) := by
  rw [step_eq]
  simpa [Sized, length_applyWrites] using hs

theorem step_newTreeAt {p : Params} (rnd : Nat → Nat) {s : Forest} (hs : Sized p s)
    {x : Int × Int} (hx : x ∈ cells p) :
    newTreeAt p (step p rnd s) x.1 x.2 = nextAge p rnd s x := by
  rw [step_eq]
  show readAt (applyWrites (applyWrites s.NewTrees _) _) (newIdx p x) = _
  have hb := newIdx_bounds hx
  unfold nextAge
  by_cases hi : x ∈ ignited p rnd s
  · rw [if_pos hi]
    exact readAt_applyWrites_map_mem (newIdx p) (· ∈ cells p) (newIdx_inj p) _ _
      (fun y hy => mem_cells_of_mem_ignited hy) (fun _ => 1) x hi hb.1
      (by rw [length_applyWrites]; have := hs.2; omega)
  · rw [if_neg hi, readAt_applyWrites_map_not_mem (newIdx p) (· ∈ cells p) (newIdx_inj p) _ _
      (fun y hy => mem_cells_of_mem_ignited hy) (fun _ => 1) x hx hi]
    by_cases hf : onFire p s x = true
    · rw [if_pos hf]
      exact readAt_applyWrites_map_mem (newIdx p) (· ∈ cells p) (newIdx_inj p) _ _
        (fun y hy => (List.mem_filter.mp hy).1) (fun y => treeAt p s y.1 y.2 + 1) x
        (List.mem_filter.mpr ⟨hx, hf⟩) hb.1 (by have := hs.2; omega)
    · rw [if_neg hf]
      exact readAt_applyWrites_map_not_mem (newIdx p) (· ∈ cells p) (newIdx_inj p) _ _
        (fun y hy => (List.mem_filter.mp hy).1) (fun y => treeAt p s y.1 y.2 + 1) x hx
        (fun h => hf (List.mem_filter.mp h).2)

theorem step_treeAt_eq_newTreeAt {p : Params} (rnd : Nat → Nat) {s : Forest} (hs : Sized p s)
    {x : Int × Int} (hx : x ∈ cells p) :
    treeAt p (step p rnd s) x.1 x.2 = newTreeAt p (step p rnd s) x.1 x.2 := by
  have hm := mem_cells.mp hx
  have hb := treeIdx_bounds (p := p) (x := x) (by omega) (by omega) (inCols_of_mem_cells hx)
  rw [step_eq]
  show readAt (applyWrites s.Trees _) (treeIdx p x) = readAt _ (newIdx p x)
  exact readAt_applyWrites_map_mem (treeIdx p) (inCols p) (treeIdx_inj p) _ _
    (fun y hy => inCols_of_mem_cells hy) _ x hx hb.1 (by have := hs.1; omega)

theorem step_Synced {p : Params} (rnd : Nat → Nat) {s : Forest} (hs : Sized p s) :
    Synced p (step p rnd s) :=
  fun _ hx => (step_treeAt_eq_newTreeAt rnd hs hx).symm

theorem step_treeAt {p : Params} (rnd : Nat → Nat) {s : Forest} (hs : Sized p s)
    {x : Int × Int} (hx : x ∈ cells p) :
    treeAt p (step p rnd s) x.1 x.2 = nextAge p rnd s x := by
  rw [step_treeAt_eq_newTreeAt rnd hs hx, step_newTreeAt rnd hs hx]

theorem step_treeAt_frame (p : Params) (rnd : Nat → Nat) (s : Forest)
    {x : Int × Int} (hc : inCols p x) (hx : x ∉ cells p) :
    treeAt p (step p rnd s) x.1 x.2 = treeAt p s x.1 x.2 := by
  rw [step_eq]
  show readAt (applyWrites s.Trees _) (treeIdx p x) = readAt s.Trees (treeIdx p x)
  exact readAt_applyWrites_map_not_mem (treeIdx p) (inCols p) (treeIdx_inj p) _ _
    (fun y hy => inCols_of_mem_cells hy) _ x hc hx

theorem product_pairwise_visitedBefore (rows cols : List Int)
    (hr : rows.Pairwise (· < ·)) (hc : cols.Pairwise (· < ·)) :
    (rows ×ˢ cols).Pairwise visitedBefore := by
  induction rows with
  | nil => simp
  | cons r rs ih =>
    rw [List.product_cons, List.pairwise_append]
    rw [List.pairwise_cons] at hr
    refine ⟨?_, ih hr.2, ?_⟩
    · rw [List.pairwise_map]
      exact hc.imp (fun h => Or.inr ⟨rfl, h⟩)
    · intro a ha b hb
      obtain ⟨c, _, rfl⟩ := List.mem_map.mp ha
      obtain ⟨hb1, _⟩ := List.mem_product.mp hb
      exact Or.inl (hr.1 _ hb1)

theorem cells_pairwise (p : Params) : (cells p).Pairwise visitedBefore :=
  product_pairwise_visitedBefore _ _ (loopRange_pairwise _ _) (loopRange_pairwise _ _)

theorem not_visitedBefore_self (x : Int × Int) : ¬ visitedBefore x x := by
  unfold visitedBefore; omega

theorem not_visitedBefore_of_visitedBefore {x y : Int × Int} (h : visitedBefore x y) :
    ¬ visitedBefore y x := by
  unfold visitedBefore at *; omega

theorem mem_ignitedFrom_iff (p : Params) (rnd : Nat → Nat) (s0 : Forest)
    (l : List (Int × Int)) (hl : l.Pairwise visitedBefore) (x : Int × Int) :
    ∀ n, x ∈ ignitedFrom p rnd s0 n l ↔
      x ∈ l ∧ candidate p s0 x = true ∧
        draw rnd (n + l.countP (fun y => decide (visitedBefore y x) && candidate p s0 y))
          < p.BurnProb := by
  induction l with
  | nil => intro n; simp [ignitedFrom]
  | cons y l ih =>
    intro n
    rw [List.pairwise_cons] at hl
    have ih := ih hl.2
    by_cases hxy : x = y
    · subst hxy
      have hnl : x ∉ l := fun h => not_visitedBefore_self x (hl.1 x h)
      have hcount : l.countP (fun y => decide (visitedBefore y x) && candidate p s0 y) = 0 := by
        rw [List.countP_eq_zero]
        intro z hz
        simp [not_visitedBefore_of_visitedBefore (hl.1 z hz)]
      have hni : ∀ m, x ∉ ignitedFrom p rnd s0 m l :=
        fun m h => hnl ((ignitedFrom_sublist p rnd s0 l m).subset h)
      rw [List.countP_cons_of_neg _ _ (by simp [not_visitedBefore_self]), hcount]
      unfold ignitedFrom
      by_cases hc : candidate p s0 x = true
      · by_cases hd : draw rnd n < p.BurnProb
        · simp [hc, hd]
        · simp [hc, hd, hni]
      · simp [hc, hni]
    · have hmem : x ∈ y :: l ↔ x ∈ l := by simp [hxy]
      unfold ignitedFrom
      by_cases hxl : x ∈ l
      · have hb : visitedBefore y x := hl.1 x hxl
        by_cases hc : candidate p s0 y = true
        · rw [List.countP_cons_of_pos _ _ (by simp [hb, hc]), if_pos hc]
          have e : n + (l.countP (fun y => decide (visitedBefore y x) && candidate p s0 y) + 1)
              = (n + 1) + l.countP (fun y => decide (visitedBefore y x) && candidate p s0 y) := by
            omega
          rw [e, hmem, ← ih (n + 1)]
          split
          · simp [hxy]
          · rfl
        · rw [List.countP_cons_of_neg _ _ (by simp [hc]), if_neg hc, hmem, ← ih n]
      · have hni : ∀ m, x ∉ ignitedFrom p rnd s0 m l :=
          fun m h => hxl ((ignitedFrom_sublist p rnd s0 l m).subset h)
        have : x ∉ y :: l := by simp [hxy, hxl]
        constructor
        · intro h
          exfalso
          split at h
          · split at h
            · rcases List.mem_cons.mp h with h | h
              · exact hxy h
              · exact hni _ h
            · exact hni _ h
          · exact hni _ h
        · intro h; exact absurd h.1 this

theorem mem_ignited_iff (p : Params) (rnd : Nat → Nat) (s : Forest) (x : Int × Int) :
    x ∈ ignited p rnd s ↔
      x ∈ cells p ∧ candidate p s x = true ∧ cellDraw p rnd s x < p.BurnProb :=
  mem_ignitedFrom_iff p rnd s (cells p) (cells_pairwise p) x s.NRandom

theorem candidate_iff (p : Params) (s : Forest) (x : Int × Int) :
    candidate p s x = true ↔
      (treeAt p s x.1 x.2 ≤ 0 ∧ treeAt p s x.1 x.2 < p.NMaxBurnSteps) ∧
        neighbourOnFire p s x.1 x.2 = true := by
  unfold candidate neighbourOnFire
  rw [Bool.and_eq_true]
  apply and_congr_left'
  simp only [IsOnFire, IsBurntOut, Bool.and_eq_true, Bool.not_eq_true', decide_eq_true_eq,
    Bool.not_and, Bool.not_not, Bool.or_eq_true, decide_eq_false_iff_not, ge_iff_le, gt_iff_lt]
  omega

theorem onFire_iff (p : Params) (s : Forest) (x : Int × Int) :
    onFire p s x = true ↔ 0 < treeAt p s x.1 x.2 ∧ treeAt p s x.1 x.2 < p.NMaxBurnSteps := by
  simp only [onFire, IsOnFire, IsBurntOut, Bool.and_eq_true, Bool.not_eq_true',
    decide_eq_true_eq, decide_eq_false_iff_not, ge_iff_le, gt_iff_lt, not_le]

theorem IsOnFire_iff (p : Params) (s : Forest) (r c : Int) :
    IsOnFire p s r c = true ↔ 0 < treeAt p s r c ∧ treeAt p s r c < p.NMaxBurnSteps :=
  onFire_iff p s (r, c)

/-- Transition rule on synced states: the age after a step, by cases on the age before. -/
theorem nextAge_cases {p : Params} (rnd : Nat → Nat) {s : Forest} (hsync : Synced p s)
    {x : Int × Int} (hx : x ∈ cells p) :
    (0 < treeAt p s x.1 x.2 ∧ treeAt p s x.1 x.2 < p.NMaxBurnSteps ∧
        nextAge p rnd s x = treeAt p s x.1 x.2 + 1) ∨
      (x ∈ ignited p rnd s ∧ treeAt p s x.1 x.2 ≤ 0 ∧ nextAge p rnd s x = 1) ∨
      (x ∉ ignited p rnd s ∧ ¬ (0 < treeAt p s x.1 x.2 ∧ treeAt p s x.1 x.2 < p.NMaxBurnSteps) ∧
        nextAge p rnd s x = treeAt p s x.1 x.2) := by
  unfold nextAge
  by_cases hi : x ∈ ignited p rnd s
  · have hc := (candidate_iff p s x).mp (candidate_of_mem_ignited hi)
    right; left
    exact ⟨hi, hc.1.1, by rw [if_pos hi]⟩
  · by_cases hf : onFire p s x = true
    · have := (onFire_iff p s x).mp hf
      left
      exact ⟨this.1, this.2, by rw [if_neg hi, if_pos hf]⟩
    · right; right
      refine ⟨hi, fun h => hf ((onFire_iff p s x).mpr h), ?_⟩
      rw [if_neg hi, if_neg hf, hsync x hx]

theorem setTree_fold (p : Params) (row v : Int) (cols : List Int) :
    ∀ s : Forest, cols.foldl (fun acc col => setTree p row col v acc) s
      = { s with Trees := (applyWrites s.Trees
            ((cols.map (fun col => (row, col))).map (fun x => (treeIdx p x, v)))) } := by
  induction cols with
  | nil => intro s; rfl
  | cons c cols ih =>
    intro s
    rw [List.foldl_cons, ih, List.map_cons, List.map_cons, applyWrites_cons]
    simp [setTree, treeIdx]

theorem InitBoundaryRow_eq (p : Params) (row : Int) (s : Forest) :
    InitBoundaryRow p row s
      = { s with Trees := (applyWrites s.Trees
            ((boundaryRowCells p row).map (fun x => (treeIdx p x, p.NMaxBurnSteps)))) } := by
  unfold InitBoundaryRow boundaryRowCells
  by_cases h : row = 0 ∨ row = p.NRows + 1
  · simp only [if_pos h, forLoop, setTree_fold, List.map_cons, List.map_append, List.map_nil,
      applyWrites_cons, applyWrites_append, applyWrites_nil]
    simp [setTree, treeIdx]
  · simp only [if_neg h, List.map_cons, List.nil_append, List.map_nil,
      applyWrites_cons, applyWrites_nil]
    simp [setTree, treeIdx]

theorem InitBoundaryRow_fold (p : Params) (rows : List Int) :
    ∀ s : Forest, rows.foldl (fun acc row => InitBoundaryRow p row acc) s
      = { s with Trees := (applyWrites s.Trees
            ((rows.flatMap (boundaryRowCells p)).map
              (fun x => (treeIdx p x, p.NMaxBurnSteps)))) } := by
  induction rows with
  | nil => intro s; rfl
  | cons r rows ih =>
    intro s
    rw [List.foldl_cons, ih, InitBoundaryRow_eq, List.flatMap_cons, List.map_append,
      applyWrites_append]

theorem InitBoundary_eq (p : Params) (s : Forest) :
    InitBoundary p s
      = { s with Trees := (applyWrites s.Trees
            ((boundaryCells p).map (fun x => (treeIdx p x, p.NMaxBurnSteps)))) } :=
  InitBoundaryRow_fold p _ s

theorem mem_boundaryCells {p : Params} (hc : 0 ≤ p.NCols) {x : Int × Int} :
    x ∈ boundaryCells p ↔
      (0 ≤ x.1 ∧ x.1 ≤ p.NRows + 1) ∧ (0 ≤ x.2 ∧ x.2 ≤ p.NCols + 1) ∧
        (x.1 = 0 ∨ x.1 = p.NRows + 1 ∨ x.2 = 0 ∨ x.2 = p.NCols + 1) := by
  obtain ⟨r, c⟩ := x
  unfold boundaryCells boundaryRowCells Params.NRowsPlusBounds
  simp only [List.mem_flatMap, mem_loopRange, List.mem_cons, List.mem_append, Prod.mk.injEq,
    List.mem_singleton]
  constructor
  · rintro ⟨row, hrow, h | h | h | h⟩
    · obtain ⟨rfl, rfl⟩ := h
      omega
    · split at h
      · rename_i hrow'
        simp only [List.mem_map, mem_loopRange, Prod.mk.injEq] at h
        obtain ⟨col, hcol, rfl, rfl⟩ := h
        omega
      · simp at h
    · obtain ⟨rfl, rfl⟩ := h
      omega
    · simp at h
  · intro h
    refine ⟨r, by omega, ?_⟩
    by_cases h0 : c = 0
    · left; exact ⟨rfl, h0⟩
    · by_cases h1 : c = p.NCols + 1
      · right; right; left; exact ⟨rfl, h1⟩
      · right; left
        have hrr : r = 0 ∨ r = p.NRows + 1 := by omega
        rw [if_pos hrr]
        simp only [List.mem_map, mem_loopRange, Prod.mk.injEq]
        exact ⟨c, by omega, trivial, rfl⟩

theorem inCols_of_mem_boundaryCells {p : Params} (hc : 0 ≤ p.NCols)
    {x : Int × Int} (hx : x ∈ boundaryCells p) : inCols p x :=
  ((mem_boundaryCells hc).mp hx).2.1

theorem tdiv_two_bounds {n : Int} (h : 1 ≤ n) : 0 ≤ Int.tdiv n 2 ∧ Int.tdiv n 2 + 1 ≤ n := by
  rw [Int.tdiv_eq_ediv (by omega) (by omega)]
  omega

theorem RandBetween_bounds (rnd : Nat → Nat) (s : Forest) (min max : Int) (h : min < max) :
    min ≤ (RandBetween rnd min max s).1 ∧ (RandBetween rnd min max s).1 < max := by
  unfold RandBetween
  have h1 : 0 ≤ Int.tmod (rnd s.NRandom : Int) (max - min) :=
    Int.tmod_nonneg _ (Int.ofNat_nonneg _)
  have h2 : Int.tmod (rnd s.NRandom : Int) (max - min) < max - min :=
    Int.tmod_lt_of_pos _ (by omega)
  constructor <;> simp only <;> omega

theorem firstCell_mem_cells {p : Params} (rnd : Nat → Nat) (s : Forest)
    (hr : 1 ≤ p.NRows) (hc : 1 ≤ p.NCols) : firstCell p rnd s ∈ cells p := by
  rw [mem_cells]
  unfold firstCell FirstTree
  by_cases h : p.IsRandFirstTree = true
  · simp only [h, if_true]
    have h1 := RandBetween_bounds rnd s 1 (p.NRows + 1) (by omega)
    have h2 := RandBetween_bounds rnd (RandBetween rnd 1 (p.NRows + 1) s).2
      1 (p.NCols + 1) (by omega)
    omega
  · rw [Bool.not_eq_true] at h
    simp only [h, Bool.false_eq_true, if_false, Params.MiddleRow, Params.MiddleCol]
    have h1 := tdiv_two_bounds hr
    have h2 := tdiv_two_bounds hc
    omega

theorem FirstTree_state (p : Params) (rnd : Nat → Nat) (s : Forest) :
    (FirstTree p rnd s).2.2
      = { s with NRandom := s.NRandom + (if p.IsRandFirstTree then 2 else 0) } := by
  unfold FirstTree
  by_cases h : p.IsRandFirstTree = true <;> simp [h, RandBetween]

theorem firstCell_congr (p : Params) (rnd : Nat → Nat) {s s' : Forest}
    (h : s.NRandom = s'.NRandom) : firstCell p rnd s = firstCell p rnd s' := by
  unfold firstCell FirstTree
  by_cases hf : p.IsRandFirstTree = true <;> simp [hf, RandBetween, h]

theorem InitData_eq_aux (p : Params) (rnd : Nat → Nat) (s : Forest) :
    InitData p rnd s =
      { Trees := writeAt (InitBoundary p (InitInterior p s)).Trees
          (treeIdx p (firstCell p rnd (InitBoundary p (InitInterior p s)))) 1
        NewTrees := writeAt (InitBoundary p (InitInterior p s)).NewTrees
          (newIdx p (firstCell p rnd (InitBoundary p (InitInterior p s)))) 1
        NBurnedTrees := (InitBoundary p (InitInterior p s)).NBurnedTrees + 1
        NRandom := (InitBoundary p (InitInterior p s)).NRandom
          + (if p.IsRandFirstTree then 2 else 0) } := by
  have h3 := FirstTree_state p rnd (InitBoundary p (InitInterior p s))
  unfold InitData
  simp only [setTree, setNewTree]
  rw [h3]
  rfl

/-- Function `InitData` as sequences of writes. -/
theorem InitData_eq (p : Params) (rnd : Nat → Nat) (s : Forest) :
    InitData p rnd s =
      { Trees := writeAt (applyWrites (applyWrites s.Trees
            ((cells p).map (fun x => (treeIdx p x, 0))))
            ((boundaryCells p).map (fun x => (treeIdx p x, p.NMaxBurnSteps))))
            (treeIdx p (firstCell p rnd s)) 1
        NewTrees := writeAt (applyWrites s.NewTrees ((cells p).map (fun x => (newIdx p x, 0))))
            (newIdx p (firstCell p rnd s)) 1
        NBurnedTrees := s.NBurnedTrees + 1
        NRandom := s.NRandom + (if p.IsRandFirstTree then 2 else 0) } := by
  have h1 : InitInterior p s = _ := (InitInterior_eq_fold p s).trans (InitInterior_fold p _ s)
  have h2 : InitBoundary p (InitInterior p s) =
      { Trees := applyWrites (applyWrites s.Trees ((cells p).map (fun x => (treeIdx p x, 0))))
          ((boundaryCells p).map (fun x => (treeIdx p x, p.NMaxBurnSteps)))
        NewTrees := applyWrites s.NewTrees ((cells p).map (fun x => (newIdx p x, 0)))
        NBurnedTrees := s.NBurnedTrees
        NRandom := s.NRandom } := by
    rw [InitBoundary_eq, h1]
  have h4 : firstCell p rnd (InitBoundary p (InitInterior p s)) = firstCell p rnd s :=
    firstCell_congr p rnd (by rw [h2])
  rw [InitData_eq_aux, h4, h2]

theorem not_mem_cells_of_mem_boundaryCells {p : Params} (hc : 0 ≤ p.NCols) {x : Int × Int}
    (hx : x ∈ boundaryCells p) : x ∉ cells p := by
  have h := (mem_boundaryCells hc).mp hx
  rw [mem_cells]
  omega

theorem not_mem_boundaryCells_of_mem_cells {p : Params} (hc : 0 ≤ p.NCols) {x : Int × Int}
    (hx : x ∈ cells p) : x ∉ boundaryCells p :=
  fun h => not_mem_cells_of_mem_boundaryCells hc h hx

theorem InitData_NBurnedTrees (p : Params) (rnd : Nat → Nat) (s : Forest) :
    (InitData p rnd s).NBurnedTrees = s.NBurnedTrees + 1 := by
  rw [InitData_eq]

theorem InitData_NRandom (p : Params) (rnd : Nat → Nat) (s : Forest) :
    (InitData p rnd s).NRandom = s.NRandom + (if p.IsRandFirstTree then 2 else 0) := by
  rw [InitData_eq]

theorem InitData_Sized {p : Params} (rnd : Nat → Nat) {s : Forest} (hs : Sized p s) :
    Sized p (InitData p rnd s) := by
  rw [InitData_eq]
  simpa [Sized, length_applyWrites, length_writeAt] using hs

theorem InitData_newTreeAt {p : Params} (rnd : Nat → Nat) {s : Forest} (hs : Sized p s)
    (hr : 1 ≤ p.NRows) (hc : 1 ≤ p.NCols) {x : Int × Int} (hx : x ∈ cells p) :
    newTreeAt p (InitData p rnd s) x.1 x.2 = if x = firstCell p rnd s then 1 else 0 := by
  have hf := firstCell_mem_cells rnd s hr hc
  have hb := newIdx_bounds hx
  rw [InitData_eq]
  show readAt (writeAt (applyWrites s.NewTrees _) (newIdx p (firstCell p rnd s)) 1)
    (newIdx p x) = _
  by_cases hxf : x = firstCell p rnd s
  · rw [if_pos hxf, ← hxf]
    exact readAt_writeAt_eq 1 hb.1 (by rw [length_applyWrites]; have := hs.2; omega)
  · rw [if_neg hxf, readAt_writeAt_ne 1 (fun h => hxf (newIdx_inj p _ _ hf hx h).symm)]
    exact readAt_applyWrites_map_mem (newIdx p) (· ∈ cells p) (newIdx_inj p) _ _
      (fun _ hy => hy) (fun _ => 0) x hx hb.1 (by have := hs.2; omega)

theorem InitData_treeAt {p : Params} (rnd : Nat → Nat) {s : Forest} (hs : Sized p s)
    (hr : 1 ≤ p.NRows) (hc : 1 ≤ p.NCols) {x : Int × Int} (hx : x ∈ cells p) :
    treeAt p (InitData p rnd s) x.1 x.2 = if x = firstCell p rnd s then 1 else 0 := by
  have hf := firstCell_mem_cells rnd s hr hc
  have hm := mem_cells.mp hx
  have hb := treeIdx_bounds (p := p) (x := x) (by omega) (by omega) (inCols_of_mem_cells hx)
  rw [InitData_eq]
  show readAt (writeAt (applyWrites (applyWrites s.Trees _) _) (treeIdx p (firstCell p rnd s)) 1)
    (treeIdx p x) = _
  by_cases hxf : x = firstCell p rnd s
  · rw [if_pos hxf, ← hxf]
    exact readAt_writeAt_eq 1 hb.1
      (by rw [length_applyWrites, length_applyWrites]; have := hs.1; omega)
  · rw [if_neg hxf, readAt_writeAt_ne 1 (fun h => hxf
      (treeIdx_inj p _ _ (inCols_of_mem_cells hf) (inCols_of_mem_cells hx) h).symm),
      readAt_applyWrites_map_not_mem (treeIdx p) (inCols p) (treeIdx_inj p) _ _
        (fun y hy => inCols_of_mem_boundaryCells (by omega) hy) _ x (inCols_of_mem_cells hx)
        (not_mem_boundaryCells_of_mem_cells (by omega) hx)]
    exact readAt_applyWrites_map_mem (treeIdx p) (inCols p) (treeIdx_inj p) _ _
      (fun y hy => inCols_of_mem_cells hy) (fun _ => 0) x hx hb.1 (by have := hs.1; omega)

theorem InitData_treeAt_boundary {p : Params} (rnd : Nat → Nat) {s : Forest} (hs : Sized p s)
    (hr : 1 ≤ p.NRows) (hc : 1 ≤ p.NCols) {x : Int × Int} (hx : x ∈ boundaryCells p) :
    treeAt p (InitData p rnd s) x.1 x.2 = p.NMaxBurnSteps := by
  have hf := firstCell_mem_cells rnd s hr hc
  have hm := (mem_boundaryCells (p := p) (by omega)).mp hx
  have hcx := inCols_of_mem_boundaryCells (p := p) (by omega) hx
  have hb := treeIdx_bounds (p := p) (x := x) hm.1.1 hm.1.2 hcx
  rw [InitData_eq]
  show readAt (writeAt (applyWrites (applyWrites s.Trees _) _) (treeIdx p (firstCell p rnd s)) 1)
    (treeIdx p x) = _
  have hne : firstCell p rnd s ≠ x :=
    fun h => not_mem_cells_of_mem_boundaryCells (by omega) hx (h ▸ hf)
  rw [readAt_writeAt_ne 1 (fun h => hne (treeIdx_inj p _ _ (inCols_of_mem_cells hf) hcx h))]
  exact readAt_applyWrites_map_mem (treeIdx p) (inCols p) (treeIdx_inj p) _ _
    (fun y hy => inCols_of_mem_boundaryCells (by omega) hy) (fun _ => p.NMaxBurnSteps) x hx hb.1
    (by rw [length_applyWrites]; have := hs.1; omega)

theorem steps_zero (p : Params) (rnd : Nat → Nat) (s : Forest) : steps p rnd 0 s = s := rfl

theorem steps_succ (p : Params) (rnd : Nat → Nat) (n : Nat) (s : Forest) :
    steps p rnd (n + 1) s = step p rnd (steps p rnd n s) := by
  simp [steps, List.range_succ, List.foldl_append]

theorem simulate_zero (p : Params) (rnd : Nat → Nat) (t0 n0 : List Int) :
    simulate p rnd t0 n0 0 = InitData p rnd (startState t0 n0) := rfl

theorem simulate_succ (p : Params) (rnd : Nat → Nat) (t0 n0 : List Int) (n : Nat) :
    simulate p rnd t0 n0 (n + 1) = step p rnd (simulate p rnd t0 n0 n) :=
  steps_succ p rnd n _

theorem countP_or_of_disjoint {α : Type} (l : List α) (a b : α → Bool)
    (h : ∀ x ∈ l, ¬ (a x = true ∧ b x = true)) :
    l.countP (fun x => a x || b x) = l.countP a + l.countP b := by
  induction l with
  | nil => rfl
  | cons y l ih =>
    have ih := ih (fun x hx => h x (List.mem_cons_of_mem _ hx))
    have hy := h y (List.mem_cons_self _ _)
    simp only [List.countP_cons, ih]
    cases ha : a y <;> cases hb : b y <;> simp_all <;> omega

theorem countP_mem_of_sublist {l l' : List (Int × Int)} (hs : l'.Sublist l) (hn : l.Nodup) :
    l.countP (fun x => decide (x ∈ l')) = l'.length := by
  rw [List.countP_eq_length_filter]
  apply List.Perm.length_eq
  rw [List.perm_ext_iff_of_nodup (hn.filter _) (hs.nodup hn)]
  intro x
  simp only [List.mem_filter, decide_eq_true_eq]
  exact ⟨fun h => h.2, fun h => ⟨hs.subset h, h⟩⟩

theorem countP_mem_ignited (p : Params) (rnd : Nat → Nat) (s : Forest) :
    (cells p).countP (fun x => decide (x ∈ ignited p rnd s)) = (ignited p rnd s).length :=
  countP_mem_of_sublist (ignitedFrom_sublist p rnd s (cells p) _) (cells_nodup p)

/-- On a synced state with non-negative ages, the age after a step is non-zero exactly
when it was non-zero before or the cell is ignited in this step. -/
theorem nextAge_ne_zero_iff {p : Params} (rnd : Nat → Nat) {s : Forest} (hsync : Synced p s)
    (hnn : ∀ x ∈ cells p, 0 ≤ treeAt p s x.1 x.2) {x : Int × Int} (hx : x ∈ cells p) :
    nextAge p rnd s x ≠ 0 ↔ treeAt p s x.1 x.2 ≠ 0 ∨ x ∈ ignited p rnd s := by
  have h0 := hnn x hx
  rcases nextAge_cases rnd hsync hx with h | h | h
  · rw [h.2.2]; constructor
    · intro _; left; omega
    · intro _; omega
  · rw [h.2.2]; constructor
    · intro _; right; exact h.1
    · intro _; omega
  · rw [h.2.2]; constructor
    · intro h'; left; exact h'
    · rintro (h' | h')
      · exact h'
      · exact absurd h' h.1

theorem step_Inv {p : Params} (rnd : Nat → Nat) {s : Forest} (hc : 0 ≤ p.NCols)
    (h : Inv p s) : Inv p (step p rnd s) where
  sized := step_Sized rnd h.sized
  synced := step_Synced rnd h.sized
  boundary := by
    intro x hx
    rw [step_treeAt_frame p rnd s (inCols_of_mem_boundaryCells hc hx)
      (not_mem_cells_of_mem_boundaryCells hc hx)]
    exact h.boundary x hx
  nonneg := by
    intro x hx
    rw [step_treeAt rnd h.sized hx]
    have h0 := h.nonneg x hx
    rcases nextAge_cases rnd h.synced hx with h' | h' | h' <;> rw [h'.2.2] <;> omega
  burned := by
    rw [step_NBurnedTrees, h.burned, ← countP_mem_ignited p rnd s]
    have hd : ∀ x ∈ cells p, ¬ (decide (treeAt p s x.1 x.2 ≠ 0) = true ∧
        decide (x ∈ ignited p rnd s) = true) := by
      intro x hx
      simp only [decide_eq_true_eq]
      rintro ⟨h1, h2⟩
      have := ((candidate_iff p s x).mp (candidate_of_mem_ignited h2)).1.1
      have := h.nonneg x hx
      omega
    rw [← Nat.cast_add, ← countP_or_of_disjoint _ _ _ hd]
    congr 1
    apply List.countP_congr
    intro x hx
    rw [step_treeAt rnd h.sized hx]
    simp only [decide_eq_true_eq, Bool.or_eq_true]
    exact (nextAge_ne_zero_iff rnd h.synced h.nonneg hx).symm

theorem InitData_Inv {p : Params} (rnd : Nat → Nat) {s : Forest} (hs : Sized p s)
    (hr : 1 ≤ p.NRows) (hc : 1 ≤ p.NCols) (hb : s.NBurnedTrees = 0) :
    Inv p (InitData p rnd s) where
  sized := InitData_Sized rnd hs
  synced := by
    intro x hx
    rw [InitData_newTreeAt rnd hs hr hc hx, InitData_treeAt rnd hs hr hc hx]
  boundary := fun x hx => InitData_treeAt_boundary rnd hs hr hc hx
  nonneg := by
    intro x hx
    rw [InitData_treeAt rnd hs hr hc hx]
    split <;> omega
  burned := by
    rw [InitData_NBurnedTrees, hb]
    have h1 := countP_mem_of_sublist
      (List.singleton_sublist.mpr (firstCell_mem_cells rnd s hr hc)) (cells_nodup p)
    have : (cells p).countP (fun x => decide (treeAt p (InitData p rnd s) x.1 x.2 ≠ 0))
        = (cells p).countP (fun x => decide (x ∈ [firstCell p rnd s])) := by
      apply List.countP_congr
      intro x hx
      rw [InitData_treeAt rnd hs hr hc hx]
      by_cases hxf : x = firstCell p rnd s <;> simp [hxf]
    rw [this, h1]
    rfl

theorem startState_Sized {p : Params} {t0 n0 : List Int}
    (ht : (t0.length : Int) = p.NTreesPlusBounds) (hn : (n0.length : Int) = p.NTrees) :
    Sized p (startState t0 n0) := ⟨ht, hn⟩

/-- Every state of the simulation loop satisfies the invariant. -/
theorem simulate_Inv {p : Params} (rnd : Nat → Nat) {t0 n0 : List Int}
    (hr : 1 ≤ p.NRows) (hc : 1 ≤ p.NCols)
    (ht : (t0.length : Int) = p.NTreesPlusBounds) (hn : (n0.length : Int) = p.NTrees)
    (k : Nat) : Inv p (simulate p rnd t0 n0 k) := by
  induction k with
  | zero => exact InitData_Inv rnd (startState_Sized ht hn) hr hc rfl
  | succ k ih => rw [simulate_succ]; exact step_Inv rnd (by omega) ih

/-- C1: one step (`ContinueBurning`, `BurnNew`, `AdvanceTime`) from a state whose
`NewTrees` holds the interior of `Trees` (arrays of the allocated lengths, burn ages
non-negative) implements the transition rule at every interior cell `(row, col)`: an age
`a` with `0 < a < NMaxBurnSteps` becomes `a + 1`; an age `0` with a neighbour on fire in
the pre-step grid and a draw below `BurnProb` becomes `1`; every other age is kept; and
`NBurnedTrees` grows by the number of interior cells that went from `0` to `1`. -/
theorem step_implements_transition_rule (p : Params) (rnd : Nat → Nat) (s : Forest)
    (hsz : Sized p s) (hsync : Synced p s)
    (hnn : ∀ x ∈ cells p, 0 ≤ treeAt p s x.1 x.2)
    (row col : Int) (hrow : 1 ≤ row ∧ row ≤ p.NRows) (hcol : 1 ≤ col ∧ col ≤ p.NCols) :
    (0 < treeAt p s row col ∧ treeAt p s row col < p.NMaxBurnSteps →
        treeAt p (step p rnd s) row col = treeAt p s row col + 1) ∧
    (treeAt p s row col = 0 ∧ neighbourOnFire p s row col = true ∧
        cellDraw p rnd s (row, col) < p.BurnProb →
        treeAt p (step p rnd s) row col = 1) ∧
    (¬ (0 < treeAt p s row col ∧ treeAt p s row col < p.NMaxBurnSteps) ∧
        ¬ (treeAt p s row col = 0 ∧ neighbourOnFire p s row col = true ∧
          cellDraw p rnd s (row, col) < p.BurnProb) →
        treeAt p (step p rnd s) row col = treeAt p s row col) ∧
    (step p rnd s).NBurnedTrees = s.NBurnedTrees +
      (cells p).countP (fun x => decide (treeAt p s x.1 x.2 = 0 ∧
        treeAt p (step p rnd s) x.1 x.2 = 1)) := by
  have hx : (row, col) ∈ cells p := mem_cells.mpr ⟨hrow, hcol⟩
  have hstep := step_treeAt rnd hsz hx
  have hcases := nextAge_cases rnd hsync hx
  have hmem := mem_ignited_iff p rnd s (row, col)
  have hcand := candidate_iff p s (row, col)
  have h0 := hnn _ hx
  simp only at hstep hcases hcand h0
  refine ⟨?_, ?_, ?_, ?_⟩
  · intro h
    rcases hcases with h' | h' | h'
    · rw [hstep, h'.2.2]
    · omega
    · exact absurd h h'.2.1
  · rintro ⟨ha, hn, hd⟩
    have hi : (row, col) ∈ ignited p rnd s := by
      rw [hmem, hcand]
      have hlt : treeAt p s row col < p.NMaxBurnSteps := by
        unfold neighbourOnFire at hn
        simp only [Bool.or_eq_true, IsOnFire_iff] at hn
        omega
      exact ⟨hx, ⟨⟨by omega, hlt⟩, hn⟩, hd⟩
    rcases hcases with h' | h' | h'
    · omega
    · rw [hstep, h'.2.2]
    · exact absurd hi h'.1
  · rintro ⟨h1, h2⟩
    rcases hcases with h' | h' | h'
    · exact absurd ⟨h'.1, h'.2.1⟩ h1
    · exfalso
      have hi := hmem.mp h'.1
      exact h2 ⟨by omega, (hcand.mp hi.2.1).2, hi.2.2⟩
    · rw [hstep, h'.2.2]
  · rw [step_NBurnedTrees, ← countP_mem_ignited p rnd s]
    congr 2
    apply List.countP_congr
    intro x hx'
    have hs' := step_treeAt rnd hsz hx'
    have hc' := nextAge_cases rnd hsync hx'
    have h0' := hnn _ hx'
    simp only [decide_eq_true_eq]
    rw [hs']
    rcases hc' with h' | h' | h'
    · constructor
      · intro hi
        have := ((candidate_iff p s x).mp (candidate_of_mem_ignited hi)).1.1
        omega
      · intro h; omega
    · exact ⟨fun _ => ⟨by omega, h'.2.2⟩, fun _ => h'.1⟩
    · constructor
      · intro hi; exact absurd hi h'.1
      · intro h; rw [h'.2.2] at h; omega

/-- Witness for `step_implements_transition_rule`: the 3 x 3 example state at the cell
north of the centre. -/
theorem step_implements_transition_rule_witness :
    (Sized exParams exForest ∧ Synced exParams exForest ∧
      (∀ x ∈ cells exParams, 0 ≤ treeAt exParams exForest x.1 x.2)) ∧
    treeAt exParams (step exParams exRnd exForest) 1 2 = 1 ∧
    (step exParams exRnd exForest).NBurnedTrees = exForest.NBurnedTrees +
      (cells exParams).countP (fun x => decide (treeAt exParams exForest x.1 x.2 = 0 ∧
        treeAt exParams (step exParams exRnd exForest) x.1 x.2 = 1)) :=
  have h1 : Sized exParams exForest := by decide
  have h2 : Synced exParams exForest := by decide
  have h3 : ∀ x ∈ cells exParams, 0 ≤ treeAt exParams exForest x.1 x.2 := by decide
  have h := step_implements_transition_rule exParams exRnd exForest h1 h2 h3 1 2
    (by decide) (by decide)
  ⟨⟨h1, h2, h3⟩, h.2.1 (by decide), h.2.2.2⟩

theorem draw_bounds (rnd : Nat → Nat) (n : Nat) : 0 ≤ draw rnd n ∧ draw rnd n < 100 := by
  unfold draw
  have h1 : 0 ≤ Int.tmod (rnd n : Int) (100 - 0) := Int.tmod_nonneg _ (Int.ofNat_nonneg _)
  have h2 : Int.tmod (rnd n : Int) (100 - 0) < 100 - 0 := Int.tmod_lt_of_pos _ (by omega)
  omega

/-- With `BurnProb = 100` the cells set on fire do not depend on the random source. -/
theorem ignitedFrom_BurnProb_100 (p : Params) (h : p.BurnProb = 100) (rnd rnd' : Nat → Nat)
    (s0 : Forest) (l : List (Int × Int)) :
    ∀ n, ignitedFrom p rnd s0 n l = ignitedFrom p rnd' s0 n l := by
  induction l with
  | nil => intro n; rfl
  | cons y l ih =>
    intro n
    have h1 : draw rnd n < p.BurnProb := by rw [h]; exact (draw_bounds rnd n).2
    have h2 : draw rnd' n < p.BurnProb := by rw [h]; exact (draw_bounds rnd' n).2
    simp only [ignitedFrom, h1, h2, if_true, ih]

theorem step_BurnProb_100 (p : Params) (h : p.BurnProb = 100) (rnd rnd' : Nat → Nat)
    (s : Forest) : step p rnd s = step p rnd' s := by
  rw [step_eq, step_eq, ignited, ignited, ignitedFrom_BurnProb_100 p h rnd rnd']

theorem steps_BurnProb_100 (p : Params) (h : p.BurnProb = 100) (rnd rnd' : Nat → Nat)
    (n : Nat) (s : Forest) : steps p rnd n s = steps p rnd' n s := by
  induction n with
  | zero => rfl
  | succ n ih => rw [steps_succ, steps_succ, ih, step_BurnProb_100 p h rnd rnd']

theorem InitData_centre_rnd (p : Params) (h : p.IsRandFirstTree = false) (rnd rnd' : Nat → Nat)
    (s : Forest) : InitData p rnd s = InitData p rnd' s := by
  have : firstCell p rnd s = firstCell p rnd' s := by
    unfold firstCell FirstTree; simp [h]
  rw [InitData_eq, InitData_eq, this]

theorem list_ext_readAt {a b : List Int} (hl : a.length = b.length)
    (h : ∀ i : Int, 0 ≤ i → i < a.length → readAt a i = readAt b i) : a = b := by
  apply List.ext_getElem hl
  intro n h1 h2
  have := h n (by omega) (by omega)
  unfold readAt at this
  simpa [h1, h2] using this

/-- Every index of `Trees` is the index of an interior cell or of a boundary cell. -/
theorem exists_cell_of_index {p : Params} (hc : 0 ≤ p.NCols) {i : Int} (h0 : 0 ≤ i)
    (h1 : i < p.NTreesPlusBounds) :
    ∃ x, (x ∈ cells p ∨ x ∈ boundaryCells p) ∧ treeIdx p x = i := by
  have hn : 0 < p.NCols + 2 := by omega
  have hmod0 := Int.emod_nonneg i (b := p.NCols + 2) (by omega)
  have hmod1 := Int.emod_lt_of_pos i hn
  have hdiv := Int.ediv_add_emod i (p.NCols + 2)
  have hdiv0 : 0 ≤ i / (p.NCols + 2) := Int.ediv_nonneg h0 (by omega)
  have hdiv1 : i / (p.NCols + 2) < p.NRows + 2 := by
    apply Int.ediv_lt_of_lt_mul hn
    simpa [Params.NTreesPlusBounds, Params.NRowsPlusBounds, Params.NColsPlusBounds] using h1
  refine ⟨(i / (p.NCols + 2), i % (p.NCols + 2)), ?_, ?_⟩
  · rw [mem_cells, mem_boundaryCells hc]
    simp only
    omega
  · simp only [treeIdx, TREE_MAP, Params.NColsPlusBounds]
    rw [mul_comm]; exact hdiv

/-- Every index of `NewTrees` is the index of an interior cell. -/
theorem exists_cell_of_newIndex {p : Params} (hc : 1 ≤ p.NCols) {i : Int} (h0 : 0 ≤ i)
    (h1 : i < p.NTrees) : ∃ x, x ∈ cells p ∧ newIdx p x = i := by
  have hmod0 := Int.emod_nonneg i (b := p.NCols) (by omega)
  have hmod1 := Int.emod_lt_of_pos i (b := p.NCols) (by omega)
  have hdiv := Int.ediv_add_emod i p.NCols
  have hdiv0 : 0 ≤ i / p.NCols := Int.ediv_nonneg h0 (by omega)
  have hdiv1 : i / p.NCols < p.NRows := by
    apply Int.ediv_lt_of_lt_mul (by omega)
    simpa [Params.NTrees] using h1
  refine ⟨(i / p.NCols + 1, i % p.NCols + 1), ?_, ?_⟩
  · rw [mem_cells]
    simp only
    omega
  · simp only [newIdx, NEW_TREE_MAP]
    rw [mul_comm]
    simpa using hdiv

/-- `InitData` overwrites every cell of the two arrays: its result does not depend on
what the arrays held before. -/
theorem InitData_overwrites {p : Params} (rnd : Nat → Nat) {s s' : Forest}
    (hr : 1 ≤ p.NRows) (hc : 1 ≤ p.NCols) (hs : Sized p s) (hs' : Sized p s')
    (hb : s.NBurnedTrees = s'.NBurnedTrees) (hn : s.NRandom = s'.NRandom) :
    InitData p rnd s = InitData p rnd s' := by
  have hS := InitData_Sized rnd hs
  have hS' := InitData_Sized rnd hs'
  have hf := firstCell_congr p rnd hn
  have hT : (InitData p rnd s).Trees = (InitData p rnd s').Trees := by
    apply list_ext_readAt
    · have := hS.1; have := hS'.1; omega
    · intro i h0 h1
      obtain ⟨x, hx, rfl⟩ := exists_cell_of_index (p := p) (by omega) h0
        (by have := hS.1; omega)
      show treeAt p (InitData p rnd s) x.1 x.2 = treeAt p (InitData p rnd s') x.1 x.2
      rcases hx with hx | hx
      · rw [InitData_treeAt rnd hs hr hc hx, InitData_treeAt rnd hs' hr hc hx, hf]
      · rw [InitData_treeAt_boundary rnd hs hr hc hx, InitData_treeAt_boundary rnd hs' hr hc hx]
  have hN : (InitData p rnd s).NewTrees = (InitData p rnd s').NewTrees := by
    apply list_ext_readAt
    · have := hS.2; have := hS'.2; omega
    · intro i h0 h1
      obtain ⟨x, hx, rfl⟩ := exists_cell_of_newIndex hc h0 (by have := hS.2; omega)
      show newTreeAt p (InitData p rnd s) x.1 x.2 = newTreeAt p (InitData p rnd s') x.1 x.2
      rw [InitData_newTreeAt rnd hs hr hc hx, InitData_newTreeAt rnd hs' hr hc hx, hf]
  have hB : (InitData p rnd s).NBurnedTrees = (InitData p rnd s').NBurnedTrees := by
    rw [InitData_NBurnedTrees, InitData_NBurnedTrees, hb]
  have hR : (InitData p rnd s).NRandom = (InitData p rnd s').NRandom := by
    rw [InitData_NRandom, InitData_NRandom, hn]
  cases h1 : InitData p rnd s
  cases h2 : InitData p rnd s'
  rw [h1, h2] at hT hN hB hR
  simp only at hT hN hB hR
  rw [hT, hN, hB, hR]

theorem simulate_exParams (rnd : Nat → Nat) (t0 n0 : List Int)
    (ht : t0.length = 25) (hn : n0.length = 9) (k : Nat) :
    simulate exParams rnd t0 n0 k = steps exParams exRnd k (InitData exParams exRnd exGarbage) := by
  have hs : Sized exParams (startState t0 n0) := by
    constructor
    · show (t0.length : Int) = _
      rw [ht]; rfl
    · show (n0.length : Int) = _
      rw [hn]; rfl
  unfold simulate
  rw [steps_BurnProb_100 exParams rfl rnd exRnd, InitData_centre_rnd exParams rfl rnd exRnd,
    InitData_overwrites exRnd (by decide) (by decide) hs (by decide : Sized exParams exGarbage)
      rfl rfl]

set_option maxRecDepth 100000 in
/-- C3: with `NRows = 3`, `NCols = 3`, `NMaxBurnSteps = 2`, `BurnProb = 100`, centre
ignition, any random source and any initial content of the allocated arrays: the first
tree is the interior cell `(1, 1)` (padded coordinates `(2, 2)`); after step 1 its four
orthogonal neighbours have age 1, it has age 2 and the corners have age 0; after step 2
the four corners have age 1, `NBurnedTrees` is 9 and `100 * NBurnedTrees / NTrees` is
exactly 100. -/
theorem example_3x3_centre (rnd : Nat → Nat) (t0 n0 : List Int)
    (ht : t0.length = 25) (hn : n0.length = 9) :
    (firstCell exParams rnd (startState t0 n0) = (2, 2) ∧
      treeAt exParams (simulate exParams rnd t0 n0 0) 2 2 = 1) ∧
    ((treeAt exParams (simulate exParams rnd t0 n0 1) 1 2 = 1 ∧
        treeAt exParams (simulate exParams rnd t0 n0 1) 2 1 = 1 ∧
        treeAt exParams (simulate exParams rnd t0 n0 1) 2 3 = 1 ∧
        treeAt exParams (simulate exParams rnd t0 n0 1) 3 2 = 1) ∧
      treeAt exParams (simulate exParams rnd t0 n0 1) 2 2 = 2 ∧
      (treeAt exParams (simulate exParams rnd t0 n0 1) 1 1 = 0 ∧
        treeAt exParams (simulate exParams rnd t0 n0 1) 1 3 = 0 ∧
        treeAt exParams (simulate exParams rnd t0 n0 1) 3 1 = 0 ∧
        treeAt exParams (simulate exParams rnd t0 n0 1) 3 3 = 0)) ∧
    ((treeAt exParams (simulate exParams rnd t0 n0 2) 1 1 = 1 ∧
        treeAt exParams (simulate exParams rnd t0 n0 2) 1 3 = 1 ∧
        treeAt exParams (simulate exParams rnd t0 n0 2) 3 1 = 1 ∧
        treeAt exParams (simulate exParams rnd t0 n0 2) 3 3 = 1) ∧
      (simulate exParams rnd t0 n0 2).NBurnedTrees = 9 ∧
      100 * ((simulate exParams rnd t0 n0 2).NBurnedTrees : ℚ) / (exParams.NTrees : ℚ) = 100) := by
  have hf : firstCell exParams rnd (startState t0 n0) = (2, 2) := by
    rfl
  rw [simulate_exParams rnd t0 n0 ht hn 0, simulate_exParams rnd t0 n0 ht hn 1,
    simulate_exParams rnd t0 n0 ht hn 2]
  have h9 : (steps exParams exRnd 2 (InitData exParams exRnd exGarbage)).NBurnedTrees = 9 := by
    decide
  refine ⟨⟨hf, by decide⟩, ⟨by decide, by decide, by decide⟩, by decide, h9, ?_⟩
  rw [h9]
  norm_num [exParams, Params.NTrees]

/-- Witness for `example_3x3_centre`: arrays of 25 and 9 cells holding the value 9. -/
theorem example_3x3_centre_witness :
    ((List.replicate 25 (9 : Int)).length = 25 ∧ (List.replicate 9 (9 : Int)).length = 9) ∧
    (simulate exParams exRnd (List.replicate 25 9) (List.replicate 9 9) 2).NBurnedTrees = 9 :=
  ⟨⟨rfl, rfl⟩, (example_3x3_centre exRnd (List.replicate 25 9) (List.replicate 9 9)
    rfl rfl).2.2.2.1⟩

theorem manhattan_eq_max (x y : Int × Int) :
    manhattan x y = max (x.1 - y.1) (y.1 - x.1) + max (x.2 - y.2) (y.2 - x.2) := by
  unfold manhattan
  rw [abs_eq_max_neg, abs_eq_max_neg, neg_sub, neg_sub]

theorem neighbour_mem {p : Params} {x : Int × Int} (hx : x ∈ cells p) (n : Int × Int)
    (hn : n = (x.1 - 1, x.2) ∨ n = (x.1, x.2 - 1) ∨ n = (x.1 + 1, x.2) ∨ n = (x.1, x.2 + 1)) :
    n ∈ cells p ∨ n ∈ boundaryCells p := by
  have hm := mem_cells.mp hx
  rw [mem_cells, mem_boundaryCells (by omega)]
  rcases hn with rfl | rfl | rfl | rfl <;> simp only <;> omega

/-- Spread of the fire with `BurnProb = 100`: the age of every interior cell after `k`
steps is given by its Manhattan distance to the first tree. -/
theorem simulate_spreadAge {p : Params} (rnd : Nat → Nat) {t0 n0 : List Int}
    (hr : 1 ≤ p.NRows) (hc : 1 ≤ p.NCols) (hmax : 1 < p.NMaxBurnSteps)
    (hbp : p.BurnProb = 100)
    (ht : (t0.length : Int) = p.NTreesPlusBounds) (hn : (n0.length : Int) = p.NTrees)
    (k : Nat) : ∀ x ∈ cells p,
      treeAt p (simulate p rnd t0 n0 k) x.1 x.2
        = spreadAge p (manhattan x (firstCell p rnd (startState t0 n0))) k := by
  have hfm := firstCell_mem_cells rnd (startState t0 n0) hr hc
  have hfm' := mem_cells.mp hfm
  induction k with
  | zero =>
    intro x hx
    rw [simulate_zero, InitData_treeAt rnd (startState_Sized ht hn) hr hc hx]
    unfold spreadAge
    rw [manhattan_eq_max]
    by_cases hxf : x = firstCell p rnd (startState t0 n0)
    · rw [if_pos hxf, hxf]
      simp only [sub_self, max_self, add_zero, Nat.cast_zero, le_refl, if_true, zero_add]
      omega
    · rw [if_neg hxf, if_neg]
      intro h
      apply hxf
      have h1 : x.1 = (firstCell p rnd (startState t0 n0)).1 := by
        simp only [Nat.cast_zero] at h; omega
      have h2 : x.2 = (firstCell p rnd (startState t0 n0)).2 := by
        simp only [Nat.cast_zero] at h; omega
      exact Prod.ext h1 h2
  | succ k ih =>
    have hinv := simulate_Inv rnd hr hc ht hn k
    -- a neighbour on fire is interior and within distance `k`
    have hnb : ∀ x ∈ cells p, ∀ n : Int × Int,
        (n = (x.1 - 1, x.2) ∨ n = (x.1, x.2 - 1) ∨ n = (x.1 + 1, x.2) ∨ n = (x.1, x.2 + 1)) →
        IsOnFire p (simulate p rnd t0 n0 k) n.1 n.2 = true →
        manhattan n (firstCell p rnd (startState t0 n0)) ≤ k := by
      intro x hx n hn hfire
      rw [IsOnFire_iff] at hfire
      rcases neighbour_mem hx n hn with h | h
      · have := ih n h
        unfold spreadAge at this
        split at this
        · assumption
        · omega
      · have := hinv.boundary n h
        omega
    intro x hx
    have hm := mem_cells.mp hx
    rw [simulate_succ, step_treeAt rnd hinv.sized hx]
    have hage := ih x hx
    rcases nextAge_cases rnd hinv.synced hx with h | h | h
    · rw [h.2.2, hage]
      rw [hage] at h
      have h1 := h.1
      have h2 := h.2.1
      unfold spreadAge at h1 h2 ⊢
      push_cast
      split at h1
      · rw [if_pos (by assumption)] at h2
        rw [if_pos (by omega)]
        omega
      · omega
    · rw [h.2.2]
      have hcand := (candidate_iff p _ x).mp (candidate_of_mem_ignited h.1)
      have hd : (k : Int) < manhattan x (firstCell p rnd (startState t0 n0)) := by
        have h1 := h.2.1
        rw [hage] at h1
        unfold spreadAge at h1
        split at h1
        · omega
        · omega
      have hd' : manhattan x (firstCell p rnd (startState t0 n0)) ≤ k + 1 := by
        have hn := hcand.2
        unfold neighbourOnFire at hn
        simp only [Bool.or_eq_true] at hn
        rcases hn with ((hn | hn) | hn) | hn
        · have := hnb x hx (x.1 - 1, x.2) (Or.inl rfl) hn
          rw [manhattan_eq_max] at this ⊢
          simp only at this
          omega
        · have := hnb x hx (x.1, x.2 - 1) (Or.inr (Or.inl rfl)) hn
          rw [manhattan_eq_max] at this ⊢
          simp only at this
          omega
        · have := hnb x hx (x.1 + 1, x.2) (Or.inr (Or.inr (Or.inl rfl))) hn
          rw [manhattan_eq_max] at this ⊢
          simp only at this
          omega
        · have := hnb x hx (x.1, x.2 + 1) (Or.inr (Or.inr (Or.inr rfl))) hn
          rw [manhattan_eq_max] at this ⊢
          simp only at this
          omega
      unfold spreadAge
      push_cast
      rw [if_pos hd']
      omega
    · rw [h.2.2, hage]
      have h1 := h.2.1
      rw [hage] at h1
      by_cases hd : manhattan x (firstCell p rnd (startState t0 n0)) = k + 1
      · exfalso
        apply h.1
        rw [mem_ignited_iff]
        refine ⟨hx, ?_, by rw [hbp]; exact (draw_bounds _ _).2⟩
        rw [candidate_iff]
        have ha0 : treeAt p (simulate p rnd t0 n0 k) x.1 x.2 = 0 := by
          rw [hage]; unfold spreadAge; rw [if_neg (by omega)]
        refine ⟨by omega, ?_⟩
        -- a neighbour one step closer to the first tree is on fire
        have key : ∀ n : Int × Int, n ∈ cells p →
            manhattan n (firstCell p rnd (startState t0 n0)) = k →
            IsOnFire p (simulate p rnd t0 n0 k) n.1 n.2 = true := by
          intro n hn hdn
          rw [IsOnFire_iff, ih n hn, hdn]
          unfold spreadAge
          rw [if_pos le_rfl]
          omega
        unfold neighbourOnFire
        simp only [Bool.or_eq_true]
        rw [manhattan_eq_max] at hd
        by_cases c1 : (firstCell p rnd (startState t0 n0)).1 < x.1
        · left; left; left
          apply key (x.1 - 1, x.2)
          · rw [mem_cells]; simp only; omega
          · rw [manhattan_eq_max]; simp only; omega
        · by_cases c2 : x.1 < (firstCell p rnd (startState t0 n0)).1
          · left; right
            apply key (x.1 + 1, x.2)
            · rw [mem_cells]; simp only; omega
            · rw [manhattan_eq_max]; simp only; omega
          · by_cases c3 : (firstCell p rnd (startState t0 n0)).2 < x.2
            · left; left; right
              apply key (x.1, x.2 - 1)
              · rw [mem_cells]; simp only; omega
              · rw [manhattan_eq_max]; simp only; omega
            · right
              apply key (x.1, x.2 + 1)
              · rw [mem_cells]; simp only; omega
              · rw [manhattan_eq_max]; simp only; omega
      · unfold spreadAge at h1 ⊢
        push_cast
        split at h1
        · rw [if_pos (by omega)]
          omega
        · rw [if_neg (by assumption), if_neg (by omega)]

theorem ignited_eq_nil_of_BurnProb_zero (p : Params) (rnd : Nat → Nat) (s : Forest)
    (hbp : p.BurnProb = 0) : ignited p rnd s = [] := by
  rw [List.eq_nil_iff_forall_not_mem]
  intro x hx
  have h := ((mem_ignited_iff p rnd s x).mp hx).2.2
  have := (draw_bounds rnd (drawIndex p s x)).1
  unfold cellDraw at h
  omega

/-- C5: for `NRows ≥ 1`, `NCols ≥ 1`, either ignition mode and any sequence of
non-negative random values, with `BurnProb = 0`, `NBurnedTrees` is 1 after `InitData` and
after any number of steps, and every interior cell other than the first tree has age 0. -/
theorem BurnProb_zero_never_spreads (p : Params) (rnd : Nat → Nat) (t0 n0 : List Int)
    (hr : 1 ≤ p.NRows) (hc : 1 ≤ p.NCols) (hbp : p.BurnProb = 0)
    (ht : (t0.length : Int) = p.NTreesPlusBounds) (hn : (n0.length : Int) = p.NTrees)
    (k : Nat) :
    (simulate p rnd t0 n0 k).NBurnedTrees = 1 ∧
    ∀ row col : Int, 1 ≤ row → row ≤ p.NRows → 1 ≤ col → col ≤ p.NCols →
      (row, col) ≠ firstCell p rnd (startState t0 n0) →
      treeAt p (simulate p rnd t0 n0 k) row col = 0 := by
  induction k with
  | zero =>
    refine ⟨by rw [simulate_zero, InitData_NBurnedTrees]; rfl, ?_⟩
    intro row col h1 h2 h3 h4 hne
    rw [simulate_zero, InitData_treeAt rnd (startState_Sized ht hn) hr hc
      (x := (row, col)) (mem_cells.mpr ⟨⟨h1, h2⟩, ⟨h3, h4⟩⟩), if_neg hne]
  | succ k ih =>
    have hinv := simulate_Inv rnd hr hc ht hn k
    have hnil := ignited_eq_nil_of_BurnProb_zero p rnd (simulate p rnd t0 n0 k) hbp
    refine ⟨by rw [simulate_succ, step_NBurnedTrees, hnil, ih.1]; rfl, ?_⟩
    intro row col h1 h2 h3 h4 hne
    have hx : (row, col) ∈ cells p := mem_cells.mpr ⟨⟨h1, h2⟩, ⟨h3, h4⟩⟩
    have h0 := ih.2 row col h1 h2 h3 h4 hne
    rw [simulate_succ, step_treeAt rnd hinv.sized hx]
    rcases nextAge_cases rnd hinv.synced hx with h | h | h
    · have := h.1; simp only at this; omega
    · rw [hnil] at h; exact absurd h.1 (List.not_mem_nil _)
    · rw [h.2.2]; exact h0

/-- Witness for `BurnProb_zero_never_spreads`: the 3 x 3 forest after 5 steps. -/
theorem BurnProb_zero_never_spreads_witness :
    ((1 : Int) ≤ exParamsZero.NRows ∧ (1 : Int) ≤ exParamsZero.NCols ∧
      exParamsZero.BurnProb = 0 ∧
      ((List.replicate 25 (9 : Int)).length : Int) = exParamsZero.NTreesPlusBounds ∧
      ((List.replicate 9 (9 : Int)).length : Int) = exParamsZero.NTrees) ∧
    (simulate exParamsZero exRnd (List.replicate 25 9) (List.replicate 9 9) 5).NBurnedTrees
      = 1 :=
  ⟨⟨by decide, by decide, rfl, by decide, by decide⟩,
    (BurnProb_zero_never_spreads exParamsZero exRnd (List.replicate 25 9)
      (List.replicate 9 9) (by decide) (by decide) rfl (by decide) (by decide) 5).1⟩

/-- On a synced state a step decreases the age of no interior cell. -/
theorem treeAt_le_step {p : Params} (rnd : Nat → Nat) {s : Forest} (hsz : Sized p s)
    (hsync : Synced p s) {x : Int × Int} (hx : x ∈ cells p) :
    treeAt p s x.1 x.2 ≤ treeAt p (step p rnd s) x.1 x.2 := by
  rw [step_treeAt rnd hsz hx]
  rcases nextAge_cases rnd hsync hx with h | h | h
  · rw [h.2.2]; omega
  · rw [h.2.2]; have := h.2.1; omega
  · rw [h.2.2]

/-- C7: in every state reached from `InitData`, for any random source, one more step
decreases neither `NBurnedTrees` nor the age of any interior cell of `Trees`. -/
theorem step_never_decreases (p : Params) (rnd : Nat → Nat) (t0 n0 : List Int)
    (hr : 1 ≤ p.NRows) (hc : 1 ≤ p.NCols)
    (ht : (t0.length : Int) = p.NTreesPlusBounds) (hn : (n0.length : Int) = p.NTrees)
    (k : Nat) :
    (simulate p rnd t0 n0 k).NBurnedTrees
      ≤ (step p rnd (simulate p rnd t0 n0 k)).NBurnedTrees ∧
    ∀ row col : Int, 1 ≤ row → row ≤ p.NRows → 1 ≤ col → col ≤ p.NCols →
      treeAt p (simulate p rnd t0 n0 k) row col
        ≤ treeAt p (step p rnd (simulate p rnd t0 n0 k)) row col := by
  have hinv := simulate_Inv rnd hr hc ht hn k
  constructor
  · rw [step_NBurnedTrees]
    have : (0 : Int) ≤ ((ignited p rnd (simulate p rnd t0 n0 k)).length : Int) :=
      Int.ofNat_nonneg _
    omega
  · intro row col h1 h2 h3 h4
    exact treeAt_le_step rnd hinv.sized hinv.synced (x := (row, col))
      (mem_cells.mpr ⟨⟨h1, h2⟩, ⟨h3, h4⟩⟩)

/-- Witness for `step_never_decreases`: the 3 x 3 forest, step 2 after step 1. -/
theorem step_never_decreases_witness :
    ((1 : Int) ≤ exParams.NRows ∧ (1 : Int) ≤ exParams.NCols ∧
      ((List.replicate 25 (9 : Int)).length : Int) = exParams.NTreesPlusBounds ∧
      ((List.replicate 9 (9 : Int)).length : Int) = exParams.NTrees) ∧
    (simulate exParams exRnd (List.replicate 25 9) (List.replicate 9 9) 1).NBurnedTrees
      ≤ (step exParams exRnd
          (simulate exParams exRnd (List.replicate 25 9) (List.replicate 9 9) 1)).NBurnedTrees :=
  ⟨⟨by decide, by decide, by decide, by decide⟩,
    (step_never_decreases exParams exRnd (List.replicate 25 9) (List.replicate 9 9)
      (by decide) (by decide) (by decide) (by decide) 1).1⟩

/-- C8: after `InitData` and after every later step, every cell of the boundary ring of
`Trees` (row `0`, row `NRows + 1`, column `0`, column `NCols + 1`) holds `NMaxBurnSteps`
and is not on fire; the tree `InitData` lights is an interior cell, and a step increases
`NBurnedTrees` by the number of interior cells whose age leaves `0`, so no increment is
made for a boundary cell. -/
theorem boundary_ring_stays_burnt_out (p : Params) (rnd : Nat → Nat) (t0 n0 : List Int)
    (hr : 1 ≤ p.NRows) (hc : 1 ≤ p.NCols)
    (ht : (t0.length : Int) = p.NTreesPlusBounds) (hn : (n0.length : Int) = p.NTrees)
    (k : Nat) :
    (∀ row col : Int, 0 ≤ row → row ≤ p.NRows + 1 → 0 ≤ col → col ≤ p.NCols + 1 →
      (row = 0 ∨ row = p.NRows + 1 ∨ col = 0 ∨ col = p.NCols + 1) →
      treeAt p (simulate p rnd t0 n0 k) row col = p.NMaxBurnSteps ∧
        IsOnFire p (simulate p rnd t0 n0 k) row col = false) ∧
    ((1 ≤ (firstCell p rnd (startState t0 n0)).1 ∧
        (firstCell p rnd (startState t0 n0)).1 ≤ p.NRows) ∧
      (1 ≤ (firstCell p rnd (startState t0 n0)).2 ∧
        (firstCell p rnd (startState t0 n0)).2 ≤ p.NCols)) ∧
    (simulate p rnd t0 n0 (k + 1)).NBurnedTrees = (simulate p rnd t0 n0 k).NBurnedTrees +
      (cells p).countP (fun x => decide (treeAt p (simulate p rnd t0 n0 k) x.1 x.2 = 0 ∧
        treeAt p (simulate p rnd t0 n0 (k + 1)) x.1 x.2 ≠ 0)) := by
  have hinv := simulate_Inv rnd hr hc ht hn k
  have hinv' := simulate_Inv rnd hr hc ht hn (k + 1)
  refine ⟨?_, mem_cells.mp (firstCell_mem_cells rnd _ hr hc), ?_⟩
  · intro row col h1 h2 h3 h4 h5
    have hb := hinv.boundary (row, col)
      ((mem_boundaryCells (by omega)).mpr ⟨⟨h1, h2⟩, ⟨h3, h4⟩, h5⟩)
    simp only at hb
    refine ⟨hb, ?_⟩
    rw [Bool.eq_false_iff]
    intro hfire
    have := (IsOnFire_iff p _ row col).mp hfire
    omega
  · have hd : ∀ x ∈ cells p,
        ¬ (decide (treeAt p (simulate p rnd t0 n0 k) x.1 x.2 ≠ 0) = true ∧
          decide (treeAt p (simulate p rnd t0 n0 k) x.1 x.2 = 0 ∧
            treeAt p (simulate p rnd t0 n0 (k + 1)) x.1 x.2 ≠ 0) = true) := by
      intro x _
      simp only [decide_eq_true_eq]
      intro h
      exact h.1 h.2.1
    rw [hinv'.burned, hinv.burned, ← Nat.cast_add, ← countP_or_of_disjoint _ _ _ hd]
    congr 1
    apply List.countP_congr
    intro x hx
    have hmono := treeAt_le_step rnd hinv.sized hinv.synced hx
    rw [← simulate_succ] at hmono
    have h0 := hinv.nonneg x hx
    simp only [decide_eq_true_eq, Bool.or_eq_true]
    constructor
    · intro h
      by_cases hz : treeAt p (simulate p rnd t0 n0 k) x.1 x.2 = 0
      · right; exact ⟨hz, h⟩
      · left; exact hz
    · rintro (h | h)
      · omega
      · exact h.2

/-- Witness for `boundary_ring_stays_burnt_out`: the 3 x 3 forest after 1 step, at the
top-left corner of the ring. -/
theorem boundary_ring_stays_burnt_out_witness :
    ((1 : Int) ≤ exParams.NRows ∧ (1 : Int) ≤ exParams.NCols ∧
      ((List.replicate 25 (9 : Int)).length : Int) = exParams.NTreesPlusBounds ∧
      ((List.replicate 9 (9 : Int)).length : Int) = exParams.NTrees) ∧
    (treeAt exParams (simulate exParams exRnd (List.replicate 25 9) (List.replicate 9 9) 1) 0 0
        = exParams.NMaxBurnSteps ∧
      IsOnFire exParams (simulate exParams exRnd (List.replicate 25 9) (List.replicate 9 9) 1)
        0 0 = false) :=
  ⟨⟨by decide, by decide, by decide, by decide⟩,
    (boundary_ring_stays_burnt_out exParams exRnd (List.replicate 25 9) (List.replicate 9 9)
      (by decide) (by decide) (by decide) (by decide) 1).1 0 0
      (by decide) (by decide) (by decide) (by decide) (Or.inl rfl)⟩

/-- C9: from a synced state (arrays of the allocated lengths, `NewTrees` holding the
interior of `Trees`) and for any random source, an interior cell whose age is `0` before
a step and non-zero after it has age exactly `1` after it and had a neighbour on fire in
the pre-step grid; so a cell with age `0` none of whose four neighbours is on fire
before the step still has age `0` after it, whatever happens to its neighbours in that
step. -/
theorem ignition_needs_neighbour_on_fire (p : Params) (rnd : Nat → Nat) (s : Forest)
    (hsz : Sized p s) (hsync : Synced p s)
    (row col : Int) (hrow : 1 ≤ row ∧ row ≤ p.NRows) (hcol : 1 ≤ col ∧ col ≤ p.NCols)
    (h0 : treeAt p s row col = 0) :
    (treeAt p (step p rnd s) row col ≠ 0 →
      treeAt p (step p rnd s) row col = 1 ∧ neighbourOnFire p s row col = true) ∧
    (neighbourOnFire p s row col = false → treeAt p (step p rnd s) row col = 0) := by
  have hx : (row, col) ∈ cells p := mem_cells.mpr ⟨hrow, hcol⟩
  have hstep := step_treeAt rnd hsz hx
  have hcases := nextAge_cases rnd hsync hx
  simp only at hstep hcases
  rw [hstep]
  rcases hcases with h | h | h
  · omega
  · have hn := ((candidate_iff p s (row, col)).mp (candidate_of_mem_ignited h.1)).2
    simp only at hn
    rw [h.2.2]
    exact ⟨fun _ => ⟨rfl, hn⟩, fun hf => by rw [hn] at hf; exact absurd hf (by decide)⟩
  · rw [h.2.2, h0]
    exact ⟨fun hne => absurd rfl hne, fun _ => rfl⟩

set_option maxRecDepth 100000 in
/-- Witness for `ignition_needs_neighbour_on_fire`: in the 3 x 3 example state the
corner `(1, 1)` has no neighbour on fire; it keeps age `0` in the step in which its
neighbour `(1, 2)` catches fire. -/
theorem ignition_needs_neighbour_on_fire_witness :
    (Sized exParams exForest ∧ Synced exParams exForest ∧
      treeAt exParams exForest 1 1 = 0 ∧ neighbourOnFire exParams exForest 1 1 = false) ∧
    treeAt exParams (step exParams exRnd exForest) 1 1 = 0 ∧
    treeAt exParams (step exParams exRnd exForest) 1 2 = 1 :=
  ⟨⟨by decide, by decide, by decide, by decide⟩,
    (ignition_needs_neighbour_on_fire exParams exRnd exForest (by decide) (by decide) 1 1
      (by decide) (by decide) (by decide)).2 (by decide),
    by decide⟩

/-- C17: after `InitData` and after every later step, for `NRows ≥ 1` and `NCols ≥ 1`,
`NewTrees[NEW_TREE_MAP(row, col)]` equals `Trees[TREE_MAP(row, col)]` at every interior
cell. -/
theorem NewTrees_mirrors_Trees (p : Params) (rnd : Nat → Nat) (t0 n0 : List Int)
    (hr : 1 ≤ p.NRows) (hc : 1 ≤ p.NCols)
    (ht : (t0.length : Int) = p.NTreesPlusBounds) (hn : (n0.length : Int) = p.NTrees)
    (k : Nat) (row col : Int) (hrow : 1 ≤ row ∧ row ≤ p.NRows)
    (hcol : 1 ≤ col ∧ col ≤ p.NCols) :
    readAt (simulate p rnd t0 n0 k).NewTrees (NEW_TREE_MAP row col p.NCols)
      = readAt (simulate p rnd t0 n0 k).Trees (TREE_MAP row col p.NColsPlusBounds) :=
  (simulate_Inv rnd hr hc ht hn k).synced (row, col) (mem_cells.mpr ⟨hrow, hcol⟩)

/-- Witness for `NewTrees_mirrors_Trees`: the 3 x 3 forest after 1 step, at the centre. -/
theorem NewTrees_mirrors_Trees_witness :
    ((1 : Int) ≤ exParams.NRows ∧ (1 : Int) ≤ exParams.NCols ∧
      ((List.replicate 25 (9 : Int)).length : Int) = exParams.NTreesPlusBounds ∧
      ((List.replicate 9 (9 : Int)).length : Int) = exParams.NTrees ∧
      ((1 : Int) ≤ 2 ∧ (2 : Int) ≤ exParams.NRows) ∧ ((1 : Int) ≤ 2 ∧ (2 : Int) ≤ exParams.NCols)) ∧
    readAt (simulate exParams exRnd (List.replicate 25 9) (List.replicate 9 9) 1).NewTrees
        (NEW_TREE_MAP 2 2 exParams.NCols)
      = readAt (simulate exParams exRnd (List.replicate 25 9) (List.replicate 9 9) 1).Trees
        (TREE_MAP 2 2 exParams.NColsPlusBounds) :=
  ⟨⟨by decide, by decide, by decide, by decide, by decide, by decide⟩,
    NewTrees_mirrors_Trees exParams exRnd (List.replicate 25 9) (List.replicate 9 9)
      (by decide) (by decide) (by decide) (by decide) 1 2 2 (by decide) (by decide)⟩

/-- C18: after `InitData` and after every later step, for `NRows ≥ 1`, `NCols ≥ 1` and any
random source, `NBurnedTrees` is the number of interior cells of `Trees` whose age is not
zero. -/
theorem NBurnedTrees_counts_burned_cells (p : Params) (rnd : Nat → Nat) (t0 n0 : List Int)
    (hr : 1 ≤ p.NRows) (hc : 1 ≤ p.NCols)
    (ht : (t0.length : Int) = p.NTreesPlusBounds) (hn : (n0.length : Int) = p.NTrees)
    (k : Nat) :
    (simulate p rnd t0 n0 k).NBurnedTrees
      = (cells p).countP (fun x => decide (treeAt p (simulate p rnd t0 n0 k) x.1 x.2 ≠ 0)) :=
  (simulate_Inv rnd hr hc ht hn k).burned

/-- Witness for `NBurnedTrees_counts_burned_cells`: the 3 x 3 forest after 1 step. -/
theorem NBurnedTrees_counts_burned_cells_witness :
    ((1 : Int) ≤ exParams.NRows ∧ (1 : Int) ≤ exParams.NCols ∧
      ((List.replicate 25 (9 : Int)).length : Int) = exParams.NTreesPlusBounds ∧
      ((List.replicate 9 (9 : Int)).length : Int) = exParams.NTrees) ∧
    (simulate exParams exRnd (List.replicate 25 9) (List.replicate 9 9) 1).NBurnedTrees
      = (cells exParams).countP (fun x => decide (treeAt exParams
          (simulate exParams exRnd (List.replicate 25 9) (List.replicate 9 9) 1) x.1 x.2 ≠ 0)) :=
  ⟨⟨by decide, by decide, by decide, by decide⟩,
    NBurnedTrees_counts_burned_cells exParams exRnd (List.replicate 25 9) (List.replicate 9 9)
      (by decide) (by decide) (by decide) (by decide) 1⟩

/-- With `NMaxBurnSteps ≥ 1` no interior age exceeds `NMaxBurnSteps`. -/
theorem simulate_le_NMaxBurnSteps {p : Params} (rnd : Nat → Nat) {t0 n0 : List Int}
    (hr : 1 ≤ p.NRows) (hc : 1 ≤ p.NCols) (hmax : 1 ≤ p.NMaxBurnSteps)
    (ht : (t0.length : Int) = p.NTreesPlusBounds) (hn : (n0.length : Int) = p.NTrees)
    (k : Nat) : ∀ x ∈ cells p, treeAt p (simulate p rnd t0 n0 k) x.1 x.2 ≤ p.NMaxBurnSteps := by
  induction k with
  | zero =>
    intro x hx
    rw [simulate_zero, InitData_treeAt rnd (startState_Sized ht hn) hr hc hx]
    split <;> omega
  | succ k ih =>
    intro x hx
    have hinv := simulate_Inv rnd hr hc ht hn k
    have := ih x hx
    rw [simulate_succ, step_treeAt rnd hinv.sized hx]
    rcases nextAge_cases rnd hinv.synced hx with h | h | h <;> rw [h.2.2] <;> omega

/-- C19: for `NMaxBurnSteps ≥ 1` (and `NRows ≥ 1`, `NCols ≥ 1`), after `InitData` and after
every later step every cell of `Trees`, interior or boundary, has an age between `0` and
`NMaxBurnSteps` inclusive. -/
theorem ages_between_zero_and_NMaxBurnSteps (p : Params) (rnd : Nat → Nat)
    (t0 n0 : List Int) (hr : 1 ≤ p.NRows) (hc : 1 ≤ p.NCols) (hmax : 1 ≤ p.NMaxBurnSteps)
    (ht : (t0.length : Int) = p.NTreesPlusBounds) (hn : (n0.length : Int) = p.NTrees)
    (k : Nat) (row col : Int) (hrow : 0 ≤ row ∧ row ≤ p.NRows + 1)
    (hcol : 0 ≤ col ∧ col ≤ p.NCols + 1) :
    0 ≤ treeAt p (simulate p rnd t0 n0 k) row col ∧
      treeAt p (simulate p rnd t0 n0 k) row col ≤ p.NMaxBurnSteps := by
  have hinv := simulate_Inv rnd hr hc ht hn k
  by_cases hx : (row, col) ∈ cells p
  · exact ⟨hinv.nonneg (row, col) hx,
      simulate_le_NMaxBurnSteps rnd hr hc hmax ht hn k (row, col) hx⟩
  · have hb : (row, col) ∈ boundaryCells p := by
      have hx' : ¬ ((1 ≤ row ∧ row ≤ p.NRows) ∧ (1 ≤ col ∧ col ≤ p.NCols)) :=
        fun h => hx (mem_cells.mpr h)
      have hc0 : 0 ≤ p.NCols := by omega
      refine (mem_boundaryCells hc0).mpr ⟨hrow, hcol, ?_⟩
      show row = 0 ∨ row = p.NRows + 1 ∨ col = 0 ∨ col = p.NCols + 1
      omega
    have := hinv.boundary (row, col) hb
    simp only at this
    omega

/-- Witness for `ages_between_zero_and_NMaxBurnSteps`: the 3 x 3 forest after 2 steps, at
the centre. -/
theorem ages_between_zero_and_NMaxBurnSteps_witness :
    ((1 : Int) ≤ exParams.NRows ∧ (1 : Int) ≤ exParams.NCols ∧
      (1 : Int) ≤ exParams.NMaxBurnSteps ∧
      ((List.replicate 25 (9 : Int)).length : Int) = exParams.NTreesPlusBounds ∧
      ((List.replicate 9 (9 : Int)).length : Int) = exParams.NTrees ∧
      ((0 : Int) ≤ 2 ∧ (2 : Int) ≤ exParams.NRows + 1) ∧
      ((0 : Int) ≤ 2 ∧ (2 : Int) ≤ exParams.NCols + 1)) ∧
    (0 ≤ treeAt exParams
        (simulate exParams exRnd (List.replicate 25 9) (List.replicate 9 9) 2) 2 2 ∧
      treeAt exParams (simulate exParams exRnd (List.replicate 25 9) (List.replicate 9 9) 2) 2 2
        ≤ exParams.NMaxBurnSteps) :=
  ⟨⟨by decide, by decide, by decide, by decide, by decide, by decide, by decide⟩,
    ages_between_zero_and_NMaxBurnSteps exParams exRnd (List.replicate 25 9)
      (List.replicate 9 9) (by decide) (by decide) (by decide) (by decide) (by decide) 2 2 2
      (by decide) (by decide)⟩

theorem steps_add (p : Params) (rnd : Nat → Nat) (m k : Nat) (s : Forest) :
    steps p rnd (m + k) s = steps p rnd k (steps p rnd m s) := by
  induction k with
  | zero => rfl
  | succ k ih => rw [← Nat.add_assoc, steps_succ, steps_succ, ih]

theorem simulate_add (p : Params) (rnd : Nat → Nat) (t0 n0 : List Int) (m k : Nat) :
    simulate p rnd t0 n0 (m + k) = steps p rnd k (simulate p rnd t0 n0 m) :=
  steps_add p rnd m k _

/-- C15: in a run from `InitData` (`NRows ≥ 1`, `NCols ≥ 1`, any random source), an
interior cell that is on fire with age `a`, `0 < a < NMaxBurnSteps`, after `m` steps has
age `min (a + k) NMaxBurnSteps` after `k` further steps; an interior cell with age at
least `NMaxBurnSteps` keeps that age through every later step; and a cell whose age is
not `0` never has age `0` again, so it goes from unburned to on fire at most once. -/
theorem age_grows_to_NMaxBurnSteps_and_stays (p : Params) (rnd : Nat → Nat)
    (t0 n0 : List Int) (hr : 1 ≤ p.NRows) (hc : 1 ≤ p.NCols)
    (ht : (t0.length : Int) = p.NTreesPlusBounds) (hn : (n0.length : Int) = p.NTrees)
    (m k : Nat) (row col : Int) (hrow : 1 ≤ row ∧ row ≤ p.NRows)
    (hcol : 1 ≤ col ∧ col ≤ p.NCols) :
    (0 < treeAt p (simulate p rnd t0 n0 m) row col ∧
        treeAt p (simulate p rnd t0 n0 m) row col < p.NMaxBurnSteps →
      treeAt p (steps p rnd k (simulate p rnd t0 n0 m)) row col
        = min (treeAt p (simulate p rnd t0 n0 m) row col + k) p.NMaxBurnSteps) ∧
    (p.NMaxBurnSteps ≤ treeAt p (simulate p rnd t0 n0 m) row col →
      treeAt p (steps p rnd k (simulate p rnd t0 n0 m)) row col
        = treeAt p (simulate p rnd t0 n0 m) row col) ∧
    (treeAt p (simulate p rnd t0 n0 m) row col ≠ 0 →
      treeAt p (steps p rnd k (simulate p rnd t0 n0 m)) row col ≠ 0) := by
  have hx : (row, col) ∈ cells p := mem_cells.mpr ⟨hrow, hcol⟩
  induction k with
  | zero =>
    rw [steps_zero]
    refine ⟨fun h => ?_, fun _ => rfl, fun h => h⟩
    simp only [Nat.cast_zero, add_zero]
    omega
  | succ k ih =>
    have hinv := simulate_Inv rnd hr hc ht hn (m + k)
    rw [simulate_add] at hinv
    have hstep := step_treeAt rnd hinv.sized hx
    have hcases := nextAge_cases rnd hinv.synced hx
    have hcand : (row, col) ∈ ignited p rnd (steps p rnd k (simulate p rnd t0 n0 m)) → _ :=
      fun h => (candidate_iff p (steps p rnd k (simulate p rnd t0 n0 m))
        (row, col)).mp (candidate_of_mem_ignited h)
    have hnn := hinv.nonneg _ hx
    have hnn0 := (simulate_Inv rnd hr hc ht hn m).nonneg _ hx
    simp only at hstep hcases hcand hnn hnn0
    rw [steps_succ, hstep]
    refine ⟨fun h => ?_, fun h => ?_, fun h => ?_⟩
    · have ih1 := ih.1 h
      rcases hcases with h' | h' | h'
      · rw [h'.2.2, ih1]
        have := h'.2.1
        rw [ih1] at this
        push_cast
        omega
      · have := h'.2.1
        rw [ih1] at this
        omega
      · rw [h'.2.2, ih1]
        have := h'.2.1
        rw [ih1] at this
        push_cast
        omega
    · have ih2 := ih.2.1 h
      rcases hcases with h' | h' | h'
      · omega
      · have := (hcand h'.1).1.2
        omega
      · rw [h'.2.2, ih2]
    · have ih3 := ih.2.2 h
      rcases hcases with h' | h' | h'
      · omega
      · omega
      · rw [h'.2.2]; exact ih3

/-- Witness for `age_grows_to_NMaxBurnSteps_and_stays`: the centre of the 3 x 3 forest,
on fire with age 1 after `InitData`, has age `min (1 + 3) 2 = 2` three steps later. -/
theorem age_grows_to_NMaxBurnSteps_and_stays_witness :
    ((1 : Int) ≤ exParams.NRows ∧ (1 : Int) ≤ exParams.NCols ∧
      ((List.replicate 25 (9 : Int)).length : Int) = exParams.NTreesPlusBounds ∧
      ((List.replicate 9 (9 : Int)).length : Int) = exParams.NTrees ∧
      ((1 : Int) ≤ 2 ∧ (2 : Int) ≤ exParams.NRows) ∧ ((1 : Int) ≤ 2 ∧ (2 : Int) ≤ exParams.NCols) ∧
      (0 < treeAt exParams
          (simulate exParams exRnd (List.replicate 25 9) (List.replicate 9 9) 0) 2 2 ∧
        treeAt exParams (simulate exParams exRnd (List.replicate 25 9) (List.replicate 9 9) 0) 2 2
          < exParams.NMaxBurnSteps)) ∧
    treeAt exParams (steps exParams exRnd 3
        (simulate exParams exRnd (List.replicate 25 9) (List.replicate 9 9) 0)) 2 2
      = min (treeAt exParams
          (simulate exParams exRnd (List.replicate 25 9) (List.replicate 9 9) 0) 2 2
          + ((3 : Nat) : Int)) exParams.NMaxBurnSteps :=
  ⟨⟨by decide, by decide, by decide, by decide, by decide, by decide, by decide⟩,
    (age_grows_to_NMaxBurnSteps_and_stays exParams exRnd (List.replicate 25 9)
      (List.replicate 9 9) (by decide) (by decide) (by decide) (by decide) 0 3 2 2
      (by decide) (by decide)).1 (by decide)⟩

theorem writeAt_readAt_self (a : List Int) (i : Int) : writeAt a i (readAt a i) = a := by
  unfold writeAt readAt
  by_cases hi : i < 0
  · simp [hi]
  · simp only [hi, if_false]
    apply List.ext_getElem (by simp)
    intro n h1 h2
    rw [List.getElem_set]
    split
    · rename_i h
      subst h
      simp [List.getD_eq_getElem?_getD, h2]
    · rfl

theorem applyWrites_of_same (a : List Int) (ws : List (Int × Int))
    (h : ∀ w ∈ ws, readAt a w.1 = w.2) : applyWrites a ws = a := by
  induction ws with
  | nil => rfl
  | cons w ws ih =>
    have hw : writeAt a w.1 w.2 = a := by
      rw [← h w (List.mem_cons_self _ _)]; exact writeAt_readAt_self a w.1
    rw [applyWrites_cons, hw]
    exact ih (fun w' hw' => h w' (List.mem_cons_of_mem _ hw'))

/-- On a state that satisfies the invariant and has no interior cell on fire, no cell
is one for which `BurnNew` draws a random number. -/
theorem no_candidate_of_no_fire {p : Params} {s : Forest} (hinv : Inv p s)
    (hdead : ∀ x ∈ cells p, onFire p s x = false) :
    ∀ x ∈ cells p, candidate p s x = false := by
  intro x hx
  rw [Bool.eq_false_iff]
  intro hcand
  have hn := ((candidate_iff p s x).mp hcand).2
  have key : ∀ n : Int × Int,
      (n = (x.1 - 1, x.2) ∨ n = (x.1, x.2 - 1) ∨ n = (x.1 + 1, x.2) ∨ n = (x.1, x.2 + 1)) →
      IsOnFire p s n.1 n.2 = false := by
    intro n hn
    rcases neighbour_mem hx n hn with h | h
    · exact hdead n h
    · rw [Bool.eq_false_iff]
      intro hf
      have h1 := (IsOnFire_iff p s n.1 n.2).mp hf
      have h2 := hinv.boundary n h
      omega
  unfold neighbourOnFire at hn
  have k1 := key (x.1 - 1, x.2) (Or.inl rfl)
  have k2 := key (x.1, x.2 - 1) (Or.inr (Or.inl rfl))
  have k3 := key (x.1 + 1, x.2) (Or.inr (Or.inr (Or.inl rfl)))
  have k4 := key (x.1, x.2 + 1) (Or.inr (Or.inr (Or.inr rfl)))
  simp only at k1 k2 k3 k4
  rw [k1, k2, k3, k4] at hn
  exact absurd hn (by decide)

/-- A step from a state that satisfies the invariant and has no interior cell on fire
changes nothing. -/
theorem step_eq_self_of_no_fire {p : Params} (rnd : Nat → Nat) {s : Forest}
    (hinv : Inv p s) (hdead : ∀ x ∈ cells p, onFire p s x = false) : step p rnd s = s := by
  have hnc := no_candidate_of_no_fire hinv hdead
  have h1 : (cells p).filter (onFire p s) = [] := by
    rw [List.filter_eq_nil_iff]
    intro x hx
    rw [hdead x hx]
    decide
  have h2 : ignited p rnd s = [] := by
    rw [List.eq_nil_iff_forall_not_mem]
    intro x hx
    have := hnc x (mem_cells_of_mem_ignited hx)
    rw [candidate_of_mem_ignited hx] at this
    exact absurd this (by decide)
  have h3 : (cells p).countP (candidate p s) = 0 := by
    rw [List.countP_eq_zero]
    intro x hx
    rw [hnc x hx]
    decide
  rw [step_eq, h1, h2, h3]
  simp only [List.map_nil, applyWrites_nil, List.length_nil, Nat.cast_zero, add_zero]
  rw [applyWrites_of_same]
  intro w hw
  obtain ⟨x, hx, rfl⟩ := List.mem_map.mp hw
  exact (hinv.synced x hx).symm

/-- C20: if in a state reached from `InitData` (`NRows ≥ 1`, `NCols ≥ 1`) no interior cell
is on fire, every interior age being `0` or at least `NMaxBurnSteps`, then a step leaves
the whole state unchanged: `Trees`, `NewTrees`, `NBurnedTrees`, and the number of
`random()` calls, so the random source is not consulted. -/
theorem dead_fire_is_fixed_point (p : Params) (rnd : Nat → Nat) (t0 n0 : List Int)
    (hr : 1 ≤ p.NRows) (hc : 1 ≤ p.NCols)
    (ht : (t0.length : Int) = p.NTreesPlusBounds) (hn : (n0.length : Int) = p.NTrees)
    (m : Nat)
    (hdead : ∀ row col : Int, 1 ≤ row → row ≤ p.NRows → 1 ≤ col → col ≤ p.NCols →
      treeAt p (simulate p rnd t0 n0 m) row col = 0 ∨
        p.NMaxBurnSteps ≤ treeAt p (simulate p rnd t0 n0 m) row col) :
    step p rnd (simulate p rnd t0 n0 m) = simulate p rnd t0 n0 m ∧
    (step p rnd (simulate p rnd t0 n0 m)).Trees = (simulate p rnd t0 n0 m).Trees ∧
    (step p rnd (simulate p rnd t0 n0 m)).NewTrees = (simulate p rnd t0 n0 m).NewTrees ∧
    (step p rnd (simulate p rnd t0 n0 m)).NBurnedTrees
      = (simulate p rnd t0 n0 m).NBurnedTrees ∧
    (step p rnd (simulate p rnd t0 n0 m)).NRandom = (simulate p rnd t0 n0 m).NRandom := by
  have hinv := simulate_Inv rnd hr hc ht hn m
  have hd : ∀ x ∈ cells p, onFire p (simulate p rnd t0 n0 m) x = false := by
    intro x hx
    have hm := mem_cells.mp hx
    rw [Bool.eq_false_iff]
    intro hf
    have h1 := (onFire_iff p _ x).mp hf
    have h2 := hdead x.1 x.2 hm.1.1 hm.1.2 hm.2.1 hm.2.2
    omega
  have h := step_eq_self_of_no_fire rnd hinv hd
  rw [h]
  exact ⟨rfl, rfl, rfl, rfl, rfl⟩

set_option maxRecDepth 100000 in
/-- Witness for `dead_fire_is_fixed_point`: the 3 x 3 forest after 3 steps, when every
tree is burnt out. -/
theorem dead_fire_is_fixed_point_witness :
    ((1 : Int) ≤ exParams.NRows ∧ (1 : Int) ≤ exParams.NCols ∧
      ((List.replicate 25 (9 : Int)).length : Int) = exParams.NTreesPlusBounds ∧
      ((List.replicate 9 (9 : Int)).length : Int) = exParams.NTrees ∧
      ∀ x ∈ cells exParams,
        treeAt exParams
            (simulate exParams exRnd (List.replicate 25 9) (List.replicate 9 9) 3) x.1 x.2 = 0 ∨
          exParams.NMaxBurnSteps ≤ treeAt exParams
            (simulate exParams exRnd (List.replicate 25 9) (List.replicate 9 9) 3) x.1 x.2) ∧
    step exParams exRnd (simulate exParams exRnd (List.replicate 25 9) (List.replicate 9 9) 3)
      = simulate exParams exRnd (List.replicate 25 9) (List.replicate 9 9) 3 :=
  have hd : ∀ x ∈ cells exParams,
      treeAt exParams
          (simulate exParams exRnd (List.replicate 25 9) (List.replicate 9 9) 3) x.1 x.2 = 0 ∨
        exParams.NMaxBurnSteps ≤ treeAt exParams
          (simulate exParams exRnd (List.replicate 25 9) (List.replicate 9 9) 3) x.1 x.2 := by
    decide
  ⟨⟨by decide, by decide, by decide, by decide, hd⟩,
    (dead_fire_is_fixed_point exParams exRnd (List.replicate 25 9) (List.replicate 9 9)
      (by decide) (by decide) (by decide) (by decide) 3
      (fun row col h1 h2 h3 h4 => hd (row, col) (mem_cells.mpr ⟨⟨h1, h2⟩, ⟨h3, h4⟩⟩))).1⟩

theorem BurnNew_eq_BurnNewIn (p : Params) (rnd : Nat → Nat) (s : Forest) :
    BurnNew p rnd s = BurnNewIn p rnd (cells p) s :=
  BurnNew_eq_fold p rnd s

theorem ContinueBurning_eq_ContinueBurningIn (p : Params) (s : Forest) :
    ContinueBurning p s = ContinueBurningIn p (cells p) s :=
  ContinueBurning_eq_fold p s

theorem ContinueBurning_Trees (p : Params) (s : Forest) :
    (ContinueBurning p s).Trees = s.Trees := by
  rw [ContinueBurning_eq_fold, ContinueBurning_fold p s _ s rfl]

theorem writeAt_comm (a : List Int) {i j : Int} (v w : Int) (h : i ≠ j) :
    writeAt (writeAt a i v) j w = writeAt (writeAt a j w) i v := by
  unfold writeAt
  by_cases hi : i < 0
  · simp [hi]
  · by_cases hj : j < 0
    · simp [hj]
    · simp only [hi, hj, if_false]
      exact List.set_comm v w a (by omega)

theorem applyWrites_perm (a : List Int) {ws vs : List (Int × Int)} (h : ws.Perm vs)
    (huniq : ∀ w1 ∈ ws, ∀ w2 ∈ ws, w1.1 = w2.1 → w1 = w2) :
    applyWrites a ws = applyWrites a vs := by
  unfold applyWrites
  apply h.foldl_eq'
  intro x hx y hy z
  by_cases hxy : x.1 = y.1
  · rw [huniq x hx y hy hxy]
  · exact writeAt_comm z x.2 y.2 hxy

theorem applyWrites_map_newIdx_perm (p : Params) (a : List Int) (v : Int × Int → Int)
    {l l' : List (Int × Int)} (h : l.Perm l') (hl : ∀ x ∈ l, x ∈ cells p) :
    applyWrites a (l.map (fun x => (newIdx p x, v x)))
      = applyWrites a (l'.map (fun x => (newIdx p x, v x))) := by
  apply applyWrites_perm a (h.map _)
  intro w1 h1 w2 h2 h12
  obtain ⟨x, hx, rfl⟩ := List.mem_map.mp h1
  obtain ⟨y, hy, rfl⟩ := List.mem_map.mp h2
  rw [newIdx_inj p x y (hl x hx) (hl y hy) h12]

/-- The continue-burning pass gives the same state whatever the order of the cells. -/
theorem ContinueBurningIn_perm (p : Params) (s : Forest) {l : List (Int × Int)}
    (h : l.Perm (cells p)) : ContinueBurningIn p l s = ContinueBurning p s := by
  rw [ContinueBurning_eq_fold, ContinueBurning_fold p s _ s rfl]
  unfold ContinueBurningIn
  rw [ContinueBurning_fold p s _ s rfl]
  have := applyWrites_map_newIdx_perm p s.NewTrees (fun x => treeAt p s x.1 x.2 + 1)
    (h.filter (onFire p s)) (fun x hx => h.subset (List.mem_filter.mp hx).1)
  rw [this]

/-- The number of cells the ignition pass sets on fire depends on the cells visited
only through the number of cells for which a random number is drawn. -/
theorem length_ignitedFrom (p : Params) (rnd : Nat → Nat) (s0 : Forest)
    (l : List (Int × Int)) : ∀ n, (ignitedFrom p rnd s0 n l).length
      = (List.range (l.countP (candidate p s0))).countP
          (fun k => decide (draw rnd (n + k) < p.BurnProb)) := by
  induction l with
  | nil => intro n; rfl
  | cons y l ih =>
    intro n
    unfold ignitedFrom
    by_cases hc : candidate p s0 y = true
    · rw [if_pos hc, List.countP_cons_of_pos _ _ hc, List.range_succ_eq_map,
        List.countP_cons, List.countP_map]
      have e : (List.range (l.countP (candidate p s0))).countP
          ((fun k => decide (draw rnd (n + k) < p.BurnProb)) ∘ Nat.succ)
          = (List.range (l.countP (candidate p s0))).countP
            (fun k => decide (draw rnd (n + 1 + k) < p.BurnProb)) := by
        apply List.countP_congr
        intro k _
        simp only [Function.comp, Nat.succ_eq_add_one]
        rw [show n + (k + 1) = n + 1 + k by omega]
      rw [e, ← ih (n + 1)]
      by_cases hd : draw rnd n < p.BurnProb
      · simp [hd]
      · simp [hd]
    · rw [if_neg hc, List.countP_cons_of_neg _ _ hc]
      exact ih n

theorem AdvanceTime_NBurnedTrees (p : Params) (s : Forest) :
    (AdvanceTime p s).NBurnedTrees = s.NBurnedTrees := by
  rw [AdvanceTime_eq_fold, AdvanceTime_fold p s _ s rfl]

theorem AdvanceTime_NRandom (p : Params) (s : Forest) :
    (AdvanceTime p s).NRandom = s.NRandom := by
  rw [AdvanceTime_eq_fold, AdvanceTime_fold p s _ s rfl]

theorem BurnNewIn_eq (p : Params) (rnd : Nat → Nat) (l : List (Int × Int)) (s : Forest) :
    BurnNewIn p rnd l s
      = { Trees := s.Trees
          NewTrees := applyWrites s.NewTrees
            ((ignitedFrom p rnd s s.NRandom l).map (fun x => (newIdx p x, 1)))
          NBurnedTrees := s.NBurnedTrees + (ignitedFrom p rnd s s.NRandom l).length
          NRandom := s.NRandom + l.countP (candidate p s) } :=
  BurnNew_fold p rnd s l s rfl

/-- When no draw or every draw is below `BurnProb`, the cells set on fire are the same,
up to their order, whatever the order of the visit. -/
theorem ignitedFrom_perm_of_BurnProb_extreme (p : Params) (rnd : Nat → Nat) (s0 : Forest)
    (hbp : p.BurnProb ≤ 0 ∨ 100 ≤ p.BurnProb) {l l' : List (Int × Int)} (h : l.Perm l')
    (n : Nat) : (ignitedFrom p rnd s0 n l).Perm (ignitedFrom p rnd s0 n l') := by
  have key : ∀ (l : List (Int × Int)) (n : Nat), ignitedFrom p rnd s0 n l
      = if p.BurnProb ≤ 0 then [] else l.filter (candidate p s0) := by
    intro l
    induction l with
    | nil => intro n; simp [ignitedFrom]
    | cons y l ih =>
      intro n
      have hd := draw_bounds rnd n
      unfold ignitedFrom
      by_cases hc : candidate p s0 y = true
      · by_cases h0 : p.BurnProb ≤ 0
        · rw [if_pos hc, if_neg (by omega), ih, if_pos h0, if_pos h0]
        · rw [if_pos hc, if_pos (by omega), ih, if_neg h0, if_neg h0,
            List.filter_cons_of_pos hc]
      · by_cases h0 : p.BurnProb ≤ 0
        · rw [if_neg hc, ih, if_pos h0, if_pos h0]
        · rw [if_neg hc, ih, if_neg h0, if_neg h0, List.filter_cons_of_neg hc]
  rw [key l n, key l' n]
  split
  · exact List.Perm.refl _
  · exact h.filter _

set_option maxRecDepth 100000 in
/-- Counterexample to C13 as stated: in the 3 x 3 forest with its centre on fire,
`BurnProb = 50` and a random source returning 10 and then 90, the ignition pass in
row-major order sets the cell north of the centre on fire and leaves the cell south of
it unburned, and the ignition pass in the reverse order, on the same state with the same
random source, does the opposite: the committed grid depends on the order in which the
ignition pass visits the cells. -/
theorem step_depends_on_ignition_order :
    (cells exParamsHalf).reverse.Perm (cells exParamsHalf) ∧
    (treeAt exParamsHalf (step exParamsHalf exRndMixed exForest) 1 2 = 1 ∧
      treeAt exParamsHalf (step exParamsHalf exRndMixed exForest) 3 2 = 0) ∧
    (treeAt exParamsHalf (stepIn exParamsHalf exRndMixed (cells exParamsHalf)
        (cells exParamsHalf).reverse exForest) 1 2 = 0 ∧
      treeAt exParamsHalf (stepIn exParamsHalf exRndMixed (cells exParamsHalf)
        (cells exParamsHalf).reverse exForest) 3 2 = 1) ∧
    (stepIn exParamsHalf exRndMixed (cells exParamsHalf) (cells exParamsHalf).reverse
        exForest).Trees ≠ (step exParamsHalf exRndMixed exForest).Trees :=
  ⟨List.reverse_perm _, by decide, by decide, by decide⟩

/-- C13, amended: for any orders `l1` and `l2` of the interior cells, (a) the step in
which the continue-burning pass visits the cells in the order `l1` gives the same state
as `step`; (b) whatever the order `l2` of the ignition pass, `NBurnedTrees` and the number
of `random()` calls after the step are those of `step`; (c) when `BurnProb ≤ 0` or
`BurnProb ≥ 100`, so that the outcome of a draw does not depend on its value, the whole
state after the step is that of `step`. -/
theorem step_order_independence (p : Params) (rnd : Nat → Nat) (s : Forest)
    (l1 l2 : List (Int × Int)) (h1 : l1.Perm (cells p)) (h2 : l2.Perm (cells p)) :
    stepIn p rnd l1 (cells p) s = step p rnd s ∧
    ((stepIn p rnd l1 l2 s).NBurnedTrees = (step p rnd s).NBurnedTrees ∧
      (stepIn p rnd l1 l2 s).NRandom = (step p rnd s).NRandom) ∧
    (p.BurnProb ≤ 0 ∨ 100 ≤ p.BurnProb → stepIn p rnd l1 l2 s = step p rnd s) := by
  have hcb := ContinueBurningIn_perm p s h1
  have hstep : step p rnd s
      = AdvanceTime p (BurnNewIn p rnd (cells p) (ContinueBurning p s)) := by
    unfold step; rw [BurnNew_eq_BurnNewIn]
  refine ⟨?_, ⟨?_, ?_⟩, ?_⟩
  · unfold stepIn; rw [hcb, hstep]
  · unfold stepIn
    rw [hcb, hstep, AdvanceTime_NBurnedTrees, AdvanceTime_NBurnedTrees, BurnNewIn_eq,
      BurnNewIn_eq]
    simp only
    rw [length_ignitedFrom, length_ignitedFrom, h2.countP_eq]
  · unfold stepIn
    rw [hcb, hstep, AdvanceTime_NRandom, AdvanceTime_NRandom, BurnNewIn_eq, BurnNewIn_eq]
    simp only
    rw [h2.countP_eq]
  · intro hbp
    unfold stepIn
    rw [hcb, hstep]
    congr 1
    rw [BurnNewIn_eq, BurnNewIn_eq]
    have hperm := ignitedFrom_perm_of_BurnProb_extreme p rnd (ContinueBurning p s) hbp h2
      (ContinueBurning p s).NRandom
    have hsub : ∀ x ∈ ignitedFrom p rnd (ContinueBurning p s) (ContinueBurning p s).NRandom l2,
        x ∈ cells p :=
      fun x hx => h2.subset ((ignitedFrom_sublist p rnd _ l2 _).subset hx)
    rw [applyWrites_map_newIdx_perm p _ (fun _ => 1) hperm hsub, hperm.length_eq,
      h2.countP_eq]

set_option maxRecDepth 100000 in
/-- Witness for `step_order_independence`: both passes in reverse row-major order on the
3 x 3 example state with `BurnProb = 100`. -/
theorem step_order_independence_witness :
    ((cells exParams).reverse.Perm (cells exParams) ∧
      (exParams.BurnProb ≤ 0 ∨ 100 ≤ exParams.BurnProb)) ∧
    stepIn exParams exRnd (cells exParams).reverse (cells exParams).reverse exForest
      = step exParams exRnd exForest ∧
    treeAt exParams
      (stepIn exParams exRnd (cells exParams).reverse (cells exParams).reverse exForest) 1 2
      = 1 :=
  ⟨⟨List.reverse_perm _, Or.inr (by decide)⟩,
    (step_order_independence exParams exRnd exForest (cells exParams).reverse
      (cells exParams).reverse (List.reverse_perm _) (List.reverse_perm _)).2.2
      (Or.inr (by decide)),
    by decide⟩

/-! ## The machine run and the exact run -/

theorem wrapInt_eq {x : Int} (h1 : Machine.INT_MIN ≤ x) (h2 : x ≤ Machine.INT_MAX) :
    Machine.wrapInt x = x := by
  unfold Machine.wrapInt
  unfold Machine.INT_MIN at h1
  unfold Machine.INT_MAX at h2
  omega

theorem wrapInt_range (x : Int) :
    Machine.INT_MIN ≤ Machine.wrapInt x ∧ Machine.wrapInt x ≤ Machine.INT_MAX := by
  unfold Machine.wrapInt Machine.INT_MIN Machine.INT_MAX
  omega

/-- Sizes below the padded size, when the padded size fits the type `int`. -/
theorem fit_bounds {p : Params} (hr : 1 ≤ p.NRows) (hc : 1 ≤ p.NCols)
    (hfit : (p.NRows + 2) * (p.NCols + 2) ≤ Machine.INT_MAX) :
    p.NRows + 2 ≤ Machine.INT_MAX ∧ p.NCols + 2 ≤ Machine.INT_MAX ∧
      p.NRows * p.NCols ≤ Machine.INT_MAX := by
  refine ⟨?_, ?_, ?_⟩ <;> nlinarith

theorem machine_NRowsPlusBounds_eq {p : Params} (hr : 1 ≤ p.NRows) (hc : 1 ≤ p.NCols)
    (hfit : (p.NRows + 2) * (p.NCols + 2) ≤ Machine.INT_MAX) :
    Machine.NRowsPlusBounds p = p.NRowsPlusBounds := by
  have h := fit_bounds hr hc hfit
  exact wrapInt_eq (by unfold Machine.INT_MIN; omega) h.1

theorem machine_NColsPlusBounds_eq {p : Params} (hr : 1 ≤ p.NRows) (hc : 1 ≤ p.NCols)
    (hfit : (p.NRows + 2) * (p.NCols + 2) ≤ Machine.INT_MAX) :
    Machine.NColsPlusBounds p = p.NColsPlusBounds := by
  have h := fit_bounds hr hc hfit
  exact wrapInt_eq (by unfold Machine.INT_MIN; omega) h.2.1

theorem machine_NTrees_eq {p : Params} (hr : 1 ≤ p.NRows) (hc : 1 ≤ p.NCols)
    (hfit : (p.NRows + 2) * (p.NCols + 2) ≤ Machine.INT_MAX) :
    Machine.NTrees p = p.NTrees := by
  have h := fit_bounds hr hc hfit
  have h0 : 0 ≤ p.NRows * p.NCols := mul_nonneg (by omega) (by omega)
  exact wrapInt_eq (by unfold Machine.INT_MIN; omega) h.2.2

theorem machine_NTreesPlusBounds_eq {p : Params} (hr : 1 ≤ p.NRows) (hc : 1 ≤ p.NCols)
    (hfit : (p.NRows + 2) * (p.NCols + 2) ≤ Machine.INT_MAX) :
    Machine.NTreesPlusBounds p = p.NTreesPlusBounds := by
  unfold Machine.NTreesPlusBounds
  rw [machine_NRowsPlusBounds_eq hr hc hfit, machine_NColsPlusBounds_eq hr hc hfit]
  have h0 : 0 ≤ (p.NRows + 2) * (p.NCols + 2) := mul_nonneg (by omega) (by omega)
  exact wrapInt_eq (by unfold Machine.INT_MIN; exact le_trans (by decide) h0) hfit

theorem mallocCells_eq {n : Int} (h0 : 0 ≤ n) (h1 : n ≤ Machine.INT_MAX) :
    Machine.mallocCells n = n.toNat := by
  unfold Machine.mallocCells Machine.PTRDIFF_MAX
  unfold Machine.INT_MAX at h1
  split <;> omega

theorem mallocCells_neg {n : Int} (h0 : n < 0) (h1 : Machine.INT_MIN ≤ n) :
    Machine.mallocCells n = 0 := by
  unfold Machine.mallocCells Machine.PTRDIFF_MAX
  unfold Machine.INT_MIN at h1
  split <;> omega

theorem machine_startState_eq (p : Params) (g1 g2 : Nat → Int) :
    Machine.startState p g1 g2
      = startState ((List.range (Machine.mallocCells (Machine.NTreesPlusBounds p))).map g1)
          ((List.range (Machine.mallocCells (Machine.NTrees p))).map g2) := rfl

/-- When the padded size fits the type `int`, `AllocateMemory` gets the blocks of
`NTreesPlusBounds` and `NTrees` cells. -/
theorem machine_startState_lengths {p : Params} (hr : 1 ≤ p.NRows) (hc : 1 ≤ p.NCols)
    (hfit : (p.NRows + 2) * (p.NCols + 2) ≤ Machine.INT_MAX) (g1 g2 : Nat → Int) :
    (((List.range (Machine.mallocCells (Machine.NTreesPlusBounds p))).map g1).length : Int)
        = p.NTreesPlusBounds ∧
      (((List.range (Machine.mallocCells (Machine.NTrees p))).map g2).length : Int)
        = p.NTrees := by
  have h := fit_bounds hr hc hfit
  have h0 : 0 ≤ p.NRows * p.NCols := mul_nonneg (by omega) (by omega)
  have h1 : 0 ≤ (p.NRows + 2) * (p.NCols + 2) := mul_nonneg (by omega) (by omega)
  rw [machine_NTreesPlusBounds_eq hr hc hfit, machine_NTrees_eq hr hc hfit,
    List.length_map, List.length_map, List.length_range, List.length_range,
    mallocCells_eq (n := p.NTreesPlusBounds) h1 hfit, mallocCells_eq (n := p.NTrees) h0 h.2.2]
  exact ⟨Int.toNat_of_nonneg h1, Int.toNat_of_nonneg h0⟩

theorem machine_TREE_MAP_eq {p : Params} (hr : 1 ≤ p.NRows) (hc : 1 ≤ p.NCols)
    (hfit : (p.NRows + 2) * (p.NCols + 2) ≤ Machine.INT_MAX) {row col : Int}
    (h0 : 0 ≤ row) (h1 : row ≤ p.NRows + 1) (h2 : 0 ≤ col) (h3 : col ≤ p.NCols + 1) :
    Machine.TREE_MAP row col (Machine.NColsPlusBounds p) = TREE_MAP row col p.NColsPlusBounds := by
  rw [machine_NColsPlusBounds_eq hr hc hfit]
  have hb : 0 ≤ TREE_MAP row col (p.NCols + 2) ∧
      TREE_MAP row col (p.NCols + 2) < (p.NRows + 2) * (p.NCols + 2) :=
    TREE_MAP_bounds h0 h1 h2 h3
  unfold TREE_MAP at hb
  have hm : 0 ≤ row * (p.NCols + 2) := mul_nonneg h0 (by omega)
  unfold Machine.TREE_MAP TREE_MAP Params.NColsPlusBounds
  rw [wrapInt_eq (x := row * (p.NCols + 2)) (by unfold Machine.INT_MIN; omega) (by omega)]
  exact wrapInt_eq (by unfold Machine.INT_MIN; omega) (by omega)

theorem machine_NEW_TREE_MAP_eq {p : Params} (hr : 1 ≤ p.NRows) (hc : 1 ≤ p.NCols)
    (hfit : (p.NRows + 2) * (p.NCols + 2) ≤ Machine.INT_MAX) {row col : Int}
    (h0 : 1 ≤ row) (h1 : row ≤ p.NRows) (h2 : 1 ≤ col) (h3 : col ≤ p.NCols) :
    Machine.NEW_TREE_MAP row col p.NCols = NEW_TREE_MAP row col p.NCols := by
  have hf := fit_bounds hr hc hfit
  have hb : 0 ≤ NEW_TREE_MAP row col p.NCols ∧
      NEW_TREE_MAP row col p.NCols < p.NRows * p.NCols :=
    NEW_TREE_MAP_bounds h0 h1 h2 h3
  unfold NEW_TREE_MAP at hb
  have hm : 0 ≤ (row - 1) * p.NCols := mul_nonneg (by omega) (by omega)
  unfold Machine.NEW_TREE_MAP NEW_TREE_MAP
  rw [wrapInt_eq (x := row - 1) (by unfold Machine.INT_MIN; omega) (by omega),
    wrapInt_eq (x := col - 1) (by unfold Machine.INT_MIN; omega) (by omega),
    wrapInt_eq (x := (row - 1) * p.NCols) (by unfold Machine.INT_MIN; omega) (by omega)]
  exact wrapInt_eq (by unfold Machine.INT_MIN; omega) (by omega)

theorem machine_read_eq {a : List Int} {i : Int} (h0 : 0 ≤ i) (h1 : i < a.length) :
    Machine.read a i = some (readAt a i) := by
  unfold Machine.read
  rw [if_pos ⟨h0, h1⟩]

theorem machine_write_eq {a : List Int} {i : Int} (v : Int) (h0 : 0 ≤ i) (h1 : i < a.length) :
    Machine.write a i v = some (writeAt a i v) := by
  unfold Machine.write
  rw [if_pos ⟨h0, h1⟩]

theorem machine_treeAt_eq {p : Params} (hr : 1 ≤ p.NRows) (hc : 1 ≤ p.NCols)
    (hfit : (p.NRows + 2) * (p.NCols + 2) ≤ Machine.INT_MAX) {s : Forest} (hs : Sized p s)
    {row col : Int} (h0 : 0 ≤ row) (h1 : row ≤ p.NRows + 1) (h2 : 0 ≤ col)
    (h3 : col ≤ p.NCols + 1) :
    Machine.treeAt p s row col = some (treeAt p s row col) := by
  unfold Machine.treeAt treeAt
  rw [machine_TREE_MAP_eq hr hc hfit h0 h1 h2 h3]
  have hb : 0 ≤ TREE_MAP row col p.NColsPlusBounds ∧
      TREE_MAP row col p.NColsPlusBounds < p.NTreesPlusBounds :=
    TREE_MAP_bounds h0 h1 h2 h3
  have hl := hs.1
  exact machine_read_eq hb.1 (by omega)

theorem machine_setTree_eq {p : Params} (hr : 1 ≤ p.NRows) (hc : 1 ≤ p.NCols)
    (hfit : (p.NRows + 2) * (p.NCols + 2) ≤ Machine.INT_MAX) {s : Forest} (hs : Sized p s)
    {row col : Int} (v : Int) (h0 : 0 ≤ row) (h1 : row ≤ p.NRows + 1) (h2 : 0 ≤ col)
    (h3 : col ≤ p.NCols + 1) :
    Machine.setTree p row col v s = some (setTree p row col v s) := by
  unfold Machine.setTree setTree
  rw [machine_TREE_MAP_eq hr hc hfit h0 h1 h2 h3]
  have hb : 0 ≤ TREE_MAP row col p.NColsPlusBounds ∧
      TREE_MAP row col p.NColsPlusBounds < p.NTreesPlusBounds :=
    TREE_MAP_bounds h0 h1 h2 h3
  have hl := hs.1
  rw [machine_write_eq v hb.1 (by omega)]
  rfl

theorem machine_newTreeAt_eq {p : Params} (hr : 1 ≤ p.NRows) (hc : 1 ≤ p.NCols)
    (hfit : (p.NRows + 2) * (p.NCols + 2) ≤ Machine.INT_MAX) {s : Forest} (hs : Sized p s)
    {row col : Int} (h0 : 1 ≤ row) (h1 : row ≤ p.NRows) (h2 : 1 ≤ col) (h3 : col ≤ p.NCols) :
    Machine.newTreeAt p s row col = some (newTreeAt p s row col) := by
  unfold Machine.newTreeAt newTreeAt
  rw [machine_NEW_TREE_MAP_eq hr hc hfit h0 h1 h2 h3]
  have hb : 0 ≤ NEW_TREE_MAP row col p.NCols ∧ NEW_TREE_MAP row col p.NCols < p.NTrees :=
    NEW_TREE_MAP_bounds h0 h1 h2 h3
  have hl := hs.2
  exact machine_read_eq hb.1 (by omega)

theorem machine_setNewTree_eq {p : Params} (hr : 1 ≤ p.NRows) (hc : 1 ≤ p.NCols)
    (hfit : (p.NRows + 2) * (p.NCols + 2) ≤ Machine.INT_MAX) {s : Forest} (hs : Sized p s)
    {row col : Int} (v : Int) (h0 : 1 ≤ row) (h1 : row ≤ p.NRows) (h2 : 1 ≤ col)
    (h3 : col ≤ p.NCols) :
    Machine.setNewTree p row col v s = some (setNewTree p row col v s) := by
  unfold Machine.setNewTree setNewTree
  rw [machine_NEW_TREE_MAP_eq hr hc hfit h0 h1 h2 h3]
  have hb : 0 ≤ NEW_TREE_MAP row col p.NCols ∧ NEW_TREE_MAP row col p.NCols < p.NTrees :=
    NEW_TREE_MAP_bounds h0 h1 h2 h3
  have hl := hs.2
  rw [machine_write_eq v hb.1 (by omega)]
  rfl

theorem Sized_setTree {p : Params} {s : Forest} (hs : Sized p s) (row col v : Int) :
    Sized p (setTree p row col v s) := by
  unfold Sized setTree
  simp only [length_writeAt]
  exact hs

theorem Sized_setNewTree {p : Params} {s : Forest} (hs : Sized p s) (row col v : Int) :
    Sized p (setNewTree p row col v s) := by
  unfold Sized setNewTree
  simp only [length_writeAt]
  exact hs

/-- A loop whose body never leaves the blocks, on states that keep an invariant, runs as
the loop of the exact model. -/
theorem machine_foldlM_eq {α σ : Type} (I : σ → Prop) (bodyM : σ → α → Option σ)
    (body : σ → α → σ) (l : List α)
    (h : ∀ x ∈ l, ∀ s, I s → bodyM s x = some (body s x) ∧ I (body s x)) :
    ∀ s, I s → l.foldlM bodyM s = some (l.foldl body s) ∧ I (l.foldl body s) := by
  induction l with
  | nil => intro s hs; exact ⟨rfl, hs⟩
  | cons x l ih =>
    intro s hs
    have hx := h x (List.mem_cons_self _ _) s hs
    rw [List.foldlM_cons, hx.1, List.foldl_cons]
    exact ih (fun y hy => h y (List.mem_cons_of_mem _ hy)) _ hx.2

theorem machine_forLoop_eq {σ : Type} (I : σ → Prop) (lo hi : Int)
    (bodyM : Int → σ → Option σ) (body : Int → σ → σ)
    (h : ∀ x, lo ≤ x → x < hi → ∀ s, I s → bodyM x s = some (body x s) ∧ I (body x s))
    (s : σ) (hs : I s) :
    Machine.forLoop lo hi bodyM s = some (forLoop lo hi body s) ∧ I (forLoop lo hi body s) := by
  unfold Machine.forLoop forLoop
  exact machine_foldlM_eq I (fun acc x => bodyM x acc) (fun acc x => body x acc) _
    (fun x hx => h x (mem_loopRange.mp hx).1 (mem_loopRange.mp hx).2) s hs

/-- A loop stops with `none` when its body does at the first value. -/
theorem machine_forLoop_none {σ : Type} {lo hi : Int} (hlt : lo < hi)
    (body : Int → σ → Option σ) (s : σ) (h : body lo s = none) :
    Machine.forLoop lo hi body s = none := by
  unfold Machine.forLoop loopRange
  obtain ⟨n, hn⟩ : ∃ n : Nat, (hi - lo).toNat = n + 1 := ⟨(hi - lo).toNat - 1, by omega⟩
  rw [hn, List.range_succ_eq_map, List.map_cons, List.foldlM_cons]
  simp only [Nat.cast_zero, add_zero]
  rw [h]
  rfl

theorem machine_foldlM_nest {σ : Type} (rows cols : List Int)
    (body : Int → Int → σ → Option σ) (s : σ) :
    rows.foldlM (fun acc r => cols.foldlM (fun acc c => body r c acc) acc) s
      = (rows ×ˢ cols).foldlM (fun acc x => body x.1 x.2 acc) s := by
  induction rows generalizing s with
  | nil => rfl
  | cons r rs ih =>
    rw [List.product_cons, List.foldlM_append, List.foldlM_map, List.foldlM_cons]
    congr 1
    funext s'
    exact ih s'

theorem machine_succ_eq {p : Params} (hr : 1 ≤ p.NRows) (hc : 1 ≤ p.NCols)
    (hfit : (p.NRows + 2) * (p.NCols + 2) ≤ Machine.INT_MAX) :
    Machine.wrapInt (p.NRows + 1) = p.NRows + 1 ∧
      Machine.wrapInt (p.NCols + 1) = p.NCols + 1 := by
  have h := fit_bounds hr hc hfit
  exact ⟨wrapInt_eq (by unfold Machine.INT_MIN; omega) (by omega),
    wrapInt_eq (by unfold Machine.INT_MIN; omega) (by omega)⟩

theorem machine_InitInterior_eq {p : Params} (hr : 1 ≤ p.NRows) (hc : 1 ≤ p.NCols)
    (hfit : (p.NRows + 2) * (p.NCols + 2) ≤ Machine.INT_MAX) {s : Forest} (hs : Sized p s) :
    Machine.InitInterior p s = some (InitInterior p s) ∧ Sized p (InitInterior p s) := by
  unfold Machine.InitInterior InitInterior
  rw [(machine_succ_eq hr hc hfit).1, (machine_succ_eq hr hc hfit).2]
  refine machine_forLoop_eq (Sized p) _ _ _ _ ?_ s hs
  intro row hr1 hr2 s hs
  refine machine_forLoop_eq (Sized p) _ _ _ _ ?_ s hs
  intro col hc1 hc2 s hs
  rw [machine_setNewTree_eq hr hc hfit hs 0 hr1 (by omega) hc1 (by omega), Option.some_bind,
    machine_setTree_eq hr hc hfit (Sized_setNewTree hs row col 0) 0 (by omega) (by omega)
      (by omega) (by omega)]
  exact ⟨rfl, Sized_setTree (Sized_setNewTree hs _ _ _) _ _ _⟩

theorem machine_InitBoundaryRow_eq {p : Params} (hr : 1 ≤ p.NRows) (hc : 1 ≤ p.NCols)
    (hfit : (p.NRows + 2) * (p.NCols + 2) ≤ Machine.INT_MAX) {s : Forest} (hs : Sized p s)
    {row : Int} (h0 : 0 ≤ row) (h1 : row ≤ p.NRows + 1) :
    Machine.InitBoundaryRow p row s = some (InitBoundaryRow p row s) ∧
      Sized p (InitBoundaryRow p row s) := by
  unfold Machine.InitBoundaryRow InitBoundaryRow
  rw [(machine_succ_eq hr hc hfit).1, (machine_succ_eq hr hc hfit).2,
    machine_setTree_eq hr hc hfit hs _ h0 h1 (le_refl 0) (by omega), Option.some_bind]
  have hs1 := Sized_setTree hs row 0 p.NMaxBurnSteps
  have hloop := machine_forLoop_eq (Sized p) 1 (p.NCols + 1)
    (fun col s => Machine.setTree p row col p.NMaxBurnSteps s)
    (fun col s => setTree p row col p.NMaxBurnSteps s)
    (fun col hc1 hc2 s hs =>
      ⟨machine_setTree_eq hr hc hfit hs _ h0 h1 (by omega) (by omega), Sized_setTree hs _ _ _⟩)
    _ hs1
  by_cases hrow : row = 0 ∨ row = p.NRows + 1
  · simp only [if_pos hrow]
    rw [hloop.1, Option.some_bind,
      machine_setTree_eq hr hc hfit hloop.2 _ h0 h1 (by omega) (le_refl _)]
    exact ⟨rfl, Sized_setTree hloop.2 _ _ _⟩
  · simp only [if_neg hrow]
    rw [Option.some_bind, machine_setTree_eq hr hc hfit hs1 _ h0 h1 (by omega) (le_refl _)]
    exact ⟨rfl, Sized_setTree hs1 _ _ _⟩

theorem machine_InitBoundary_eq {p : Params} (hr : 1 ≤ p.NRows) (hc : 1 ≤ p.NCols)
    (hfit : (p.NRows + 2) * (p.NCols + 2) ≤ Machine.INT_MAX) {s : Forest} (hs : Sized p s) :
    Machine.InitBoundary p s = some (InitBoundary p s) ∧ Sized p (InitBoundary p s) := by
  unfold Machine.InitBoundary InitBoundary
  rw [machine_NRowsPlusBounds_eq hr hc hfit]
  refine machine_forLoop_eq (Sized p) _ _ _ _ ?_ s hs
  intro row h0 h1 s hs
  unfold Params.NRowsPlusBounds at h1
  exact machine_InitBoundaryRow_eq hr hc hfit hs h0 (by omega)

theorem machine_RandBetween_eq (rnd : Nat → Nat) (s : Forest) {min max : Int}
    (h0 : 0 ≤ min) (h : min < max) (h1 : max ≤ Machine.INT_MAX) :
    Machine.RandBetween rnd min max s = some (RandBetween rnd min max s) := by
  have hb := RandBetween_bounds rnd s min max h
  unfold RandBetween at hb ⊢
  unfold Machine.RandBetween
  have hd : Machine.wrapInt (max - min) = max - min :=
    wrapInt_eq (by unfold Machine.INT_MIN; omega) (by omega)
  rw [hd, if_neg (by omega), wrapInt_eq (by unfold Machine.INT_MIN; omega) (by omega)]

theorem machine_FirstTree_eq {p : Params} (rnd : Nat → Nat) (hr : 1 ≤ p.NRows)
    (hc : 1 ≤ p.NCols) (hfit : (p.NRows + 2) * (p.NCols + 2) ≤ Machine.INT_MAX)
    (s : Forest) : Machine.FirstTree p rnd s = some (FirstTree p rnd s) := by
  have hf := fit_bounds hr hc hfit
  unfold Machine.FirstTree FirstTree
  rw [(machine_succ_eq hr hc hfit).1, (machine_succ_eq hr hc hfit).2]
  by_cases hm : p.IsRandFirstTree = true
  · simp only [hm, if_true]
    rw [machine_RandBetween_eq rnd s (by omega) (by omega) (by omega), Option.some_bind,
      machine_RandBetween_eq rnd _ (by omega) (by omega) (by omega), Option.some_bind]
  · simp only [hm, if_false]
    have h1 := tdiv_two_bounds hr
    have h2 := tdiv_two_bounds hc
    unfold Machine.MiddleRow Machine.MiddleCol Params.MiddleRow Params.MiddleCol
    rw [wrapInt_eq (x := Int.tdiv p.NRows 2 + 1) (by unfold Machine.INT_MIN; omega) (by omega),
      wrapInt_eq (x := Int.tdiv p.NCols 2 + 1) (by unfold Machine.INT_MIN; omega) (by omega)]
    simp

/-- When the padded size fits the type `int`, `InitData` on blocks of the allocated sizes
makes no access outside the blocks and computes what the exact model computes. -/
theorem machine_InitData_eq {p : Params} (rnd : Nat → Nat) (hr : 1 ≤ p.NRows)
    (hc : 1 ≤ p.NCols) (hfit : (p.NRows + 2) * (p.NCols + 2) ≤ Machine.INT_MAX)
    {s : Forest} (hs : Sized p s)
    (hb : Machine.INT_MIN ≤ s.NBurnedTrees + 1 ∧ s.NBurnedTrees + 1 ≤ Machine.INT_MAX) :
    Machine.InitData p rnd s = some (InitData p rnd s) := by
  have hI := machine_InitInterior_eq hr hc hfit hs
  have hB := machine_InitBoundary_eq hr hc hfit hI.2
  have hF := machine_FirstTree_eq rnd hr hc hfit (InitBoundary p (InitInterior p s))
  have hst := FirstTree_state p rnd (InitBoundary p (InitInterior p s))
  have hmem := mem_cells.mp (firstCell_mem_cells rnd (InitBoundary p (InitInterior p s)) hr hc)
  unfold firstCell at hmem
  simp only at hmem
  have hsF : Sized p (FirstTree p rnd (InitBoundary p (InitInterior p s))).2.2 := by
    rw [hst]; exact hB.2
  have hN : (FirstTree p rnd (InitBoundary p (InitInterior p s))).2.2.NBurnedTrees
      = s.NBurnedTrees := by
    rw [hst, InitBoundary_eq, InitInterior_eq_fold, InitInterior_fold]
  unfold Machine.InitData InitData
  rw [hI.1, Option.some_bind, hB.1, Option.some_bind, hF, Option.some_bind,
    machine_setNewTree_eq hr hc hfit hsF 1 hmem.1.1 hmem.1.2 hmem.2.1 hmem.2.2, Option.some_bind,
    machine_setTree_eq hr hc hfit (Sized_setNewTree hsF _ _ 1) 1 (by omega) (by omega)
      (by omega) (by omega), Option.some_bind]
  have hN' : (setTree p (FirstTree p rnd (InitBoundary p (InitInterior p s))).1
      (FirstTree p rnd (InitBoundary p (InitInterior p s))).2.1 1
      (setNewTree p (FirstTree p rnd (InitBoundary p (InitInterior p s))).1
        (FirstTree p rnd (InitBoundary p (InitInterior p s))).2.1 1
        (FirstTree p rnd (InitBoundary p (InitInterior p s))).2.2)).NBurnedTrees
      = s.NBurnedTrees := hN
  rw [hN', wrapInt_eq hb.1 hb.2]
  simp only [hN']

theorem machine_IsBurntOut_eq {p : Params} (hr : 1 ≤ p.NRows) (hc : 1 ≤ p.NCols)
    (hfit : (p.NRows + 2) * (p.NCols + 2) ≤ Machine.INT_MAX) {s : Forest} (hs : Sized p s)
    {row col : Int} (h0 : 0 ≤ row) (h1 : row ≤ p.NRows + 1) (h2 : 0 ≤ col)
    (h3 : col ≤ p.NCols + 1) :
    Machine.IsBurntOut p s row col = some (IsBurntOut p s row col) := by
  unfold Machine.IsBurntOut IsBurntOut
  rw [machine_treeAt_eq hr hc hfit hs h0 h1 h2 h3]
  rfl

theorem machine_IsOnFire_eq {p : Params} (hr : 1 ≤ p.NRows) (hc : 1 ≤ p.NCols)
    (hfit : (p.NRows + 2) * (p.NCols + 2) ≤ Machine.INT_MAX) {s : Forest} (hs : Sized p s)
    {row col : Int} (h0 : 0 ≤ row) (h1 : row ≤ p.NRows + 1) (h2 : 0 ≤ col)
    (h3 : col ≤ p.NCols + 1) :
    Machine.IsOnFire p s row col = some (IsOnFire p s row col) := by
  unfold Machine.IsOnFire IsOnFire Machine.andThen
  rw [machine_treeAt_eq hr hc hfit hs h0 h1 h2 h3,
    machine_IsBurntOut_eq hr hc hfit hs h0 h1 h2 h3]
  by_cases h : treeAt p s row col > 0 <;> simp [h]

theorem machine_ContinueBurningCell_eq {p : Params} (hr : 1 ≤ p.NRows) (hc : 1 ≤ p.NCols)
    (hfit : (p.NRows + 2) * (p.NCols + 2) ≤ Machine.INT_MAX)
    (hmax : p.NMaxBurnSteps ≤ Machine.INT_MAX) {s : Forest} (hs : Sized p s)
    {row col : Int} (h0 : 1 ≤ row) (h1 : row ≤ p.NRows) (h2 : 1 ≤ col) (h3 : col ≤ p.NCols) :
    Machine.ContinueBurningCell p row col s = some (ContinueBurningCell p row col s) ∧
      Sized p (ContinueBurningCell p row col s) := by
  unfold Machine.ContinueBurningCell ContinueBurningCell
  rw [machine_IsOnFire_eq hr hc hfit hs (by omega) (by omega) (by omega) (by omega),
    Option.some_bind]
  by_cases hf : IsOnFire p s row col = true
  · simp only [hf, if_true]
    have ha := (IsOnFire_iff p s row col).mp hf
    rw [machine_treeAt_eq hr hc hfit hs (by omega) (by omega) (by omega) (by omega),
      Option.some_bind, wrapInt_eq (by unfold Machine.INT_MIN; omega) (by omega),
      machine_setNewTree_eq hr hc hfit hs _ h0 h1 h2 h3]
    exact ⟨rfl, Sized_setNewTree hs _ _ _⟩
  · simp only [hf]
    exact ⟨rfl, hs⟩

theorem machine_wrap_neighbours {p : Params} (hr : 1 ≤ p.NRows) (hc : 1 ≤ p.NCols)
    (hfit : (p.NRows + 2) * (p.NCols + 2) ≤ Machine.INT_MAX)
    {row col : Int} (h0 : 1 ≤ row) (h1 : row ≤ p.NRows) (h2 : 1 ≤ col) (h3 : col ≤ p.NCols) :
    Machine.wrapInt (row - 1) = row - 1 ∧ Machine.wrapInt (row + 1) = row + 1 ∧
      Machine.wrapInt (col - 1) = col - 1 ∧ Machine.wrapInt (col + 1) = col + 1 := by
  have h := fit_bounds hr hc hfit
  refine ⟨?_, ?_, ?_, ?_⟩ <;>
    exact wrapInt_eq (by unfold Machine.INT_MIN; omega) (by omega)

theorem machine_andThen_some (a b : Bool) :
    Machine.andThen (some a) (some b) = some (a && b) := by
  cases a <;> rfl

theorem machine_orElse_some (a b : Bool) :
    Machine.orElse (some a) (some b) = some (a || b) := by
  cases a <;> rfl

theorem machine_BurnNewCell_eq {p : Params} (rnd : Nat → Nat) (hr : 1 ≤ p.NRows)
    (hc : 1 ≤ p.NCols) (hfit : (p.NRows + 2) * (p.NCols + 2) ≤ Machine.INT_MAX)
    {s : Forest} (hs : Sized p s)
    {row col : Int} (h0 : 1 ≤ row) (h1 : row ≤ p.NRows) (h2 : 1 ≤ col) (h3 : col ≤ p.NCols)
    (hN : candidate p s (row, col) = true →
      Machine.INT_MIN ≤ s.NBurnedTrees + 1 ∧ s.NBurnedTrees + 1 ≤ Machine.INT_MAX) :
    Machine.BurnNewCell p rnd row col s = some (BurnNewCell p rnd row col s) := by
  have hw := machine_wrap_neighbours hr hc hfit h0 h1 h2 h3
  have e0 : Machine.IsOnFire p s row col = some (IsOnFire p s row col) :=
    machine_IsOnFire_eq hr hc hfit hs (by omega) (by omega) (by omega) (by omega)
  have eb : Machine.IsBurntOut p s row col = some (IsBurntOut p s row col) :=
    machine_IsBurntOut_eq hr hc hfit hs (by omega) (by omega) (by omega) (by omega)
  have e1 : Machine.IsOnFire p s (row - 1) col = some (IsOnFire p s (row - 1) col) :=
    machine_IsOnFire_eq hr hc hfit hs (by omega) (by omega) (by omega) (by omega)
  have e2 : Machine.IsOnFire p s row (col - 1) = some (IsOnFire p s row (col - 1)) :=
    machine_IsOnFire_eq hr hc hfit hs (by omega) (by omega) (by omega) (by omega)
  have e3 : Machine.IsOnFire p s (row + 1) col = some (IsOnFire p s (row + 1) col) :=
    machine_IsOnFire_eq hr hc hfit hs (by omega) (by omega) (by omega) (by omega)
  have e4 : Machine.IsOnFire p s row (col + 1) = some (IsOnFire p s row (col + 1)) :=
    machine_IsOnFire_eq hr hc hfit hs (by omega) (by omega) (by omega) (by omega)
  unfold Machine.BurnNewCell BurnNewCell
  rw [hw.1, hw.2.1, hw.2.2.1, hw.2.2.2, e0, eb, e1, e2, e3, e4,
    machine_RandBetween_eq rnd s (le_refl 0) (by decide) (by decide)]
  simp only [Option.map_some', machine_andThen_some, machine_orElse_some, Option.some_bind]
  unfold candidate at hN
  simp only at hN
  have hsd : Sized p (RandBetween rnd 0 100 s).2 := hs
  have hNd : (RandBetween rnd 0 100 s).2.NBurnedTrees = s.NBurnedTrees := rfl
  cases hA : (!IsOnFire p s row col && !IsBurntOut p s row col)
  · simp
  · cases hC : (IsOnFire p s (row - 1) col || IsOnFire p s row (col - 1) ||
        IsOnFire p s (row + 1) col || IsOnFire p s row (col + 1))
    · simp
    · have hb := hN (by rw [hA, hC]; rfl)
      simp only [if_true]
      by_cases hd : (RandBetween rnd 0 100 s).1 < p.BurnProb
      · simp only [if_pos hd]
        rw [machine_setNewTree_eq hr hc hfit hsd 1 h0 h1 h2 h3, Option.map_some']
        have hN2 : (setNewTree p row col 1 (RandBetween rnd 0 100 s).2).NBurnedTrees
            = s.NBurnedTrees := rfl
        rw [hN2, wrapInt_eq hb.1 hb.2]
      · simp only [if_neg hd]

theorem machine_ContinueBurning_eq {p : Params} (hr : 1 ≤ p.NRows) (hc : 1 ≤ p.NCols)
    (hfit : (p.NRows + 2) * (p.NCols + 2) ≤ Machine.INT_MAX)
    (hmax : p.NMaxBurnSteps ≤ Machine.INT_MAX) {s : Forest} (hs : Sized p s) :
    Machine.ContinueBurning p s = some (ContinueBurning p s) ∧
      Sized p (ContinueBurning p s) := by
  unfold Machine.ContinueBurning ContinueBurning
  rw [(machine_succ_eq hr hc hfit).1, (machine_succ_eq hr hc hfit).2]
  refine machine_forLoop_eq (Sized p) _ _ _ _ ?_ s hs
  intro row hr1 hr2 s hs
  refine machine_forLoop_eq (Sized p) _ _ _ _ ?_ s hs
  intro col hc1 hc2 s hs
  exact machine_ContinueBurningCell_eq hr hc hfit hmax hs hr1 (by omega) hc1 (by omega)

theorem machine_AdvanceTime_eq {p : Params} (hr : 1 ≤ p.NRows) (hc : 1 ≤ p.NCols)
    (hfit : (p.NRows + 2) * (p.NCols + 2) ≤ Machine.INT_MAX) {s : Forest} (hs : Sized p s) :
    Machine.AdvanceTime p s = some (AdvanceTime p s) ∧ Sized p (AdvanceTime p s) := by
  unfold Machine.AdvanceTime AdvanceTime
  rw [(machine_succ_eq hr hc hfit).1, (machine_succ_eq hr hc hfit).2]
  refine machine_forLoop_eq (Sized p) _ _ _ _ ?_ s hs
  intro row hr1 hr2 s hs
  refine machine_forLoop_eq (Sized p) _ _ _ _ ?_ s hs
  intro col hc1 hc2 s hs
  rw [machine_newTreeAt_eq hr hc hfit hs hr1 (by omega) hc1 (by omega), Option.some_bind,
    machine_setTree_eq hr hc hfit hs _ (by omega) (by omega) (by omega) (by omega)]
  exact ⟨rfl, Sized_setTree hs _ _ _⟩

/-- A loop whose body never leaves the blocks, on states that keep an invariant which
may depend on the values still to visit, runs as the loop of the exact model. -/
theorem machine_foldlM_eq_of_rest {α σ : Type} (J : List α → σ → Prop)
    (bodyM : σ → α → Option σ) (body : σ → α → σ)
    (h : ∀ x l s, J (x :: l) s → bodyM s x = some (body s x) ∧ J l (body s x)) :
    ∀ l s, J l s → l.foldlM bodyM s = some (l.foldl body s) ∧ J [] (l.foldl body s) := by
  intro l
  induction l with
  | nil => intro s hs; exact ⟨rfl, hs⟩
  | cons x l ih =>
    intro s hs
    have hx := h x l s hs
    rw [List.foldlM_cons, hx.1, List.foldl_cons]
    exact ih _ hx.2

/-- Effect of the body of `BurnNew` for one cell on the lengths and on the counter. -/
theorem BurnNewCell_frame (p : Params) (rnd : Nat → Nat) (s : Forest) (row col : Int) :
    (BurnNewCell p rnd row col s).Trees = s.Trees ∧
      (BurnNewCell p rnd row col s).NewTrees.length = s.NewTrees.length ∧
      s.NBurnedTrees ≤ (BurnNewCell p rnd row col s).NBurnedTrees ∧
      (BurnNewCell p rnd row col s).NBurnedTrees
        ≤ s.NBurnedTrees + (if candidate p s (row, col) = true then 1 else 0) := by
  unfold BurnNewCell candidate
  simp only
  cases hA : (!IsOnFire p s row col && !IsBurntOut p s row col)
  · simp
  · cases hC : (IsOnFire p s (row - 1) col || IsOnFire p s row (col - 1) ||
        IsOnFire p s (row + 1) col || IsOnFire p s row (col + 1))
    · simp
    · simp only [if_true, Bool.and_self]
      by_cases hd : (RandBetween rnd 0 100 s).1 < p.BurnProb
      · simp only [if_pos hd]
        simp [setNewTree, RandBetween, length_writeAt]
      · simp only [if_neg hd]
        unfold RandBetween
        simp

theorem machine_BurnNew_eq {p : Params} (rnd : Nat → Nat) (hr : 1 ≤ p.NRows)
    (hc : 1 ≤ p.NCols) (hfit : (p.NRows + 2) * (p.NCols + 2) ≤ Machine.INT_MAX)
    {s : Forest} (hs : Sized p s) (h0 : 0 ≤ s.NBurnedTrees)
    (hN : s.NBurnedTrees + ((cells p).countP (candidate p s) : Int) ≤ Machine.INT_MAX) :
    Machine.BurnNew p rnd s = some (BurnNew p rnd s) ∧ Sized p (BurnNew p rnd s) := by
  have hM : Machine.BurnNew p rnd s
      = (cells p).foldlM (fun acc x => Machine.BurnNewCell p rnd x.1 x.2 acc) s := by
    unfold Machine.BurnNew Machine.forLoop
    rw [(machine_succ_eq hr hc hfit).1, (machine_succ_eq hr hc hfit).2]
    exact machine_foldlM_nest _ _ (fun r c acc => Machine.BurnNewCell p rnd r c acc) s
  rw [hM, BurnNew_eq_fold]
  have key := machine_foldlM_eq_of_rest
    (fun (l : List (Int × Int)) (t : Forest) =>
      Sized p t ∧ t.Trees = s.Trees ∧ (∀ y ∈ l, y ∈ cells p) ∧ 0 ≤ t.NBurnedTrees ∧
        t.NBurnedTrees + (l.countP (candidate p s) : Int) ≤ Machine.INT_MAX)
    (fun acc x => Machine.BurnNewCell p rnd x.1 x.2 acc)
    (fun acc x => BurnNewCell p rnd x.1 x.2 acc)
    (by
      intro x l t ht
      obtain ⟨hsz, hT, hmem, hnn, hle⟩ := ht
      have hx := mem_cells.mp (hmem x (List.mem_cons_self _ _))
      have hcand : candidate p t x = candidate p s x := candidate_congr hT x
      have hfr := BurnNewCell_frame p rnd t x.1 x.2
      rw [List.countP_cons] at hle
      push_cast at hle
      have hcount : (0 : Int) ≤ (l.countP (candidate p s) : Int) := Int.ofNat_nonneg _
      beta_reduce
      refine ⟨?_, ⟨?_, ?_⟩, ?_, ?_, ?_, ?_⟩
      · refine machine_BurnNewCell_eq rnd hr hc hfit hsz hx.1.1 hx.1.2 hx.2.1 hx.2.2 ?_
        intro hct
        have hcs : candidate p s x = true := by rw [← hcand]; exact hct
        rw [hcs] at hle
        simp only [if_true] at hle
        unfold Machine.INT_MIN
        constructor <;> omega
      · rw [hfr.1]; exact hsz.1
      · rw [hfr.2.1]; exact hsz.2
      · rw [hfr.1]; exact hT
      · exact fun y hy => hmem y (List.mem_cons_of_mem _ hy)
      · exact le_trans hnn hfr.2.2.1
      · have h4 := hfr.2.2.2
        have hcand' : candidate p t (x.1, x.2) = candidate p s x := hcand
        rw [hcand'] at h4
        by_cases hcs : candidate p s x = true
        · rw [hcs] at hle h4
          simp only [if_true] at hle h4
          omega
        · rw [if_neg hcs] at h4
          simp only [hcs, Bool.false_eq_true, if_false] at hle
          omega)
    (cells p) s ⟨hs, rfl, fun y hy => hy, h0, hN⟩
  exact ⟨key.1, key.2.1⟩

theorem ContinueBurning_NBurnedTrees (p : Params) (s : Forest) :
    (ContinueBurning p s).NBurnedTrees = s.NBurnedTrees := by
  rw [ContinueBurning_eq_fold, ContinueBurning_fold p s _ s rfl]

/-- In a state that satisfies the invariant, the counter plus the number of cells for
which `BurnNew` draws is at most the number of trees. -/
theorem NBurnedTrees_add_candidates_le {p : Params} {s : Forest} (hr : 1 ≤ p.NRows)
    (hc : 1 ≤ p.NCols) (hinv : Inv p s) :
    s.NBurnedTrees + ((cells p).countP (candidate p s) : Int) ≤ p.NTrees := by
  have hdis : ∀ x ∈ cells p,
      ¬ (decide (treeAt p s x.1 x.2 ≠ 0) = true ∧ candidate p s x = true) := by
    intro x hx h
    have h1 := ((candidate_iff p s x).mp h.2).1.1
    have h2 := hinv.nonneg x hx
    have h3 : treeAt p s x.1 x.2 ≠ 0 := of_decide_eq_true h.1
    omega
  have hsum := countP_or_of_disjoint (cells p)
    (fun x => decide (treeAt p s x.1 x.2 ≠ 0)) (candidate p s) hdis
  have hle := List.countP_le_length (fun x => decide (treeAt p s x.1 x.2 ≠ 0) || candidate p s x)
    (l := cells p)
  have hlen := length_cells p (by omega) (by omega)
  rw [hinv.burned, ← hlen]
  have : ((cells p).countP (fun x => decide (treeAt p s x.1 x.2 ≠ 0))
      + (cells p).countP (candidate p s) : Nat) ≤ (cells p).length := by
    rw [← hsum]; exact hle
  exact_mod_cast this

/-- When the padded size fits the type `int`, a time step from a state that satisfies
the invariant makes no access outside the blocks and computes what the exact model
computes. -/
theorem machine_step_eq {p : Params} (rnd : Nat → Nat) (hr : 1 ≤ p.NRows)
    (hc : 1 ≤ p.NCols) (hfit : (p.NRows + 2) * (p.NCols + 2) ≤ Machine.INT_MAX)
    (hmax : p.NMaxBurnSteps ≤ Machine.INT_MAX) {s : Forest} (hinv : Inv p s) :
    (Machine.ContinueBurning p s = some (ContinueBurning p s) ∧
      Machine.BurnNew p rnd (ContinueBurning p s) = some (BurnNew p rnd (ContinueBurning p s)) ∧
      Machine.AdvanceTime p (BurnNew p rnd (ContinueBurning p s))
        = some (AdvanceTime p (BurnNew p rnd (ContinueBurning p s)))) ∧
    Machine.step p rnd s = some (step p rnd s) := by
  have hC := machine_ContinueBurning_eq hr hc hfit hmax hinv.sized
  have hcount : (cells p).countP (candidate p (ContinueBurning p s))
      = (cells p).countP (candidate p s) := by
    congr 1
    funext x
    exact candidate_congr (ContinueBurning_Trees p s) x
  have hle := NBurnedTrees_add_candidates_le hr hc hinv
  have hf := fit_bounds hr hc hfit
  have hnn : 0 ≤ s.NBurnedTrees := by rw [hinv.burned]; exact Int.ofNat_nonneg _
  have hB := machine_BurnNew_eq rnd hr hc hfit hC.2
    (by rw [ContinueBurning_NBurnedTrees]; exact hnn)
    (by
      rw [ContinueBurning_NBurnedTrees, hcount]
      unfold Params.NTrees at hle
      omega)
  have hA := machine_AdvanceTime_eq hr hc hfit hB.2
  refine ⟨⟨hC.1, hB.1, hA.1⟩, ?_⟩
  unfold Machine.step step
  rw [hC.1, Option.some_bind, hB.1, Option.some_bind, hA.1]

theorem machine_steps_eq {p : Params} (rnd : Nat → Nat) (hr : 1 ≤ p.NRows)
    (hc : 1 ≤ p.NCols) (hfit : (p.NRows + 2) * (p.NCols + 2) ≤ Machine.INT_MAX)
    (hmax : p.NMaxBurnSteps ≤ Machine.INT_MAX) (n : Nat) {s : Forest} (hinv : Inv p s) :
    Machine.steps p rnd n s = some (steps p rnd n s) := by
  unfold Machine.steps steps
  exact (machine_foldlM_eq (Inv p) (fun acc (_ : Nat) => Machine.step p rnd acc)
    (fun acc _ => step p rnd acc) (List.range n)
    (fun _ _ t ht => ⟨(machine_step_eq rnd hr hc hfit hmax ht).2, step_Inv rnd (by omega) ht⟩)
    s hinv).1

/-- When the padded size fits the type `int`, the run of `main` makes no access outside
the blocks `AllocateMemory` got, and its state after `InitData` and `n` time steps is the
state of the exact model on blocks of `NTreesPlusBounds` and `NTrees` cells. -/
theorem machine_simulate_eq {p : Params} (rnd : Nat → Nat) (hr : 1 ≤ p.NRows)
    (hc : 1 ≤ p.NCols) (hfit : (p.NRows + 2) * (p.NCols + 2) ≤ Machine.INT_MAX)
    (hmax : p.NMaxBurnSteps ≤ Machine.INT_MAX) (g1 g2 : Nat → Int) (n : Nat) :
    Machine.simulate p rnd g1 g2 n
      = some (simulate p rnd
          ((List.range (Machine.mallocCells (Machine.NTreesPlusBounds p))).map g1)
          ((List.range (Machine.mallocCells (Machine.NTrees p))).map g2) n) := by
  have hl := machine_startState_lengths hr hc hfit g1 g2
  have hs : Sized p (Machine.startState p g1 g2) := by
    rw [machine_startState_eq]; exact startState_Sized hl.1 hl.2
  have hb : Machine.INT_MIN ≤ (Machine.startState p g1 g2).NBurnedTrees + 1 ∧
      (Machine.startState p g1 g2).NBurnedTrees + 1 ≤ Machine.INT_MAX := by
    have h0 : (Machine.startState p g1 g2).NBurnedTrees = 0 := rfl
    rw [h0]
    decide
  unfold Machine.simulate simulate
  rw [machine_InitData_eq rnd hr hc hfit hs hb, Option.some_bind,
    machine_startState_eq]
  exact machine_steps_eq rnd hr hc hfit hmax n
    (InitData_Inv rnd (startState_Sized hl.1 hl.2) hr hc rfl)

/-- On the blocks `AllocateMemory` gets for 50000 x 50000 trees, which are `NULL`, the
first assignment of `InitData` is an access outside the block. -/
theorem machine_InitData_none_big (rnd : Nat → Nat) (g1 g2 : Nat → Int) :
    Machine.InitData exParamsBig rnd (Machine.startState exParamsBig g1 g2) = none := by
  have hI : Machine.InitInterior exParamsBig (Machine.startState exParamsBig g1 g2) = none := by
    unfold Machine.InitInterior
    refine machine_forLoop_none (by decide) _ _ ?_
    refine machine_forLoop_none (by decide) _ _ ?_
    rfl
  unfold Machine.InitData
  rw [hI]
  rfl

/-- C2, counterexample: for 50000 rows and 50000 columns, in centre mode, the `int`
products `NTrees` and `NTreesPlusBounds` are negative, `malloc` returns `NULL` for both
requests of `AllocateMemory`, and `InitData` makes an access outside the blocks: it leaves
no initial grid. -/
theorem InitData_centre_mode_fails_on_large_forest :
    ((1 : Int) ≤ exParamsBig.NRows ∧ (1 : Int) ≤ exParamsBig.NCols ∧
      exParamsBig.IsRandFirstTree = false) ∧
    (Machine.NTreesPlusBounds exParamsBig = -1794767292 ∧
      Machine.NTrees exParamsBig = -1794967296) ∧
    ((Machine.startState exParamsBig exCells exCells).Trees = [] ∧
      (Machine.startState exParamsBig exCells exCells).NewTrees = [] ∧
      (Machine.startState exParamsBig exCells exCells).NBurnedTrees = 0) ∧
    Machine.InitData exParamsBig exRnd (Machine.startState exParamsBig exCells exCells)
      = none :=
  ⟨⟨by decide, by decide, rfl⟩, ⟨by decide, by decide⟩, ⟨rfl, rfl, rfl⟩,
    machine_InitData_none_big exRnd exCells exCells⟩

/-- C2, amended: for `NRows ≥ 1`, `NCols ≥ 1` with `(NRows + 2) * (NCols + 2) ≤ INT_MAX`
and any `NMaxBurnSteps`, `InitData` in centre mode, called by `main` on the blocks of
`AllocateMemory` with `NBurnedTrees = 0`, makes no access outside the blocks and leaves
every boundary cell of `Trees` equal to `NMaxBurnSteps`, the cell at padded coordinates
`(NRows / 2 + 1, NCols / 2 + 1)` (the 0-indexed interior cell `(NRows / 2, NCols / 2)`)
equal to `1` in `Trees` and in `NewTrees`, every other interior cell equal to `0` in both,
and `NBurnedTrees` equal to `1`. -/
theorem InitData_centre_mode (p : Params) (rnd : Nat → Nat) (g1 g2 : Nat → Int)
    (hr : 1 ≤ p.NRows) (hc : 1 ≤ p.NCols)
    (hfit : (p.NRows + 2) * (p.NCols + 2) ≤ Machine.INT_MAX)
    (hmode : p.IsRandFirstTree = false) :
    ∃ s : Forest, Machine.InitData p rnd (Machine.startState p g1 g2) = some s ∧
      (∀ row col : Int, 0 ≤ row → row ≤ p.NRows + 1 → 0 ≤ col → col ≤ p.NCols + 1 →
        (row = 0 ∨ row = p.NRows + 1 ∨ col = 0 ∨ col = p.NCols + 1) →
        Machine.treeAt p s row col = some p.NMaxBurnSteps) ∧
      (Machine.treeAt p s (p.NRows / 2 + 1) (p.NCols / 2 + 1) = some 1 ∧
        Machine.newTreeAt p s (p.NRows / 2 + 1) (p.NCols / 2 + 1) = some 1) ∧
      (∀ row col : Int, 1 ≤ row → row ≤ p.NRows → 1 ≤ col → col ≤ p.NCols →
        ¬ (row = p.NRows / 2 + 1 ∧ col = p.NCols / 2 + 1) →
        Machine.treeAt p s row col = some 0 ∧ Machine.newTreeAt p s row col = some 0) ∧
      s.NBurnedTrees = 1 := by
  have hl := machine_startState_lengths hr hc hfit g1 g2
  have hs0 : Sized p (Machine.startState p g1 g2) := by
    rw [machine_startState_eq]; exact startState_Sized hl.1 hl.2
  have hb0 : (Machine.startState p g1 g2).NBurnedTrees = 0 := rfl
  have hs : Sized p (InitData p rnd (Machine.startState p g1 g2)) := InitData_Sized rnd hs0
  have hf : firstCell p rnd (Machine.startState p g1 g2)
      = (p.NRows / 2 + 1, p.NCols / 2 + 1) := by
    unfold firstCell FirstTree
    simp only [hmode, Bool.false_eq_true, if_false, Params.MiddleRow, Params.MiddleCol]
    rw [Int.tdiv_eq_ediv (by omega) (by omega), Int.tdiv_eq_ediv (by omega) (by omega)]
  have hfm := firstCell_mem_cells rnd (Machine.startState p g1 g2) hr hc
  have hfm' := mem_cells.mp hfm
  rw [hf] at hfm'
  simp only at hfm'
  refine ⟨InitData p rnd (Machine.startState p g1 g2),
    machine_InitData_eq rnd hr hc hfit hs0 (by rw [hb0]; decide), ?_, ⟨?_, ?_⟩, ?_, ?_⟩
  · intro row col h1 h2 h3 h4 h5
    rw [machine_treeAt_eq hr hc hfit hs h1 h2 h3 h4]
    exact congrArg some (InitData_treeAt_boundary rnd hs0 hr hc (x := (row, col))
      ((mem_boundaryCells (by omega)).mpr ⟨⟨h1, h2⟩, ⟨h3, h4⟩, h5⟩))
  · rw [machine_treeAt_eq hr hc hfit hs (by omega) (by omega) (by omega) (by omega)]
    have := InitData_treeAt rnd hs0 hr hc hfm
    rw [if_pos rfl, hf] at this
    exact congrArg some this
  · rw [machine_newTreeAt_eq hr hc hfit hs hfm'.1.1 hfm'.1.2 hfm'.2.1 hfm'.2.2]
    have := InitData_newTreeAt rnd hs0 hr hc hfm
    rw [if_pos rfl, hf] at this
    exact congrArg some this
  · intro row col h1 h2 h3 h4 hne
    have hx : (row, col) ∈ cells p := mem_cells.mpr ⟨⟨h1, h2⟩, ⟨h3, h4⟩⟩
    have hne' : ¬ ((row, col) = firstCell p rnd (Machine.startState p g1 g2)) := by
      rw [hf, Prod.mk.injEq]; exact hne
    have e1 := InitData_treeAt rnd hs0 hr hc hx
    have e2 := InitData_newTreeAt rnd hs0 hr hc hx
    rw [if_neg hne'] at e1 e2
    rw [machine_treeAt_eq hr hc hfit hs (by omega) (by omega) (by omega) (by omega),
      machine_newTreeAt_eq hr hc hfit hs h1 h2 h3 h4]
    exact ⟨congrArg some e1, congrArg some e2⟩
  · rw [InitData_NBurnedTrees, hb0]; rfl

/-- Witness for `InitData_centre_mode`: the 3 x 3 forest on uninitialised memory. -/
theorem InitData_centre_mode_witness :
    ((1 : Int) ≤ exParams.NRows ∧ (1 : Int) ≤ exParams.NCols ∧
      (exParams.NRows + 2) * (exParams.NCols + 2) ≤ Machine.INT_MAX ∧
      exParams.IsRandFirstTree = false) ∧
    ∃ s : Forest, Machine.InitData exParams exRnd (Machine.startState exParams exCells exCells)
        = some s ∧
      Machine.treeAt exParams s 0 0 = some 2 ∧
      (Machine.treeAt exParams s 2 2 = some 1 ∧ Machine.newTreeAt exParams s 2 2 = some 1) ∧
      s.NBurnedTrees = 1 :=
  ⟨⟨by decide, by decide, by decide, rfl⟩,
    Exists.imp
      (fun _ h => ⟨h.1, h.2.1 0 0 (by decide) (by decide) (by decide) (by decide)
        (Or.inl rfl), h.2.2.1, h.2.2.2.2⟩)
      (InitData_centre_mode exParams exRnd exCells exCells (by decide) (by decide)
        (by decide) rfl)⟩

/-- On the blocks `AllocateMemory` gets for 50000 x 50000 trees the run of `main` stops
in `InitData`, whatever the number of time steps asked for. -/
theorem machine_simulate_none_big (rnd : Nat → Nat) (g1 g2 : Nat → Int) (k : Nat) :
    Machine.simulate exParamsBig rnd g1 g2 k = none := by
  unfold Machine.simulate
  rw [machine_InitData_none_big]
  rfl

/-- C4, counterexample: for 50000 rows and 50000 columns with `BurnProb = 100` and
`NMaxBurnSteps = 2`, the run of `main` makes an access outside the blocks in `InitData`:
there is no state after 50000 time steps, the number of steps after which the fire
would have reached every tree, and `NTrees` is not `NRows * NCols`. -/
theorem fire_does_not_start_on_large_forest :
    ((1 : Int) ≤ exParamsBig.NRows ∧ (1 : Int) ≤ exParamsBig.NCols ∧
      1 < exParamsBig.NMaxBurnSteps ∧ exParamsBig.BurnProb = 100) ∧
    Machine.simulate exParamsBig exRnd exCells exCells 50000 = none ∧
    Machine.NTrees exParamsBig ≠ exParamsBig.NRows * exParamsBig.NCols :=
  ⟨⟨by decide, by decide, by decide, rfl⟩,
    machine_simulate_none_big exRnd exCells exCells 50000, by decide⟩

/-- C4, amended: for `NRows ≥ 1`, `NCols ≥ 1` with `(NRows + 2) * (NCols + 2) ≤ INT_MAX`,
`1 < NMaxBurnSteps` (an `int`, so at most `INT_MAX`), `BurnProb = 100`, either ignition
mode and any random source, the run of `main` makes no access outside the blocks, the
interior cells with a non-zero age after `k` steps are exactly those at Manhattan
distance at most `k` from the first tree, and once every interior cell is within
distance `k`, `NBurnedTrees` is `NRows * NCols`, the value of `NTrees`. -/
theorem fire_reaches_manhattan_ball (p : Params) (rnd : Nat → Nat) (g1 g2 : Nat → Int)
    (hr : 1 ≤ p.NRows) (hc : 1 ≤ p.NCols)
    (hfit : (p.NRows + 2) * (p.NCols + 2) ≤ Machine.INT_MAX)
    (hmax : 1 < p.NMaxBurnSteps) (hint : p.NMaxBurnSteps ≤ Machine.INT_MAX)
    (hbp : p.BurnProb = 100) (k : Nat) :
    ∃ s : Forest, Machine.simulate p rnd g1 g2 k = some s ∧
      (∀ row col : Int, 1 ≤ row → row ≤ p.NRows → 1 ≤ col → col ≤ p.NCols →
        ∃ a : Int, Machine.treeAt p s row col = some a ∧
          (a ≠ 0 ↔
            manhattan (row, col) (firstCell p rnd (Machine.startState p g1 g2)) ≤ k)) ∧
      ((∀ row col : Int, 1 ≤ row → row ≤ p.NRows → 1 ≤ col → col ≤ p.NCols →
          manhattan (row, col) (firstCell p rnd (Machine.startState p g1 g2)) ≤ k) →
        s.NBurnedTrees = p.NRows * p.NCols ∧ s.NBurnedTrees = Machine.NTrees p) := by
  have hl := machine_startState_lengths hr hc hfit g1 g2
  have hst := machine_startState_eq p g1 g2
  have hage := simulate_spreadAge rnd hr hc hmax hbp hl.1 hl.2 k
  have hinv := simulate_Inv rnd hr hc hl.1 hl.2 k
  rw [hst]
  have hiff : ∀ x ∈ cells p,
      (treeAt p (simulate p rnd
          ((List.range (Machine.mallocCells (Machine.NTreesPlusBounds p))).map g1)
          ((List.range (Machine.mallocCells (Machine.NTrees p))).map g2) k) x.1 x.2 ≠ 0 ↔
        manhattan x (firstCell p rnd (startState
          ((List.range (Machine.mallocCells (Machine.NTreesPlusBounds p))).map g1)
          ((List.range (Machine.mallocCells (Machine.NTrees p))).map g2))) ≤ k) := by
    intro x hx
    rw [hage x hx]
    unfold spreadAge
    split
    · constructor
      · intro _; assumption
      · intro _; omega
    · constructor
      · intro h; exact absurd rfl h
      · intro h; contradiction
  refine ⟨_, machine_simulate_eq rnd hr hc hfit hint g1 g2 k, ?_, ?_⟩
  · intro row col h1 h2 h3 h4
    refine ⟨_, machine_treeAt_eq hr hc hfit hinv.sized (by omega) (by omega) (by omega)
      (by omega), ?_⟩
    exact hiff (row, col) (mem_cells.mpr ⟨⟨h1, h2⟩, ⟨h3, h4⟩⟩)
  · intro hall
    have hN : (simulate p rnd
        ((List.range (Machine.mallocCells (Machine.NTreesPlusBounds p))).map g1)
        ((List.range (Machine.mallocCells (Machine.NTrees p))).map g2) k).NBurnedTrees
        = p.NRows * p.NCols := by
      rw [hinv.burned, List.countP_eq_length.mpr, length_cells p (by omega) (by omega)]
      · rfl
      · intro x hx
        have hm := mem_cells.mp hx
        simp only [decide_eq_true_eq]
        exact (hiff x hx).mpr (hall x.1 x.2 hm.1.1 hm.1.2 hm.2.1 hm.2.2)
    exact ⟨hN, hN.trans (machine_NTrees_eq hr hc hfit).symm⟩

/-- Witness for `fire_reaches_manhattan_ball`: the 3 x 3 forest after 2 steps. -/
theorem fire_reaches_manhattan_ball_witness :
    ((1 : Int) ≤ exParams.NRows ∧ (1 : Int) ≤ exParams.NCols ∧
      (exParams.NRows + 2) * (exParams.NCols + 2) ≤ Machine.INT_MAX ∧
      1 < exParams.NMaxBurnSteps ∧ exParams.NMaxBurnSteps ≤ Machine.INT_MAX ∧
      exParams.BurnProb = 100) ∧
    ∃ s : Forest, Machine.simulate exParams exRnd exCells exCells 2 = some s ∧
      s.NBurnedTrees = 9 :=
  ⟨⟨by decide, by decide, by decide, by decide, by decide, rfl⟩,
    Exists.imp
      (fun _ h => ⟨h.1, (h.2.2 (by
        intro row col h1 h2 h3 h4
        have hf : firstCell exParams exRnd (Machine.startState exParams exCells exCells)
            = (2, 2) := rfl
        have e1 : exParams.NRows = 3 := rfl
        have e2 : exParams.NCols = 3 := rfl
        rw [hf, manhattan_eq_max]
        simp only [Nat.cast_ofNat]
        omega)).1⟩)
      (fire_reaches_manhattan_ball exParams exRnd exCells exCells (by decide) (by decide)
        (by decide) (by decide) (by decide) rfl 2)⟩

/-- C6, counterexample: the parameters `-r 50000 -c 50000` meet every constraint the
options are checked against, and `NTrees`, the `int` product `main` computes, is
`-1794967296`, not `NRows * NCols = 2500000000`; it is negative, so no count lies
between 0 and `NTrees`. -/
theorem NTrees_is_not_the_product_on_large_forest :
    ((1 : Int) ≤ exParamsBig.NRows ∧ (1 : Int) ≤ exParamsBig.NCols ∧
      (0 : Int) ≤ exParamsBig.BurnProb ∧ exParamsBig.BurnProb ≤ 100 ∧
      1 < exParamsBig.NMaxBurnSteps) ∧
    Machine.NTrees exParamsBig = -1794967296 ∧
    exParamsBig.NRows * exParamsBig.NCols = 2500000000 ∧
    Machine.NTrees exParamsBig ≠ exParamsBig.NRows * exParamsBig.NCols ∧
    ¬ ∃ n : Int, 0 ≤ n ∧ n ≤ Machine.NTrees exParamsBig :=
  ⟨⟨by decide, by decide, by decide, by decide, by decide⟩, by decide, by decide, by decide,
    fun ⟨n, h0, h1⟩ => by
      have h : Machine.NTrees exParamsBig = -1794967296 := by decide
      rw [h] at h1
      omega⟩

/-- C6, amended: for `NRows ≥ 1`, `NCols ≥ 1` with `(NRows + 2) * (NCols + 2) ≤ INT_MAX`
(and `NMaxBurnSteps` an `int`, so at most `INT_MAX`), `NTrees` as `main` computes it is
`NRows * NCols`, and after `InitData` and after any number of steps, for any random
source, the run has made no access outside the blocks and `0 ≤ NBurnedTrees ≤ NTrees`. -/
theorem NBurnedTrees_between_zero_and_NTrees (p : Params) (rnd : Nat → Nat)
    (g1 g2 : Nat → Int) (hr : 1 ≤ p.NRows) (hc : 1 ≤ p.NCols)
    (hfit : (p.NRows + 2) * (p.NCols + 2) ≤ Machine.INT_MAX)
    (hint : p.NMaxBurnSteps ≤ Machine.INT_MAX) (k : Nat) :
    Machine.NTrees p = p.NRows * p.NCols ∧
    ∃ s : Forest, Machine.simulate p rnd g1 g2 k = some s ∧
      0 ≤ s.NBurnedTrees ∧ s.NBurnedTrees ≤ Machine.NTrees p := by
  have hl := machine_startState_lengths hr hc hfit g1 g2
  have hinv := simulate_Inv rnd hr hc hl.1 hl.2 k
  refine ⟨machine_NTrees_eq hr hc hfit, _, machine_simulate_eq rnd hr hc hfit hint g1 g2 k,
    ?_, ?_⟩
  · rw [hinv.burned]; exact Int.ofNat_nonneg _
  · refine le_of_le_of_eq ?_ (machine_NTrees_eq hr hc hfit).symm
    rw [hinv.burned, ← length_cells p (by omega) (by omega)]
    exact Int.ofNat_le.mpr (List.countP_le_length _)

/-- Witness for `NBurnedTrees_between_zero_and_NTrees`: the 3 x 3 forest after 2 steps. -/
theorem NBurnedTrees_between_zero_and_NTrees_witness :
    ((1 : Int) ≤ exParams.NRows ∧ (1 : Int) ≤ exParams.NCols ∧
      (exParams.NRows + 2) * (exParams.NCols + 2) ≤ Machine.INT_MAX ∧
      exParams.NMaxBurnSteps ≤ Machine.INT_MAX) ∧
    Machine.NTrees exParams = 9 ∧
    ∃ s : Forest, Machine.simulate exParams exRnd exCells exCells 2 = some s ∧
      0 ≤ s.NBurnedTrees ∧ s.NBurnedTrees ≤ 9 :=
  ⟨⟨by decide, by decide, by decide, by decide⟩,
    (NBurnedTrees_between_zero_and_NTrees exParams exRnd exCells exCells (by decide)
      (by decide) (by decide) (by decide) 2).1,
    (NBurnedTrees_between_zero_and_NTrees exParams exRnd exCells exCells (by decide)
      (by decide) (by decide) (by decide) 2).2⟩

/-- C10, counterexample: for 50000 rows and 50000 columns the index `TREE_MAP` computes
for the interior cell `(1, 1)` is 50003, inside `[0, (NRows + 2) * (NCols + 2))`, and the
index `NEW_TREE_MAP` computes is 0, but the blocks `AllocateMemory` got have no cell
(`malloc` was asked for the negative `int` products and returned `NULL`): the first
assignment of `InitData`, `Trees[50003] = NewTrees[0] = 0`, is outside both blocks. -/
theorem array_access_out_of_bounds_on_large_forest :
    ((1 : Int) ≤ exParamsBig.NRows ∧ (1 : Int) ≤ exParamsBig.NCols) ∧
    (Machine.TREE_MAP 1 1 (Machine.NColsPlusBounds exParamsBig) = 50003 ∧
      (50003 : Int) < (exParamsBig.NRows + 2) * (exParamsBig.NCols + 2) ∧
      Machine.NEW_TREE_MAP 1 1 exParamsBig.NCols = 0) ∧
    ((Machine.startState exParamsBig exCells exCells).Trees.length = 0 ∧
      (Machine.startState exParamsBig exCells exCells).NewTrees.length = 0) ∧
    (Machine.setTree exParamsBig 1 1 0 (Machine.startState exParamsBig exCells exCells) = none ∧
      Machine.setNewTree exParamsBig 1 1 0 (Machine.startState exParamsBig exCells exCells)
        = none) :=
  ⟨⟨by decide, by decide⟩, ⟨by decide, by decide, by decide⟩, ⟨rfl, rfl⟩, ⟨rfl, rfl⟩⟩

/-- C10, amended: for `NRows ≥ 1`, `NCols ≥ 1` with `(NRows + 2) * (NCols + 2) ≤ INT_MAX`
(and `NMaxBurnSteps` an `int`, so at most `INT_MAX`) the blocks `AllocateMemory` gets have `(NRows + 2) * (NCols + 2)` and `NRows * NCols`
cells; for every interior cell `(row, col)` the indices `TREE_MAP` computes on `int` for
the cell and for its north, south, west and east neighbours lie in
`[0, (NRows + 2) * (NCols + 2))` and the index `NEW_TREE_MAP` computes lies in
`[0, NRows * NCols)`; the centre cell `(MiddleRow + 1, MiddleCol + 1)` is an interior
cell; and no array access made by `InitData`, or by `ContinueBurning`, `BurnNew` and
`AdvanceTime` in the time step that follows any number `k` of time steps, is outside the
blocks. -/
theorem array_indices_in_bounds (p : Params) (rnd : Nat → Nat) (g1 g2 : Nat → Int)
    (hr : 1 ≤ p.NRows) (hc : 1 ≤ p.NCols)
    (hfit : (p.NRows + 2) * (p.NCols + 2) ≤ Machine.INT_MAX)
    (hint : p.NMaxBurnSteps ≤ Machine.INT_MAX)
    (row col : Int) (hrow : 1 ≤ row ∧ row ≤ p.NRows) (hcol : 1 ≤ col ∧ col ≤ p.NCols)
    (k : Nat) :
    (((Machine.startState p g1 g2).Trees.length : Int) = (p.NRows + 2) * (p.NCols + 2) ∧
      ((Machine.startState p g1 g2).NewTrees.length : Int) = p.NRows * p.NCols) ∧
    ((0 ≤ Machine.TREE_MAP row col (Machine.NColsPlusBounds p) ∧
        Machine.TREE_MAP row col (Machine.NColsPlusBounds p) < (p.NRows + 2) * (p.NCols + 2)) ∧
      (0 ≤ Machine.TREE_MAP (Machine.wrapInt (row - 1)) col (Machine.NColsPlusBounds p) ∧
        Machine.TREE_MAP (Machine.wrapInt (row - 1)) col (Machine.NColsPlusBounds p)
          < (p.NRows + 2) * (p.NCols + 2)) ∧
      (0 ≤ Machine.TREE_MAP (Machine.wrapInt (row + 1)) col (Machine.NColsPlusBounds p) ∧
        Machine.TREE_MAP (Machine.wrapInt (row + 1)) col (Machine.NColsPlusBounds p)
          < (p.NRows + 2) * (p.NCols + 2)) ∧
      (0 ≤ Machine.TREE_MAP row (Machine.wrapInt (col - 1)) (Machine.NColsPlusBounds p) ∧
        Machine.TREE_MAP row (Machine.wrapInt (col - 1)) (Machine.NColsPlusBounds p)
          < (p.NRows + 2) * (p.NCols + 2)) ∧
      (0 ≤ Machine.TREE_MAP row (Machine.wrapInt (col + 1)) (Machine.NColsPlusBounds p) ∧
        Machine.TREE_MAP row (Machine.wrapInt (col + 1)) (Machine.NColsPlusBounds p)
          < (p.NRows + 2) * (p.NCols + 2))) ∧
    (0 ≤ Machine.NEW_TREE_MAP row col p.NCols ∧
      Machine.NEW_TREE_MAP row col p.NCols < p.NRows * p.NCols) ∧
    ((1 ≤ Machine.wrapInt (Machine.MiddleRow p + 1) ∧
        Machine.wrapInt (Machine.MiddleRow p + 1) ≤ p.NRows) ∧
      (1 ≤ Machine.wrapInt (Machine.MiddleCol p + 1) ∧
        Machine.wrapInt (Machine.MiddleCol p + 1) ≤ p.NCols)) ∧
    ∃ s0 s s1 s2 s3 : Forest,
      Machine.InitData p rnd (Machine.startState p g1 g2) = some s0 ∧
      Machine.steps p rnd k s0 = some s ∧
      Machine.ContinueBurning p s = some s1 ∧
      Machine.BurnNew p rnd s1 = some s2 ∧
      Machine.AdvanceTime p s2 = some s3 := by
  have hl := machine_startState_lengths hr hc hfit g1 g2
  have hs0 : Sized p (Machine.startState p g1 g2) := by
    rw [machine_startState_eq]; exact startState_Sized hl.1 hl.2
  have hw := machine_wrap_neighbours hr hc hfit hrow.1 hrow.2 hcol.1 hcol.2
  have hT : ∀ r c : Int, 0 ≤ r → r ≤ p.NRows + 1 → 0 ≤ c → c ≤ p.NCols + 1 →
      0 ≤ Machine.TREE_MAP r c (Machine.NColsPlusBounds p) ∧
        Machine.TREE_MAP r c (Machine.NColsPlusBounds p) < (p.NRows + 2) * (p.NCols + 2) := by
    intro r c h1 h2 h3 h4
    rw [machine_TREE_MAP_eq hr hc hfit h1 h2 h3 h4]
    exact TREE_MAP_bounds h1 h2 h3 h4
  have hm1 := tdiv_two_bounds hr
  have hm2 := tdiv_two_bounds hc
  have hf := fit_bounds hr hc hfit
  have hinit : Inv p (InitData p rnd (Machine.startState p g1 g2)) :=
    InitData_Inv rnd hs0 hr hc rfl
  have hinv : Inv p (steps p rnd k (InitData p rnd (Machine.startState p g1 g2))) := by
    have := simulate_Inv rnd hr hc hl.1 hl.2 k
    unfold simulate at this
    rw [← machine_startState_eq] at this
    exact this
  have hstep := machine_step_eq rnd hr hc hfit hint hinv
  refine ⟨hs0, ⟨hT _ _ (by omega) (by omega) (by omega) (by omega), ?_, ?_, ?_, ?_⟩, ?_,
    ⟨?_, ?_⟩, ?_⟩
  · rw [hw.1]; exact hT _ _ (by omega) (by omega) (by omega) (by omega)
  · rw [hw.2.1]; exact hT _ _ (by omega) (by omega) (by omega) (by omega)
  · rw [hw.2.2.1]; exact hT _ _ (by omega) (by omega) (by omega) (by omega)
  · rw [hw.2.2.2]; exact hT _ _ (by omega) (by omega) (by omega) (by omega)
  · rw [machine_NEW_TREE_MAP_eq hr hc hfit hrow.1 hrow.2 hcol.1 hcol.2]
    exact NEW_TREE_MAP_bounds hrow.1 hrow.2 hcol.1 hcol.2
  · unfold Machine.MiddleRow
    rw [wrapInt_eq (by unfold Machine.INT_MIN; omega) (by omega)]
    omega
  · unfold Machine.MiddleCol
    rw [wrapInt_eq (by unfold Machine.INT_MIN; omega) (by omega)]
    omega
  · exact ⟨_, _, _, _, _,
      machine_InitData_eq rnd hr hc hfit hs0 (by
        have h0 : (Machine.startState p g1 g2).NBurnedTrees = 0 := rfl
        rw [h0]; decide),
      machine_steps_eq rnd hr hc hfit hint k hinit, hstep.1.1, hstep.1.2.1, hstep.1.2.2⟩

/-- Witness for `array_indices_in_bounds`: the bottom-right interior cell of the 3 x 3
forest, and the time step that follows two time steps. -/
theorem array_indices_in_bounds_witness :
    ((1 : Int) ≤ exParams.NRows ∧ (1 : Int) ≤ exParams.NCols ∧
      (exParams.NRows + 2) * (exParams.NCols + 2) ≤ Machine.INT_MAX ∧
      exParams.NMaxBurnSteps ≤ Machine.INT_MAX ∧
      ((1 : Int) ≤ 3 ∧ (3 : Int) ≤ exParams.NRows) ∧ ((1 : Int) ≤ 3 ∧ (3 : Int) ≤ exParams.NCols)) ∧
    (0 ≤ Machine.TREE_MAP (Machine.wrapInt (3 + 1)) 3 (Machine.NColsPlusBounds exParams) ∧
      Machine.TREE_MAP (Machine.wrapInt (3 + 1)) 3 (Machine.NColsPlusBounds exParams)
        < (exParams.NRows + 2) * (exParams.NCols + 2)) ∧
    (0 ≤ Machine.NEW_TREE_MAP 3 3 exParams.NCols ∧
      Machine.NEW_TREE_MAP 3 3 exParams.NCols < exParams.NRows * exParams.NCols) ∧
    ∃ s0 s s1 s2 s3 : Forest,
      Machine.InitData exParams exRnd (Machine.startState exParams exCells exCells) = some s0 ∧
      Machine.steps exParams exRnd 2 s0 = some s ∧
      Machine.ContinueBurning exParams s = some s1 ∧
      Machine.BurnNew exParams exRnd s1 = some s2 ∧
      Machine.AdvanceTime exParams s2 = some s3 :=
  have h := array_indices_in_bounds exParams exRnd exCells exCells (by decide) (by decide)
    (by decide) (by decide) 3 3 (by decide) (by decide) 2
  ⟨⟨by decide, by decide, by decide, by decide, by decide, by decide⟩, h.2.1.2.2.1, h.2.2.1,
    h.2.2.2.2⟩

/-- A value written as a decimal integer of the type `int` is read by `atoi` as that
integer, and the test `floatParam != param` does not fire on it. -/
theorem integerText_read (s : String) (n : Int) (h : integerText s = some n)
    (h1 : -2147483648 ≤ n) (h2 : n ≤ 2147483647) :
    Libc.atoi s = n ∧ floatParamDiffers s n = false := by
  refine ⟨Libc.atoi_integerText s n h h1 h2, ?_⟩
  obtain ⟨w, hw, hn⟩ := Libc.strtod_integerText s n h
  have hwlt : w < 2 ^ 53 := by
    have : (w : Int) ≤ 2147483648 := by
      split at hn <;> omega
    have : w ≤ 2147483648 := by exact_mod_cast this
    exact lt_of_le_of_lt this (by norm_num)
  unfold floatParamDiffers floatParam Libc.atof
  rw [hw, IEEE.convert_round_binary64_int _ _ _ hwlt]
  unfold IEEE.ofInt
  have habs : n.natAbs = w := by
    split at hn <;> omega
  rw [habs]
  by_cases h0 : w = 0
  · subst h0
    exact IEEE.ne_round_zero _ _ _ _ _
  · have hneg : decide (n < 0) = (Libc.takeSign s.data).1 := by
      cases hb : (Libc.takeSign s.data).1 with
      | true =>
        rw [hb] at hn
        simp only [if_true] at hn
        have : n < 0 := by omega
        simp [this]
      | false =>
        rw [hb] at hn
        simp only [Bool.false_eq_true, if_false] at hn
        have : ¬ n < 0 := by omega
        simp [this]
    rw [hneg]
    exact IEEE.ne_round_self _ _ _ _

theorem ErrorsKept.refl (o : Options) : ErrorsKept o o := ⟨fun h => h, fun _ h => h⟩

theorem ErrorsKept.trans {o1 o2 o3 : Options} (h1 : ErrorsKept o1 o2) (h2 : ErrorsKept o2 o3) :
    ErrorsKept o1 o3 :=
  ⟨fun h => h2.1 (h1.1 h), fun m h => h2.2 m (h1.2 m h)⟩

theorem PrintError_kept (msg : String) (o : Options) : ErrorsKept o (PrintError msg o) :=
  ⟨fun _ => rfl, fun _ h => List.mem_append_left _ h⟩

theorem AssertInteger_kept (s : String) (n : Int) (c : Char) (o : Options) :
    ErrorsKept o (AssertInteger s n c o) := by
  unfold AssertInteger; split
  · exact PrintError_kept _ o
  · exact ErrorsKept.refl o

theorem AssertPositiveInteger_kept (s : String) (n : Int) (c : Char) (o : Options) :
    ErrorsKept o (AssertPositiveInteger s n c o) := by
  unfold AssertPositiveInteger; split
  · exact PrintError_kept _ o
  · exact ErrorsKept.refl o

theorem AssertBigger_kept (n v : Int) (c : Char) (o : Options) :
    ErrorsKept o (AssertBigger n v c o) := by
  unfold AssertBigger; split
  · exact PrintError_kept _ o
  · exact ErrorsKept.refl o

theorem AssertBetweenInclusive_kept (n lo hi : Int) (c : Char) (o : Options) :
    ErrorsKept o (AssertBetweenInclusive n lo hi c o) := by
  unfold AssertBetweenInclusive; split
  · exact PrintError_kept _ o
  · exact ErrorsKept.refl o

theorem AssertFileDNE_kept (f : String) (b : Bool) (o : Options) :
    ErrorsKept o (AssertFileDNE f b o) := by
  unfold AssertFileDNE; split
  · exact PrintError_kept _ o
  · exact ErrorsKept.refl o

theorem handleOption_kept (a : OptArg) (o : Options) : ErrorsKept o (handleOption a o) := by
  unfold handleOption
  split
  · refine ErrorsKept.trans ?_ (AssertPositiveInteger_kept _ _ _ _)
    exact ⟨fun h => h, fun _ h => h⟩
  split
  · refine ErrorsKept.trans ?_ (AssertPositiveInteger_kept _ _ _ _)
    exact ⟨fun h => h, fun _ h => h⟩
  split
  · refine ErrorsKept.trans (ErrorsKept.trans ?_ (AssertInteger_kept _ _ _ _))
      (AssertBetweenInclusive_kept _ _ _ _ _)
    exact ⟨fun h => h, fun _ h => h⟩
  split
  · refine ErrorsKept.trans (ErrorsKept.trans ?_ (AssertPositiveInteger_kept _ _ _ _))
      (AssertBigger_kept _ _ _ _)
    exact ⟨fun h => h, fun _ h => h⟩
  split
  · refine ErrorsKept.trans ?_ (AssertPositiveInteger_kept _ _ _ _)
    exact ⟨fun h => h, fun _ h => h⟩
  split
  · refine ErrorsKept.trans ?_ (AssertPositiveInteger_kept _ _ _ _)
    exact ⟨fun h => h, fun _ h => h⟩
  split
  · exact ⟨fun h => h, fun _ h => h⟩
  split
  · exact ⟨fun h => h, fun _ h => h⟩
  · exact ErrorsKept.trans (PrintError_kept _ o) ⟨fun h => h, fun _ h => h⟩

theorem optionLoop_kept (opts : List OptArg) : ∀ o, ErrorsKept o (optionLoop opts o) := by
  induction opts with
  | nil => intro o; exact ErrorsKept.refl o
  | cons a rest ih =>
    intro o
    unfold optionLoop
    split
    · exact handleOption_kept a o
    · exact ErrorsKept.trans (handleOption_kept a o) (ih _)

theorem GetUserOptions_kept (opts : List OptArg) (fileExists : Bool) (o : Options) :
    ErrorsKept (optionLoop opts o) (GetUserOptions opts fileExists o) := by
  unfold GetUserOptions
  split
  · exact ErrorsKept.refl _
  · split
    · exact AssertFileDNE_kept _ _ _
    · exact ErrorsKept.refl _

theorem AssertInteger_Exited (s : String) (n : Int) (c : Char) (o : Options) :
    (AssertInteger s n c o).Exited = o.Exited := by
  unfold AssertInteger PrintError; split <;> rfl

theorem AssertPositiveInteger_Exited (s : String) (n : Int) (c : Char) (o : Options) :
    (AssertPositiveInteger s n c o).Exited = o.Exited := by
  unfold AssertPositiveInteger PrintError; split <;> rfl

theorem AssertBigger_Exited (n v : Int) (c : Char) (o : Options) :
    (AssertBigger n v c o).Exited = o.Exited := by
  unfold AssertBigger PrintError; split <;> rfl

theorem AssertBetweenInclusive_Exited (n lo hi : Int) (c : Char) (o : Options) :
    (AssertBetweenInclusive n lo hi c o).Exited = o.Exited := by
  unfold AssertBetweenInclusive PrintError; split <;> rfl

/-- A legal option does not end the program. -/
theorem handleOption_Exited_of_legal (a : OptArg) (o : Options)
    (h : a.c ∈ legalOptionChars) : (handleOption a o).Exited = o.Exited := by
  unfold handleOption
  split
  · rw [AssertPositiveInteger_Exited]
  split
  · rw [AssertPositiveInteger_Exited]
  split
  · rw [AssertBetweenInclusive_Exited, AssertInteger_Exited]
  split
  · rw [AssertBigger_Exited, AssertPositiveInteger_Exited]
  split
  · rw [AssertPositiveInteger_Exited]
  split
  · rw [AssertPositiveInteger_Exited]
  split
  · rfl
  split
  · rfl
  · exfalso
    simp only [legalOptionChars, List.mem_cons, List.mem_singleton, List.not_mem_nil,
      or_false] at h
    rcases h with h | h | h | h | h | h | h | h <;> contradiction

/-- When the program has ended, `AreParamsValid` is false. -/
theorem handleOption_exit_invalid (a : OptArg) (o : Options)
    (ho : o.Exited = true → o.AreParamsValid = false) :
    (handleOption a o).Exited = true → (handleOption a o).AreParamsValid = false := by
  by_cases hl : a.c ∈ legalOptionChars
  · rw [handleOption_Exited_of_legal a o hl]
    intro h
    exact (handleOption_kept a o).1 (ho h)
  · intro _
    unfold handleOption
    simp only [legalOptionChars, List.mem_cons, List.mem_singleton, List.not_mem_nil,
      or_false, not_or] at hl
    obtain ⟨h1, h2, h3, h4, h5, h6, h7, h8⟩ := hl
    simp only [h1, h2, h3, h4, h5, h6, h7, h8, if_false]
    rfl

/-- A value that `handleOption` rejects with the message `msg` leaves
`AreParamsValid = false` after the option loop; the message is on `stderr` when every
option before it is legal. -/
theorem optionLoop_rejects (a : OptArg) (msg : String)
    (hv : ∀ o, (handleOption a o).AreParamsValid = false ∧ msg ∈ (handleOption a o).Stderr)
    (pre post : List OptArg) :
    ∀ o, (o.Exited = true → o.AreParamsValid = false) →
      (optionLoop (pre ++ a :: post) o).AreParamsValid = false ∧
      ((∀ b ∈ pre, b.c ∈ legalOptionChars) → o.Exited = false →
        msg ∈ (optionLoop (pre ++ a :: post) o).Stderr) := by
  induction pre with
  | nil =>
    intro o _
    rw [List.nil_append]
    unfold optionLoop
    split
    · exact ⟨(hv o).1, fun _ _ => (hv o).2⟩
    · have hk := optionLoop_kept post (handleOption a o)
      exact ⟨hk.1 (hv o).1, fun _ _ => hk.2 msg (hv o).2⟩
  | cons b rest ih =>
    intro o ho
    have hq := handleOption_exit_invalid b o ho
    rw [List.cons_append]
    unfold optionLoop
    by_cases hex : (handleOption b o).Exited = true
    · rw [if_pos hex]
      refine ⟨hq hex, fun hl he => ?_⟩
      rw [handleOption_Exited_of_legal b o (hl b (List.mem_cons_self _ _)), he] at hex
      exact absurd hex (by decide)
    · rw [if_neg hex]
      have h := ih (handleOption b o) hq
      refine ⟨h.1, fun hl he => h.2 (fun c hc => hl c (List.mem_cons_of_mem _ hc)) ?_⟩
      rw [handleOption_Exited_of_legal b o (hl b (List.mem_cons_self _ _)), he]

theorem GetUserOptions_invalid (a : OptArg) (msg : String)
    (hv : ∀ o, (handleOption a o).AreParamsValid = false ∧ msg ∈ (handleOption a o).Stderr)
    (opts : List OptArg) (fileExists : Bool) (ha : a ∈ opts) :
    (GetUserOptions opts fileExists initialOptions).AreParamsValid = false ∧
      mainStartsSimulation (GetUserOptions opts fileExists initialOptions) = false := by
  obtain ⟨pre, post, rfl⟩ := List.append_of_mem ha
  have h1 := (optionLoop_rejects a msg hv pre post initialOptions
    (fun h => absurd h (by decide))).1
  have h2 := (GetUserOptions_kept (pre ++ a :: post) fileExists initialOptions).1 h1
  refine ⟨h2, ?_⟩
  unfold mainStartsSimulation
  rw [h2, Bool.and_false]

theorem GetUserOptions_rejects (a : OptArg) (msg : String)
    (hv : ∀ o, (handleOption a o).AreParamsValid = false ∧ msg ∈ (handleOption a o).Stderr)
    (pre post : List OptArg) (fileExists : Bool)
    (hl : ∀ b ∈ pre, b.c ∈ legalOptionChars) :
    Rejected (GetUserOptions (pre ++ a :: post) fileExists initialOptions) msg := by
  have h := optionLoop_rejects a msg hv pre post initialOptions
    (fun h => absurd h (by decide))
  have hk := GetUserOptions_kept (pre ++ a :: post) fileExists initialOptions
  have hvalid := hk.1 h.1
  refine ⟨hvalid, ?_, hk.2 msg (h.2 hl rfl)⟩
  unfold mainStartsSimulation
  rw [hvalid, Bool.and_false]

theorem mem_Stderr_PrintError (msg : String) (o : Options) : msg ∈ (PrintError msg o).Stderr :=
  List.mem_append_right _ (List.mem_singleton.mpr rfl)

/-- The options `-r`, `-c`, `-m` and `-t` go through `AssertPositiveInteger`: a value that
`atoi` reads as less than 1, or on which the test `floatParam != param` fires, is
rejected with its message. -/
theorem handleOption_rejects_positive (a : OptArg) (c : Char)
    (hc : c = 'r' ∨ c = 'c' ∨ c = 'm' ∨ c = 't') (h : a.c = c)
    (hv : ¬ 0 < Libc.atoi a.optarg ∨
      floatParamDiffers a.optarg (Libc.atoi a.optarg) = true) (o : Options) :
    (handleOption a o).AreParamsValid = false ∧
      msgPositiveInteger c ∈ (handleOption a o).Stderr := by
  have hlt : (decide (Libc.atoi a.optarg < 1) ||
      floatParamDiffers a.optarg (Libc.atoi a.optarg)) = true := by
    rw [Bool.or_eq_true, decide_eq_true_eq]
    rcases hv with hv | hv
    · left; omega
    · right; exact hv
  unfold handleOption
  rcases hc with rfl | rfl | rfl | rfl
  · rw [if_pos h]
    unfold AssertPositiveInteger
    rw [if_pos hlt]
    exact ⟨rfl, mem_Stderr_PrintError _ _⟩
  · rw [if_neg (by rw [h]; decide), if_pos h]
    unfold AssertPositiveInteger
    rw [if_pos hlt]
    exact ⟨rfl, mem_Stderr_PrintError _ _⟩
  · rw [if_neg (by rw [h]; decide), if_neg (by rw [h]; decide), if_neg (by rw [h]; decide),
      if_pos h]
    have hk := AssertBigger_kept (Libc.atoi a.optarg) 1 'm'
      (AssertPositiveInteger a.optarg (Libc.atoi a.optarg) 'm'
        { o with NMaxBurnSteps := Libc.atoi a.optarg })
    refine ⟨hk.1 ?_, hk.2 _ ?_⟩
    · unfold AssertPositiveInteger
      rw [if_pos hlt]
      rfl
    · unfold AssertPositiveInteger
      rw [if_pos hlt]
      exact mem_Stderr_PrintError _ _
  · rw [if_neg (by rw [h]; decide), if_neg (by rw [h]; decide), if_neg (by rw [h]; decide),
      if_neg (by rw [h]; decide), if_pos h]
    unfold AssertPositiveInteger
    rw [if_pos hlt]
    exact ⟨rfl, mem_Stderr_PrintError _ _⟩

/-- The option `-b` goes through `AssertInteger`: a value on which the test
`floatParam != param` fires is rejected with its message. -/
theorem handleOption_rejects_integer (a : OptArg) (h : a.c = 'b')
    (hv : floatParamDiffers a.optarg (Libc.atoi a.optarg) = true) (o : Options) :
    (handleOption a o).AreParamsValid = false ∧
      msgInteger 'b' ∈ (handleOption a o).Stderr := by
  unfold handleOption
  rw [if_neg (by rw [h]; decide), if_neg (by rw [h]; decide), if_pos h]
  have hk := AssertBetweenInclusive_kept (Libc.atoi a.optarg) 0 100 'b'
    (AssertInteger a.optarg (Libc.atoi a.optarg) 'b' { o with BurnProb := Libc.atoi a.optarg })
  refine ⟨hk.1 ?_, hk.2 _ ?_⟩
  · unfold AssertInteger
    rw [if_pos hv]
    rfl
  · unfold AssertInteger
    rw [if_pos hv]
    exact mem_Stderr_PrintError _ _

theorem handleOption_rejects_BurnProb (a : OptArg) (h : a.c = 'b')
    (hv : ¬ (0 ≤ Libc.atoi a.optarg ∧ Libc.atoi a.optarg ≤ 100)) (o : Options) :
    (handleOption a o).AreParamsValid = false ∧
      msgBetweenInclusive 'b' 0 100 ∈ (handleOption a o).Stderr := by
  have hlt : (decide (Libc.atoi a.optarg < 0) || decide (Libc.atoi a.optarg > 100)) = true := by
    rw [Bool.or_eq_true, decide_eq_true_eq, decide_eq_true_eq]; omega
  unfold handleOption
  rw [if_neg (by rw [h]; decide), if_neg (by rw [h]; decide), if_pos h]
  unfold AssertBetweenInclusive
  rw [if_pos hlt]
  exact ⟨rfl, mem_Stderr_PrintError _ _⟩

theorem handleOption_rejects_NMaxBurnSteps (a : OptArg) (h : a.c = 'm')
    (hv : ¬ 1 < Libc.atoi a.optarg) (o : Options) :
    (handleOption a o).AreParamsValid = false ∧
      msgBigger 'm' 1 ∈ (handleOption a o).Stderr := by
  unfold handleOption
  rw [if_neg (by rw [h]; decide), if_neg (by rw [h]; decide), if_neg (by rw [h]; decide),
    if_pos h]
  unfold AssertBigger
  rw [if_pos (by omega)]
  exact ⟨rfl, mem_Stderr_PrintError _ _⟩

/-- An option that meets its constraints keeps `AreParamsValid`, does not end the
program and does not ask for an output file. -/
theorem handleOption_accepts (a : OptArg) (ha : OptArgOk a) (o : Options)
    (ho : o.AreParamsValid = true ∧ o.Exited = false ∧ o.IsOutputtingEachStep = false) :
    (handleOption a o).AreParamsValid = true ∧ (handleOption a o).Exited = false ∧
      (handleOption a o).IsOutputtingEachStep = false := by
  obtain ⟨hl, hno, hval⟩ := ha
  obtain ⟨h1, h2, h3⟩ := ho
  by_cases hf : a.c = 'f'
  · unfold handleOption
    rw [if_neg (by rw [hf]; decide), if_neg (by rw [hf]; decide), if_neg (by rw [hf]; decide),
      if_neg (by rw [hf]; decide), if_neg (by rw [hf]; decide), if_neg (by rw [hf]; decide),
      if_neg (by rw [hf]; decide), if_pos hf]
    exact ⟨h1, h2, h3⟩
  obtain ⟨n, hn, hlo, hhi, hr, hc, hb, hm, ht, hs⟩ := hval hf
  obtain ⟨hatoi, hfloat⟩ := integerText_read a.optarg n hn hlo hhi
  have hpos : 0 < n → (decide (n < 1) || floatParamDiffers a.optarg n) = false := by
    intro hn
    rw [hfloat, Bool.or_eq_false_iff, decide_eq_false_iff_not]
    exact ⟨by omega, rfl⟩
  unfold handleOption
  rw [hatoi]
  split
  · rename_i h
    unfold AssertPositiveInteger
    rw [hpos (hr h)]
    exact ⟨h1, h2, h3⟩
  split
  · rename_i h
    unfold AssertPositiveInteger
    rw [hpos (hc h)]
    exact ⟨h1, h2, h3⟩
  split
  · rename_i h
    have hbb := hb h
    unfold AssertBetweenInclusive AssertInteger
    rw [hfloat]
    have : (decide (n < 0) || decide (n > 100)) = false := by
      rw [Bool.or_eq_false_iff, decide_eq_false_iff_not, decide_eq_false_iff_not]
      omega
    rw [this]
    exact ⟨h1, h2, h3⟩
  split
  · rename_i h
    have hmm := hm h
    unfold AssertBigger AssertPositiveInteger
    rw [hpos (by omega), if_neg (by omega)]
    exact ⟨h1, h2, h3⟩
  split
  · rename_i h
    unfold AssertPositiveInteger
    rw [hpos (ht h)]
    exact ⟨h1, h2, h3⟩
  split
  · rename_i h
    unfold AssertPositiveInteger
    rw [hpos (hs h)]
    exact ⟨h1, h2, h3⟩
  exfalso
  simp only [legalOptionChars, List.mem_cons, List.mem_singleton, List.not_mem_nil,
    or_false] at hl
  rcases hl with h | h | h | h | h | h | h | h <;> contradiction

theorem optionLoop_accepts (opts : List OptArg) (hok : ∀ a ∈ opts, OptArgOk a) :
    ∀ o, (o.AreParamsValid = true ∧ o.Exited = false ∧ o.IsOutputtingEachStep = false) →
      (optionLoop opts o).AreParamsValid = true ∧ (optionLoop opts o).Exited = false ∧
        (optionLoop opts o).IsOutputtingEachStep = false := by
  induction opts with
  | nil => intro o ho; exact ho
  | cons a rest ih =>
    intro o ho
    have h := handleOption_accepts a (hok a (List.mem_cons_self _ _)) o ho
    unfold optionLoop
    rw [if_neg (by rw [h.2.1]; decide)]
    exact ih (fun b hb => hok b (List.mem_cons_of_mem _ hb)) _ h

set_option maxRecDepth 20000 in
/-- The text `100.000001` of `-b 100.000001` is read by `atoi` as 100, and its `float`
value is the `float` 100, so `AssertInteger` does not fire and the value is accepted. -/
theorem GetUserOptions_accepts_near_integer :
    Libc.atoi "100.000001" = 100 ∧
    floatParam "100.000001" = IEEE.ofInt IEEE.binary32 100 ∧
    (GetUserOptions exOptionsNearInteger false initialOptions).AreParamsValid = true ∧
    (GetUserOptions exOptionsNearInteger false initialOptions).Stderr = [] := by
  decide

set_option maxRecDepth 20000 in
/-- C11, counterexample.  With `-r 0 -x -c 0` the illegal option `-x` ends the program
before the value of `-c` is read: `stderr` holds the message naming `r` and the message
of the illegal option, and no message naming `c`, although cols > 0 is violated.  With
`-r 4294967297` and with `-r 1e2` the supplied value is an integer bigger than 0 (`atof`
yields 100 for `1e2`), and `AreParamsValid` is false after `GetUserOptions`: `atoi`
reads 1 in both cases and the test `floatParam != param` fires. -/
theorem GetUserOptions_illegal_option_ends_before_later_values :
    (exOptionsIllegal.map (fun a => (a.c, a.optarg)) = [('r', "0"), ('?', ""), ('c', "0")] ∧
      Libc.atoi "0" = 0 ∧
      (GetUserOptions exOptionsIllegal false initialOptions).Stderr
        = ["ERROR: value for -r must be positive integer\n", "ERROR: illegal option\n"] ∧
      (GetUserOptions exOptionsIllegal false initialOptions).Exited = true ∧
      msgPositiveInteger 'c' ∉ (GetUserOptions exOptionsIllegal false initialOptions).Stderr) ∧
    (exOptionsBeyondInt.map (fun a => (a.c, a.optarg)) = [('r', "4294967297")] ∧
      integerText "4294967297" = some 4294967297 ∧
      Libc.atoi "4294967297" = 1 ∧
      (GetUserOptions exOptionsBeyondInt false initialOptions).AreParamsValid = false) ∧
    (exOptionsExponent.map (fun a => (a.c, a.optarg)) = [('r', "1e2")] ∧
      Libc.atof "1e2" = IEEE.ofInt IEEE.binary64 100 ∧
      Libc.atoi "1e2" = 1 ∧
      (GetUserOptions exOptionsExponent false initialOptions).AreParamsValid = false) := by
  decide

/-- C11, amended: for every list of options with their values, read by `atoi` and `atof`
as `GetUserOptions` does, (1) whenever the integer that `atoi` reads from a supplied value
violates rows > 0 (`-r`), cols > 0 (`-c`), 0 ≤ burn probability ≤ 100 (`-b`), max burn
steps > 1 (`-m`) or steps > 0 (`-t`), or the test `floatParam != param` of
`AssertInteger` and `AssertPositiveInteger` fires on it, `GetUserOptions` ends with
`AreParamsValid = false` and `main` does not go on to the simulation; (2) when every
option before the value is a legal one, so that the loop reaches the value, the error
message naming its option character is on `stderr`; (3) a value written as a decimal
integer of the type `int` (an optional sign and decimal digits) is read by `atoi` as that
integer and the test `floatParam != param` does not fire on it; (4) when every supplied
value is such a decimal integer meeting its constraint (seed positive, no `-o`),
`AreParamsValid` stays true and `main` goes on. -/
theorem GetUserOptions_validates (opts : List OptArg) (fileExists : Bool) :
    (∀ a ∈ opts,
      ((a.c = 'r' ∧ ¬ 0 < Libc.atoi a.optarg) ∨ (a.c = 'c' ∧ ¬ 0 < Libc.atoi a.optarg) ∨
        (a.c = 'b' ∧ ¬ (0 ≤ Libc.atoi a.optarg ∧ Libc.atoi a.optarg ≤ 100)) ∨
        (a.c = 'm' ∧ ¬ 1 < Libc.atoi a.optarg) ∨ (a.c = 't' ∧ ¬ 0 < Libc.atoi a.optarg) ∨
        ((a.c = 'r' ∨ a.c = 'c' ∨ a.c = 'b' ∨ a.c = 'm' ∨ a.c = 't') ∧
          floatParamDiffers a.optarg (Libc.atoi a.optarg) = true)) →
      (GetUserOptions opts fileExists initialOptions).AreParamsValid = false ∧
        mainStartsSimulation (GetUserOptions opts fileExists initialOptions) = false) ∧
    (∀ (pre post : List OptArg) (a : OptArg), opts = pre ++ a :: post →
      (∀ b ∈ pre, b.c ∈ legalOptionChars) →
      (a.c = 'r' → ¬ 0 < Libc.atoi a.optarg →
        Rejected (GetUserOptions opts fileExists initialOptions) (msgPositiveInteger 'r')) ∧
      (a.c = 'c' → ¬ 0 < Libc.atoi a.optarg →
        Rejected (GetUserOptions opts fileExists initialOptions) (msgPositiveInteger 'c')) ∧
      (a.c = 'b' → ¬ (0 ≤ Libc.atoi a.optarg ∧ Libc.atoi a.optarg ≤ 100) →
        Rejected (GetUserOptions opts fileExists initialOptions)
          (msgBetweenInclusive 'b' 0 100)) ∧
      (a.c = 'm' → ¬ 1 < Libc.atoi a.optarg →
        Rejected (GetUserOptions opts fileExists initialOptions) (msgBigger 'm' 1)) ∧
      (a.c = 't' → ¬ 0 < Libc.atoi a.optarg →
        Rejected (GetUserOptions opts fileExists initialOptions) (msgPositiveInteger 't')) ∧
      (floatParamDiffers a.optarg (Libc.atoi a.optarg) = true →
        (a.c = 'r' →
          Rejected (GetUserOptions opts fileExists initialOptions) (msgPositiveInteger 'r')) ∧
        (a.c = 'c' →
          Rejected (GetUserOptions opts fileExists initialOptions) (msgPositiveInteger 'c')) ∧
        (a.c = 'b' →
          Rejected (GetUserOptions opts fileExists initialOptions) (msgInteger 'b')) ∧
        (a.c = 'm' →
          Rejected (GetUserOptions opts fileExists initialOptions) (msgPositiveInteger 'm')) ∧
        (a.c = 't' →
          Rejected (GetUserOptions opts fileExists initialOptions)
            (msgPositiveInteger 't')))) ∧
    (∀ a ∈ opts, ∀ n : Int, integerText a.optarg = some n →
      -2147483648 ≤ n → n ≤ 2147483647 →
      Libc.atoi a.optarg = n ∧ floatParamDiffers a.optarg (Libc.atoi a.optarg) = false) ∧
    ((∀ a ∈ opts, OptArgOk a) →
      (GetUserOptions opts fileExists initialOptions).AreParamsValid = true ∧
        mainStartsSimulation (GetUserOptions opts fileExists initialOptions) = true) := by
  refine ⟨?_, ?_, ?_, ?_⟩
  · intro a ha hv
    rcases hv with ⟨h, hv⟩ | ⟨h, hv⟩ | ⟨h, hv⟩ | ⟨h, hv⟩ | ⟨h, hv⟩ | ⟨h, hv⟩
    · exact GetUserOptions_invalid a _
        (handleOption_rejects_positive a 'r' (Or.inl rfl) h (Or.inl hv)) opts fileExists ha
    · exact GetUserOptions_invalid a _
        (handleOption_rejects_positive a 'c' (Or.inr (Or.inl rfl)) h (Or.inl hv)) opts
        fileExists ha
    · exact GetUserOptions_invalid a _ (handleOption_rejects_BurnProb a h hv) opts fileExists
        ha
    · exact GetUserOptions_invalid a _ (handleOption_rejects_NMaxBurnSteps a h hv) opts
        fileExists ha
    · exact GetUserOptions_invalid a _
        (handleOption_rejects_positive a 't' (Or.inr (Or.inr (Or.inr rfl))) h (Or.inl hv))
        opts fileExists ha
    · rcases h with h | h | h | h | h
      · exact GetUserOptions_invalid a _
          (handleOption_rejects_positive a 'r' (Or.inl rfl) h (Or.inr hv)) opts fileExists ha
      · exact GetUserOptions_invalid a _
          (handleOption_rejects_positive a 'c' (Or.inr (Or.inl rfl)) h (Or.inr hv)) opts
          fileExists ha
      · exact GetUserOptions_invalid a _ (handleOption_rejects_integer a h hv) opts fileExists
          ha
      · exact GetUserOptions_invalid a _
          (handleOption_rejects_positive a 'm' (Or.inr (Or.inr (Or.inl rfl))) h (Or.inr hv))
          opts fileExists ha
      · exact GetUserOptions_invalid a _
          (handleOption_rejects_positive a 't' (Or.inr (Or.inr (Or.inr rfl))) h (Or.inr hv))
          opts fileExists ha
  · intro pre post a hopts hlegal
    subst hopts
    refine ⟨fun h hv => ?_, fun h hv => ?_, fun h hv => ?_, fun h hv => ?_, fun h hv => ?_,
      fun hv => ⟨fun h => ?_, fun h => ?_, fun h => ?_, fun h => ?_, fun h => ?_⟩⟩
    · exact GetUserOptions_rejects a _
        (handleOption_rejects_positive a 'r' (Or.inl rfl) h (Or.inl hv)) pre post fileExists
        hlegal
    · exact GetUserOptions_rejects a _
        (handleOption_rejects_positive a 'c' (Or.inr (Or.inl rfl)) h (Or.inl hv)) pre post
        fileExists hlegal
    · exact GetUserOptions_rejects a _ (handleOption_rejects_BurnProb a h hv) pre post
        fileExists hlegal
    · exact GetUserOptions_rejects a _ (handleOption_rejects_NMaxBurnSteps a h hv) pre post
        fileExists hlegal
    · exact GetUserOptions_rejects a _
        (handleOption_rejects_positive a 't' (Or.inr (Or.inr (Or.inr rfl))) h (Or.inl hv))
        pre post fileExists hlegal
    · exact GetUserOptions_rejects a _
        (handleOption_rejects_positive a 'r' (Or.inl rfl) h (Or.inr hv)) pre post fileExists
        hlegal
    · exact GetUserOptions_rejects a _
        (handleOption_rejects_positive a 'c' (Or.inr (Or.inl rfl)) h (Or.inr hv)) pre post
        fileExists hlegal
    · exact GetUserOptions_rejects a _ (handleOption_rejects_integer a h hv) pre post
        fileExists hlegal
    · exact GetUserOptions_rejects a _
        (handleOption_rejects_positive a 'm' (Or.inr (Or.inr (Or.inl rfl))) h (Or.inr hv))
        pre post fileExists hlegal
    · exact GetUserOptions_rejects a _
        (handleOption_rejects_positive a 't' (Or.inr (Or.inr (Or.inr rfl))) h (Or.inr hv))
        pre post fileExists hlegal
  · intro a _ n hn hlo hhi
    have h := integerText_read a.optarg n hn hlo hhi
    refine ⟨h.1, ?_⟩
    rw [h.1]
    exact h.2
  · intro hok
    have h := optionLoop_accepts opts hok initialOptions ⟨rfl, rfl, rfl⟩
    have e : GetUserOptions opts fileExists initialOptions = optionLoop opts initialOptions := by
      unfold GetUserOptions
      rw [if_neg (by rw [h.2.1]; decide), if_neg (by rw [h.2.2]; decide)]
    rw [e]
    refine ⟨h.1, ?_⟩
    unfold mainStartsSimulation
    rw [h.1, h.2.1]
    rfl

set_option maxRecDepth 20000 in
/-- Witness for `GetUserOptions_validates`: with `-r 0 -m 5` the value of `-r` is
rejected with the message naming `r`; with `-b 100.5` the test `floatParam != param`
fires and the value is rejected with the message naming `b`; with
`-r 50000 -c 50000 -b 100 -m 2 -t 7 -s 3 -f` every value is accepted. -/
theorem GetUserOptions_validates_witness :
    (¬ 0 < Libc.atoi "0" ∧
      Rejected (GetUserOptions exOptionsBad false initialOptions) (msgPositiveInteger 'r') ∧
      msgPositiveInteger 'r' = "ERROR: value for -r must be positive integer\n") ∧
    (floatParamDiffers "100.5" (Libc.atoi "100.5") = true ∧
      Rejected (GetUserOptions exOptionsFraction false initialOptions) (msgInteger 'b') ∧
      msgInteger 'b' = "ERROR: value for -b must be an integer\n") ∧
    ((∀ a ∈ exOptionsGood, OptArgOk a) ∧
      (GetUserOptions exOptionsGood false initialOptions).AreParamsValid = true ∧
      mainStartsSimulation (GetUserOptions exOptionsGood false initialOptions) = true) :=
  have h0 : ¬ 0 < Libc.atoi "0" := by decide
  have hd : floatParamDiffers "100.5" (Libc.atoi "100.5") = true := by decide
  have hok : ∀ a ∈ exOptionsGood, OptArgOk a := by
    intro a ha
    simp only [exOptionsGood, List.mem_cons, List.mem_singleton, List.not_mem_nil,
      or_false] at ha
    rcases ha with rfl | rfl | rfl | rfl | rfl | rfl | rfl
    · exact ⟨by decide, by decide, fun _ => ⟨50000, by decide, by decide, by decide,
        by decide, by decide, by decide, by decide, by decide, by decide⟩⟩
    · exact ⟨by decide, by decide, fun _ => ⟨50000, by decide, by decide, by decide,
        by decide, by decide, by decide, by decide, by decide, by decide⟩⟩
    · exact ⟨by decide, by decide, fun _ => ⟨100, by decide, by decide, by decide,
        by decide, by decide, by decide, by decide, by decide, by decide⟩⟩
    · exact ⟨by decide, by decide, fun _ => ⟨2, by decide, by decide, by decide,
        by decide, by decide, by decide, by decide, by decide, by decide⟩⟩
    · exact ⟨by decide, by decide, fun _ => ⟨7, by decide, by decide, by decide,
        by decide, by decide, by decide, by decide, by decide, by decide⟩⟩
    · exact ⟨by decide, by decide, fun _ => ⟨3, by decide, by decide, by decide,
        by decide, by decide, by decide, by decide, by decide, by decide⟩⟩
    · exact ⟨by decide, by decide, fun h => absurd rfl h⟩
  ⟨⟨h0, ((GetUserOptions_validates exOptionsBad false).2.1 []
        [{ c := 'm', optarg := "5" }] { c := 'r', optarg := "0" } rfl
        (fun _ h => absurd h (List.not_mem_nil _))).1 rfl h0,
      by decide⟩,
    ⟨hd, ((GetUserOptions_validates exOptionsFraction false).2.1 [] []
        { c := 'b', optarg := "100.5" } rfl
        (fun _ h => absurd h (List.not_mem_nil _))).2.2.2.2.2 hd |>.2.2.1 rfl,
      by decide⟩,
    ⟨hok, (GetUserOptions_validates exOptionsGood false).2.2.2 hok⟩⟩

end FireSerial

namespace MatrixMult

/-! ## Theorems on the matrix multiplication benchmark -/

theorem foldl_flatMap_eq {α β σ : Type} (l : List α) (g : α → List β) (f : σ → β → σ) :
    ∀ s : σ, (l.flatMap g).foldl f s = l.foldl (fun acc a => (g a).foldl f acc) s := by
  induction l with
  | nil => intro s; rfl
  | cons a l ih => intro s; rw [List.flatMap_cons, List.foldl_append, ih, List.foldl_cons]

theorem sum_map_flatMap {α β : Type} (l : List α) (g : α → List β) (f : β → Int) :
    ((l.flatMap g).map f).sum = (l.map (fun a => ((g a).map f).sum)).sum := by
  induction l with
  | nil => rfl
  | cons a l ih =>
    rw [List.flatMap_cons, List.map_append, List.sum_append, ih, List.map_cons, List.sum_cons]

theorem sum_map_add {α : Type} (l : List α) (f g : α → Int) :
    (l.map (fun a => f a + g a)).sum = (l.map f).sum + (l.map g).sum := by
  induction l with
  | nil => rfl
  | cons a l ih => simp only [List.map_cons, List.sum_cons, ih]; ring

theorem sum_map_swap {α β : Type} (l1 : List α) (l2 : List β) (f : α → β → Int) :
    (l1.map (fun a => (l2.map (fun b => f a b)).sum)).sum
      = (l2.map (fun b => (l1.map (fun a => f a b)).sum)).sum := by
  induction l1 with
  | nil => simp
  | cons a l1 ih =>
    rw [List.map_cons, List.sum_cons, ih]
    simp only [List.map_cons, List.sum_cons]
    rw [sum_map_add]

/-- The tiles, one after the other, make up the range `0 .. n - 1`. -/
theorem tiles_cover_upto (n bs : Nat) (m : Nat) :
    ((List.range m).map (fun k => k * bs)).flatMap (tile n bs) = List.range (min n (m * bs)) := by
  induction m with
  | zero => simp
  | succ m ih =>
    rw [List.range_succ, List.map_append, List.flatMap_append, ih]
    simp only [List.map_cons, List.map_nil, List.flatMap_cons, List.flatMap_nil,
      List.append_nil]
    unfold tile
    rw [List.range_eq_range']
    by_cases h : m * bs ≤ n
    · rw [Nat.min_eq_right h]
      have e : (m + 1) * bs = m * bs + bs := by ring
      have hap := List.range'_append_1 0 (m * bs) (min n (m * bs + bs) - m * bs)
      rw [Nat.zero_add] at hap
      rw [e, hap, List.range_eq_range']
      congr 1
      omega
    · have h1 : min n (m * bs + bs) - m * bs = 0 := by omega
      have e : (m + 1) * bs = m * bs + bs := by ring
      rw [h1, List.range'_zero, List.append_nil, List.range_eq_range']
      congr 1
      omega

theorem tiles_cover (n bs : Nat) (hbs : 0 < bs) :
    (tileStarts n bs).flatMap (tile n bs) = List.range n := by
  unfold tileStarts
  rw [tiles_cover_upto]
  congr 1
  apply Nat.min_eq_left
  have h1 := Nat.div_add_mod (n + bs - 1) bs
  have h2 := Nat.mod_lt (n + bs - 1) hbs
  have h3 : (n + bs - 1) / bs * bs = bs * ((n + bs - 1) / bs) := Nat.mul_comm _ _
  omega

/-- Sum over the tiles of the sums over each tile: the sum over the range. -/
theorem sum_tiles (n bs : Nat) (hbs : 0 < bs) (h : Nat → Int) :
    ((tileStarts n bs).map (fun t => ((tile n bs t).map h).sum)).sum
      = ((List.range n).map h).sum := by
  rw [← sum_map_flatMap, tiles_cover n bs hbs]

/-- The sum of `f` over the triples the tiling loops visit is the sum of `f` over all
triples `(row, col, prod)` below `n`. -/
theorem sum_tilingVisits (n bs : Nat) (hbs : 0 < bs) (f : Nat → Nat → Nat → Int) :
    ((tilingVisits n n bs).map (fun v => f v.1 v.2.1 v.2.2)).sum
      = ((List.range n).map (fun row => ((List.range n).map (fun col =>
          ((List.range n).map (fun prod => f row col prod)).sum)).sum)).sum := by
  unfold tilingVisits
  simp only [sum_map_flatMap, List.map_map, Function.comp_def]
  -- bring the row loop next to its tile loop
  have e1 : ∀ t_r : Nat,
      ((tileStarts n bs).map (fun t_c => ((tileStarts n bs).map (fun t_prod =>
        ((tile n bs t_r).map (fun row => ((tile n bs t_c).map (fun col =>
          ((tile n bs t_prod).map (fun prod => f row col prod)).sum)).sum)).sum)).sum)).sum
      = ((tile n bs t_r).map (fun row => ((List.range n).map (fun col =>
          ((List.range n).map (fun prod => f row col prod)).sum)).sum)).sum := by
    intro t_r
    have s1 : ∀ t_c : Nat, ((tileStarts n bs).map (fun t_prod =>
        ((tile n bs t_r).map (fun row => ((tile n bs t_c).map (fun col =>
          ((tile n bs t_prod).map (fun prod => f row col prod)).sum)).sum)).sum)).sum
        = ((tile n bs t_r).map (fun row => ((tile n bs t_c).map (fun col =>
          ((List.range n).map (fun prod => f row col prod)).sum)).sum)).sum := by
      intro t_c
      rw [sum_map_swap]
      congr 1
      apply List.map_congr_left
      intro row _
      rw [sum_map_swap]
      congr 1
      apply List.map_congr_left
      intro col _
      exact sum_tiles n bs hbs (fun prod => f row col prod)
    simp only [s1]
    rw [sum_map_swap]
    congr 1
    apply List.map_congr_left
    intro row _
    exact sum_tiles n bs hbs (fun col => ((List.range n).map (fun prod => f row col prod)).sum)
  simp only [e1]
  exact sum_tiles n bs hbs (fun row => ((List.range n).map (fun col =>
    ((List.range n).map (fun prod => f row col prod)).sum)).sum)

theorem tilingLoops_eq_fold (nrow ncol bs : Nat) (x y z : Nat → Nat → Int) :
    tilingLoops nrow ncol bs x y z
      = (tilingVisits nrow ncol bs).foldl (fun acc v => accumulate x y acc v.1 v.2.1 v.2.2) z := by
  unfold tilingLoops tilingVisits
  simp only [foldl_flatMap_eq, List.foldl_map]

theorem fold_accumulate (x y : Nat → Nat → Int) (r c : Nat) (l : List (Nat × Nat × Nat)) :
    ∀ z : Nat → Nat → Int,
      (l.foldl (fun acc v => accumulate x y acc v.1 v.2.1 v.2.2) z) r c
        = z r c + (l.map (fun v =>
            if v.1 = r ∧ v.2.1 = c then x r v.2.2 * y v.2.2 c else 0)).sum := by
  induction l with
  | nil => intro z; simp
  | cons v l ih =>
    intro z
    rw [List.foldl_cons, ih, List.map_cons, List.sum_cons]
    unfold accumulate setEntry
    by_cases h : v.1 = r ∧ v.2.1 = c
    · obtain ⟨h1, h2⟩ := h
      subst h1 h2
      simp only [and_self, if_true]
      ring
    · have h' : ¬ (r = v.1 ∧ c = v.2.1) := fun hh => h ⟨hh.1.symm, hh.2.symm⟩
      simp only [h, h', if_false]
      ring

theorem sum_range_single (n r : Nat) (g : Nat → Int) :
    ((List.range n).map (fun a => if a = r then g a else 0)).sum
      = if r < n then g r else 0 := by
  induction n with
  | zero => simp
  | succ n ih =>
    rw [List.range_succ, List.map_append, List.sum_append, ih]
    simp only [List.map_cons, List.map_nil, List.sum_cons, List.sum_nil, add_zero]
    by_cases h1 : r < n
    · rw [if_pos h1, if_neg (by omega), if_pos (by omega), add_zero]
    · by_cases h2 : n = r
      · subst h2
        rw [if_neg h1, if_pos rfl, if_pos (by omega), zero_add]
      · rw [if_neg h1, if_neg h2, if_neg (by omega), add_zero]

theorem sum_ite_const {α : Type} (l : List α) (P : Prop) [Decidable P] (g : α → Int) :
    (l.map (fun k => if P then g k else 0)).sum = if P then (l.map g).sum else 0 := by
  by_cases h : P
  · simp only [h, if_true]
  · simp only [h, if_false]
    induction l with
    | nil => rfl
    | cons a l ih => rw [List.map_cons, List.sum_cons, ih, add_zero]

/-- Result of the tiling loops on square matrices: each entry of `matZ` is its value
before the loops plus the entry of the product. -/
theorem tilingLoops_entry (n bs : Nat) (hbs : 0 < bs) (x y z : Nat → Nat → Int) (r c : Nat)
    (hr : r < n) (hc : c < n) :
    tilingLoops n n bs x y z r c = z r c + dotProduct n x y r c := by
  rw [tilingLoops_eq_fold, fold_accumulate,
    sum_tilingVisits n bs hbs (fun row col prod =>
      if row = r ∧ col = c then x r prod * y prod c else 0)]
  congr 1
  have e1 : ∀ row col : Nat,
      ((List.range n).map (fun prod =>
        if row = r ∧ col = c then x r prod * y prod c else 0)).sum
      = if col = c then (if row = r then dotProduct n x y r c else 0) else 0 := by
    intro row col
    rw [sum_ite_const]
    unfold dotProduct
    by_cases h1 : row = r <;> by_cases h2 : col = c <;> simp [h1, h2]
  simp only [e1]
  have e2 : ∀ row : Nat, ((List.range n).map (fun col =>
      if col = c then (if row = r then dotProduct n x y r c else 0) else 0)).sum
      = if row = r then dotProduct n x y r c else 0 := by
    intro row
    rw [sum_range_single n c (fun _ => if row = r then dotProduct n x y r c else 0), if_pos hc]
  simp only [e2]
  rw [sum_range_single n r (fun _ => dotProduct n x y r c), if_pos hr]

theorem fold_setEntry {α : Type} (i : Nat) (v : α) (l : List Nat) (r c : Nat) :
    ∀ m : Nat → Nat → α, (l.foldl (fun acc j => setEntry acc i j v) m) r c
      = if r = i ∧ c ∈ l then v else m r c := by
  induction l with
  | nil => intro m; simp
  | cons j l ih =>
    intro m
    rw [List.foldl_cons, ih]
    unfold setEntry
    by_cases h1 : r = i
    · by_cases h2 : c ∈ l
      · simp [h1, h2]
      · by_cases h3 : c = j
        · simp [h1, h3]
        · simp [h1, h2, h3]
    · simp [h1]

theorem fillMatrix_entry {α : Type} (nrow ncol : Nat) (v : α) (m : Nat → Nat → α)
    (r c : Nat) :
    fillMatrix nrow ncol v m r c = if r < nrow ∧ c < ncol then v else m r c := by
  unfold fillMatrix
  have key : ∀ (rows : List Nat) (m : Nat → Nat → α),
      (rows.foldl (fun acc i =>
        (List.range ncol).foldl (fun acc j => setEntry acc i j v) acc) m) r c
      = if r ∈ rows ∧ c < ncol then v else m r c := by
    intro rows
    induction rows with
    | nil => intro m; simp
    | cons i rows ih =>
      intro m
      rw [List.foldl_cons, ih, fold_setEntry]
      simp only [List.mem_range, List.mem_cons]
      by_cases h1 : r ∈ rows <;> by_cases h2 : c < ncol <;> by_cases h3 : r = i <;>
        simp [h1, h2, h3]
  rw [key]
  simp only [List.mem_range]

/-- Loop body of the naive multiplication for the entry `[i][j]`: the entry becomes the
entry of the product, the others are unchanged. -/
theorem naive_cell_entry (n : Nat) (x y : Nat → Nat → Int) (i j r c : Nat)
    (z : Nat → Nat → Int) :
    ((List.range n).foldl (fun acc k => accumulate x y acc i j k) (setEntry z i j 0)) r c
      = if r = i ∧ c = j then dotProduct n x y i j else z r c := by
  have h := fold_accumulate x y r c ((List.range n).map (fun k => (i, j, k))) (setEntry z i j 0)
  rw [List.foldl_map] at h
  rw [h, List.map_map]
  unfold setEntry dotProduct
  by_cases h1 : r = i ∧ c = j
  · obtain ⟨h1, h2⟩ := h1
    subst h1 h2
    simp [Function.comp_def]
  · have h1' : ¬ (i = r ∧ j = c) := fun hh => h1 ⟨hh.1.symm, hh.2.symm⟩
    simp only [h1, if_false, Function.comp_def, h1']
    have hz := sum_ite_const (List.range n) False (fun _ => (0 : Int))
    simp only [if_false] at hz
    rw [hz, add_zero]

theorem naiveLoops_entry (nrow ncol : Nat) (x y z : Nat → Nat → Int) (r c : Nat)
    (hr : r < nrow) (hc : c < ncol) :
    naiveLoops nrow ncol x y z r c = dotProduct nrow x y r c := by
  unfold naiveLoops
  have inner : ∀ (i : Nat) (cols : List Nat) (z : Nat → Nat → Int),
      (cols.foldl (fun acc j =>
        (List.range nrow).foldl (fun acc k => accumulate x y acc i j k)
          (setEntry acc i j 0)) z) r c
      = if r = i ∧ c ∈ cols then dotProduct nrow x y r c else z r c := by
    intro i cols
    induction cols with
    | nil => intro z; simp
    | cons j cols ih =>
      intro z
      rw [List.foldl_cons, ih, naive_cell_entry]
      by_cases h1 : r = i
      · subst h1
        by_cases h2 : c ∈ cols
        · simp [h2]
        · by_cases h3 : c = j
          · subst h3; simp
          · simp [h2, h3]
      · simp [h1]
  have outer : ∀ (rows : List Nat) (z : Nat → Nat → Int),
      (rows.foldl (fun acc i =>
        (List.range ncol).foldl (fun acc j =>
          (List.range nrow).foldl (fun acc k => accumulate x y acc i j k)
            (setEntry acc i j 0)) acc) z) r c
      = if r ∈ rows ∧ c < ncol then dotProduct nrow x y r c else z r c := by
    intro rows
    induction rows with
    | nil => intro z; simp
    | cons i rows ih =>
      intro z
      rw [List.foldl_cons, ih, inner]
      simp only [List.mem_range, List.mem_cons]
      by_cases h1 : r ∈ rows <;> by_cases h3 : r = i <;> simp [h1, hc, h3]
  rw [outer, if_pos ⟨List.mem_range.mpr hr, hc⟩]

theorem dotProduct_ones_twos (n : Nat) (x y : Nat → Nat → Int) (r c : Nat)
    (hx : ∀ k, k < n → x r k = 1) (hy : ∀ k, k < n → y k c = 2) :
    dotProduct n x y r c = 2 * n := by
  unfold dotProduct
  have : (List.range n).map (fun k => x r k * y k c) = (List.range n).map (fun _ => (2 : Int)) := by
    apply List.map_congr_left
    intro k hk
    rw [hx k (List.mem_range.mp hk), hy k (List.mem_range.mp hk)]
    rfl
  rw [this]
  simp
  ring

/-- Function `matrix_mult_tiling` leaves in every entry of `matZ` its value before the
call plus 3000. -/
theorem matrix_mult_tiling_entry (m : Matrices Int) (r c : Nat) (hr : r < NUM_ROW)
    (hc : c < NUM_COL) : (matrix_mult_tiling m).matZ r c = m.matZ r c + 3000 := by
  unfold matrix_mult_tiling
  simp only
  have hN : NUM_COL = NUM_ROW := rfl
  rw [hN] at hc ⊢
  rw [tilingLoops_entry NUM_ROW block_size (by decide) _ _ _ r c hr hc,
    dotProduct_ones_twos NUM_ROW _ _ r c
      (fun k hk => by rw [fillMatrix_entry, if_pos ⟨hr, hk⟩])
      (fun k hk => by rw [fillMatrix_entry, if_pos ⟨hk, hc⟩])]
  rfl

/-- Function `matrix_mult_naive` leaves 3000 in every entry of `matZ`. -/
theorem matrix_mult_naive_entry (m : Matrices Int) (r c : Nat) (hr : r < NUM_ROW)
    (hc : c < NUM_COL) : (matrix_mult_naive m).matZ r c = 3000 := by
  unfold matrix_mult_naive
  simp only
  rw [naiveLoops_entry NUM_ROW NUM_COL _ _ _ r c hr hc,
    dotProduct_ones_twos NUM_ROW _ _ r c
      (fun k hk => by rw [fillMatrix_entry, if_pos ⟨hr, hk⟩])
      (fun k hk => by rw [fillMatrix_entry, if_pos ⟨hk, hc⟩])]
  rfl

/-- C14, evaluation at the failing input: on memory whose entries all hold 1, after
`matrix_mult_tiling` the entry `matZ[0][0]` is 3001, its initial content plus the entry
3000 of the product, while `matrix_mult_naive` leaves 3000 there. -/
theorem tiling_adds_product_to_initial_matZ :
    (matrix_mult_tiling exOnes).matZ 0 0 = 3001 ∧ (matrix_mult_naive exOnes).matZ 0 0 = 3000 ∧
      (matrix_mult_tiling exOnes).matZ 0 0 ≠ (matrix_mult_naive exOnes).matZ 0 0 := by
  have h1 := matrix_mult_tiling_entry exOnes 0 0 (by decide) (by decide)
  have h2 := matrix_mult_naive_entry exOnes 0 0 (by decide) (by decide)
  have h3 : exOnes.matZ 0 0 = 1 := rfl
  rw [h3] at h1
  refine ⟨h1, h2, ?_⟩
  rw [h1, h2]
  decide

/-- Number of occurrences of `v` in a list, as the sum of the indicator of `v`. -/
theorem count_eq_sum_indicator {α : Type} [BEq α] [LawfulBEq α] (l : List α) (v : α) :
    (l.count v : Int) = (l.map (fun w => if w == v then (1 : Int) else 0)).sum := by
  induction l with
  | nil => rfl
  | cons a l ih =>
    rw [List.count_cons, List.map_cons, List.sum_cons, Nat.cast_add, ih]
    by_cases h : a = v
    · simp [h]
      ring
    · simp [h]

/-- For every positive block size, the tiling loops on square matrices of size `n` run the
innermost statement once at each triple below `n` and at no other triple. -/
theorem count_tilingVisits (n bs : Nat) (hbs : 0 < bs) (r c k : Nat) :
    (tilingVisits n n bs).count (r, c, k) = if r < n ∧ c < n ∧ k < n then 1 else 0 := by
  have h := count_eq_sum_indicator (tilingVisits n n bs) (r, c, k)
  have hf : (fun w : Nat × Nat × Nat => if w == (r, c, k) then (1 : Int) else 0)
      = fun v =>
          if v.2.2 = k then (if v.2.1 = c then (if v.1 = r then (1 : Int) else 0) else 0)
          else 0 := by
    funext w
    obtain ⟨a, b, d⟩ := w
    by_cases h1 : a = r <;> by_cases h2 : b = c <;> by_cases h3 : d = k <;>
      simp [h1, h2, h3]
  rw [hf, sum_tilingVisits n bs hbs (fun row col prod =>
    if prod = k then (if col = c then (if row = r then (1 : Int) else 0) else 0) else 0)] at h
  have e1 : ∀ row col : Nat, ((List.range n).map (fun prod =>
      if prod = k then (if col = c then (if row = r then (1 : Int) else 0) else 0) else 0)).sum
      = if col = c then (if k < n then (if row = r then (1 : Int) else 0) else 0) else 0 := by
    intro row col
    rw [sum_range_single n k (fun _ => if col = c then (if row = r then (1 : Int) else 0) else 0)]
    by_cases h1 : k < n <;> by_cases h2 : col = c <;> simp [h1, h2]
  simp only [e1] at h
  have e2 : ∀ row : Nat, ((List.range n).map (fun col =>
      if col = c then (if k < n then (if row = r then (1 : Int) else 0) else 0) else 0)).sum
      = if row = r then (if c < n then (if k < n then (1 : Int) else 0) else 0) else 0 := by
    intro row
    rw [sum_range_single n c (fun _ => if k < n then (if row = r then (1 : Int) else 0) else 0)]
    by_cases h1 : c < n <;> by_cases h2 : k < n <;> by_cases h3 : row = r <;> simp [h1, h2, h3]
  simp only [e2] at h
  rw [sum_range_single n r (fun _ => if c < n then (if k < n then (1 : Int) else 0) else 0)] at h
  by_cases h1 : r < n <;> by_cases h2 : c < n <;> by_cases h3 : k < n <;>
    simp [h1, h2, h3] at h ⊢ <;> exact h

/-- The tiling loops are a fold of the innermost statement over the visits, for entries of
any type. -/
theorem tilingLoops_eq_visits {α : Type} [Add α] [Mul α] (nrow ncol bs : Nat)
    (x y z : Nat → Nat → α) :
    tilingLoops nrow ncol bs x y z
      = (tilingVisits nrow ncol bs).foldl (fun acc v => accumulate x y acc v.1 v.2.1 v.2.2) z := by
  unfold tilingLoops tilingVisits
  simp only [foldl_flatMap_eq, List.foldl_map]

/-- An entry after a sequence of visits: the products of the visits at this entry, added
to it one after the other. -/
theorem fold_accumulate_entry {α : Type} [Add α] [Mul α] (x y : Nat → Nat → α) (r c : Nat)
    (l : List (Nat × Nat × Nat)) :
    ∀ z : Nat → Nat → α,
      (l.foldl (fun acc v => accumulate x y acc v.1 v.2.1 v.2.2) z) r c
        = (prodsAt r c l).foldl (fun acc k => acc + x r k * y k c) (z r c) := by
  induction l with
  | nil => intro z; rfl
  | cons v l ih =>
    intro z
    rw [List.foldl_cons, ih]
    unfold prodsAt
    rw [List.filterMap_cons]
    by_cases h : v.1 = r ∧ v.2.1 = c
    · obtain ⟨h1, h2⟩ := h
      subst h1 h2
      simp only [and_self, if_true, List.foldl_cons]
      unfold accumulate setEntry
      simp only [and_self, if_true]
    · have h' : ¬ (r = v.1 ∧ c = v.2.1) := fun hh => h ⟨hh.1.symm, hh.2.symm⟩
      simp only [h, if_false]
      unfold accumulate setEntry
      simp only [h', if_false]

/-- The list `l` repeated `k` times. -/
theorem flatten_replicate_add {β : Type} (a b : Nat) (l : List β) :
    (List.replicate a l).flatten ++ (List.replicate b l).flatten
      = (List.replicate (a + b) l).flatten := by
  rw [List.replicate_add, List.flatten_append]

theorem flatMap_replicate {β γ : Type} (ts : List γ) (k : γ → Nat) (l : List β) :
    ts.flatMap (fun t => (List.replicate (k t) l).flatten)
      = (List.replicate ((ts.map k).sum) l).flatten := by
  induction ts with
  | nil => rfl
  | cons t ts ih =>
    rw [List.flatMap_cons, ih, List.map_cons, List.sum_cons, flatten_replicate_add]

theorem count_tile_le_one (n bs t a : Nat) : (tile n bs t).count a ≤ 1 := by
  unfold tile
  exact List.nodup_iff_count_le_one.mp (List.nodup_range' _ _) a

theorem sum_count_tiles (n bs : Nat) (hbs : 0 < bs) (a : Nat) (ha : a < n) :
    ((tileStarts n bs).map (fun t => (tile n bs t).count a)).sum = 1 := by
  have h := List.count_flatMap (tileStarts n bs) (tile n bs) a
  rw [tiles_cover n bs hbs] at h
  have h1 : (List.range n).count a = 1 :=
    List.count_eq_one_of_mem (List.nodup_range n) (List.mem_range.mpr ha)
  rw [h1] at h
  exact h.symm

theorem sum_const_mul {γ : Type} (ts : List γ) (K : Nat) (f : γ → Nat) :
    (ts.map (fun t => K * f t)).sum = K * (ts.map f).sum := by
  induction ts with
  | nil => rfl
  | cons t ts ih => simp only [List.map_cons, List.sum_cons, ih, Nat.mul_add]

theorem sum_mul_indicator (l : List Nat) (K a : Nat) :
    (l.map (fun b => K * (if b = a then 1 else 0))).sum = K * l.count a := by
  induction l with
  | nil => rfl
  | cons b l ih =>
    rw [List.map_cons, List.sum_cons, ih, List.count_cons]
    by_cases h : b = a <;> simp [h, Nat.mul_add, Nat.add_comm]

theorem sum_indicator_mul (l : List Nat) (K a : Nat) :
    (l.map (fun b => (if b = a then 1 else 0) * K)).sum = l.count a * K := by
  induction l with
  | nil => simp
  | cons b l ih =>
    rw [List.map_cons, List.sum_cons, ih, List.count_cons]
    by_cases h : b = a <;> simp [h, Nat.add_mul, Nat.add_comm]

/-- Values of `prod` at which the tiling loops on square matrices update the entry
`[r][c]`: `0, 1, ..., n - 1`, in this order. -/
theorem prodsAt_tilingVisits (n bs : Nat) (hbs : 0 < bs) (r c : Nat) (hr : r < n)
    (hc : c < n) : prodsAt r c (tilingVisits n n bs) = List.range n := by
  unfold prodsAt tilingVisits
  simp only [List.filterMap_flatMap, List.filterMap_map]
  -- the loop on `prod`, for one `(row, col)`
  have e1 : ∀ (row col t_prod : Nat),
      (tile n bs t_prod).filterMap
          ((fun v : Nat × Nat × Nat => if v.1 = r ∧ v.2.1 = c then some v.2.2 else none) ∘
            fun prod => (row, col, prod))
        = (List.replicate ((if row = r then 1 else 0) * (if col = c then 1 else 0))
            (tile n bs t_prod)).flatten := by
    intro row col t_prod
    by_cases h1 : row = r <;> by_cases h2 : col = c <;>
      simp [h1, h2, Function.comp_def]
  simp only [e1]
  -- the loops on `col` and `row`
  have e2 : ∀ (row t_c t_prod : Nat),
      (tile n bs t_c).flatMap (fun col =>
          (List.replicate ((if row = r then 1 else 0) * (if col = c then 1 else 0))
            (tile n bs t_prod)).flatten)
        = (List.replicate ((if row = r then 1 else 0) * (tile n bs t_c).count c)
            (tile n bs t_prod)).flatten := by
    intro row t_c t_prod
    rw [flatMap_replicate, sum_mul_indicator]
  simp only [e2]
  have e3 : ∀ (t_r t_c t_prod : Nat),
      (tile n bs t_r).flatMap (fun row =>
          (List.replicate ((if row = r then 1 else 0) * (tile n bs t_c).count c)
            (tile n bs t_prod)).flatten)
        = (List.replicate ((tile n bs t_r).count r * (tile n bs t_c).count c)
            (tile n bs t_prod)).flatten := by
    intro t_r t_c t_prod
    rw [flatMap_replicate, sum_indicator_mul]
  simp only [e3]
  -- the loop on `t_prod`: the tiles make up the range
  have e4 : ∀ (t_r t_c : Nat),
      (tileStarts n bs).flatMap (fun t_prod =>
          (List.replicate ((tile n bs t_r).count r * (tile n bs t_c).count c)
            (tile n bs t_prod)).flatten)
        = (List.replicate ((tile n bs t_r).count r * (tile n bs t_c).count c)
            (List.range n)).flatten := by
    intro t_r t_c
    have h1 := count_tile_le_one n bs t_r r
    have h2 := count_tile_le_one n bs t_c c
    have hk : (tile n bs t_r).count r * (tile n bs t_c).count c = 0 ∨
        (tile n bs t_r).count r * (tile n bs t_c).count c = 1 := by
      have : (tile n bs t_r).count r * (tile n bs t_c).count c ≤ 1 := by
        calc (tile n bs t_r).count r * (tile n bs t_c).count c ≤ 1 * 1 := Nat.mul_le_mul h1 h2
          _ = 1 := rfl
      omega
    rcases hk with hk | hk
    · rw [hk]; simp
    · rw [hk]
      simp only [List.replicate_one, List.flatten_cons, List.flatten_nil, List.append_nil]
      exact tiles_cover n bs hbs
  simp only [e4]
  -- the loops on `t_c` and `t_r`: one tile holds `c`, one tile holds `r`
  have e5 : ∀ t_r : Nat,
      (tileStarts n bs).flatMap (fun t_c =>
          (List.replicate ((tile n bs t_r).count r * (tile n bs t_c).count c)
            (List.range n)).flatten)
        = (List.replicate ((tile n bs t_r).count r) (List.range n)).flatten := by
    intro t_r
    rw [flatMap_replicate, sum_const_mul, sum_count_tiles n bs hbs c hc, Nat.mul_one]
  simp only [e5]
  rw [flatMap_replicate, sum_count_tiles n bs hbs r hr]
  simp

/-- Result of the tiling loops on square matrices, for entries of any type: each entry
is what the inner loop of the naive multiplication computes when it starts from the
value the entry held before the loops. -/
theorem tilingLoops_entry_loop {α : Type} [Add α] [Mul α] (n bs : Nat) (hbs : 0 < bs)
    (x y z : Nat → Nat → α) (r c : Nat) (hr : r < n) (hc : c < n) :
    tilingLoops n n bs x y z r c = dotLoop n x y r c (z r c) := by
  rw [tilingLoops_eq_visits, fold_accumulate_entry, prodsAt_tilingVisits n bs hbs r c hr hc]
  rfl

theorem prodsAt_single (i j r c : Nat) (l : List Nat) :
    prodsAt r c (l.map (fun k => (i, j, k))) = if i = r ∧ j = c then l else [] := by
  unfold prodsAt
  rw [List.filterMap_map]
  by_cases h : i = r ∧ j = c
  · simp [h, Function.comp_def]
  · simp [h, Function.comp_def]

/-- Loop body of the naive multiplication for the entry `[i][j]`, for entries of any
type: the entry becomes the result of the inner loop started from 0, the others are
unchanged. -/
theorem naive_cell_loop {α : Type} [Add α] [Mul α] [OfNat α 0] (n : Nat)
    (x y : Nat → Nat → α) (i j r c : Nat) (z : Nat → Nat → α) :
    ((List.range n).foldl (fun acc k => accumulate x y acc i j k) (setEntry z i j 0)) r c
      = if r = i ∧ c = j then dotLoop n x y i j 0 else z r c := by
  have h := fold_accumulate_entry x y r c ((List.range n).map (fun k => (i, j, k)))
    (setEntry z i j 0)
  rw [List.foldl_map] at h
  rw [h, prodsAt_single]
  unfold setEntry dotLoop
  by_cases h1 : r = i ∧ c = j
  · obtain ⟨h1, h2⟩ := h1
    subst h1 h2
    simp
  · have h1' : ¬ (i = r ∧ j = c) := fun hh => h1 ⟨hh.1.symm, hh.2.symm⟩
    simp [h1, h1']

theorem naiveLoops_entry_loop {α : Type} [Add α] [Mul α] [OfNat α 0] (nrow ncol : Nat)
    (x y z : Nat → Nat → α) (r c : Nat) (hr : r < nrow) (hc : c < ncol) :
    naiveLoops nrow ncol x y z r c = dotLoop nrow x y r c 0 := by
  unfold naiveLoops
  have inner : ∀ (i : Nat) (cols : List Nat) (z : Nat → Nat → α),
      (cols.foldl (fun acc j =>
        (List.range nrow).foldl (fun acc k => accumulate x y acc i j k)
          (setEntry acc i j 0)) z) r c
      = if r = i ∧ c ∈ cols then dotLoop nrow x y r c 0 else z r c := by
    intro i cols
    induction cols with
    | nil => intro z; simp
    | cons j cols ih =>
      intro z
      rw [List.foldl_cons, ih, naive_cell_loop]
      by_cases h1 : r = i
      · subst h1
        by_cases h2 : c ∈ cols
        · simp [h2]
        · by_cases h3 : c = j
          · subst h3; simp
          · simp [h2, h3]
      · simp [h1]
  have outer : ∀ (rows : List Nat) (z : Nat → Nat → α),
      (rows.foldl (fun acc i =>
        (List.range ncol).foldl (fun acc j =>
          (List.range nrow).foldl (fun acc k => accumulate x y acc i j k)
            (setEntry acc i j 0)) acc) z) r c
      = if r ∈ rows ∧ c < ncol then dotLoop nrow x y r c 0 else z r c := by
    intro rows
    induction rows with
    | nil => intro z; simp
    | cons i rows ih =>
      intro z
      rw [List.foldl_cons, ih, inner]
      simp only [List.mem_range, List.mem_cons]
      by_cases h1 : r ∈ rows <;> by_cases h3 : r = i <;> simp [h1, hc, h3]
  rw [outer, if_pos ⟨List.mem_range.mpr hr, hc⟩]

/-- On a row of `x` and a column of `y` with constant entries `u` and `v`, the inner
loop adds the product `u * v` to the entry `n` times. -/
theorem dotLoop_const {α : Type} [Add α] [Mul α] (n : Nat) (x y : Nat → Nat → α)
    (r c : Nat) (u v : α) (hx : ∀ k, k < n → x r k = u) (hy : ∀ k, k < n → y k c = v)
    (z0 : α) : dotLoop n x y r c z0 = (fun a => a + u * v)^[n] z0 := by
  unfold dotLoop
  induction n with
  | zero => rfl
  | succ n ih =>
    rw [List.range_succ, List.foldl_append, List.foldl_cons, List.foldl_nil,
      ih (fun k hk => hx k (by omega)) (fun k hk => hy k (by omega)),
      hx n (by omega), hy n (by omega), Function.iterate_succ_apply']

/-- Function `matrix_mult_tiling`, for entries of any type: each entry of `matZ` is its
value before the call to which the product `1 * 2` has been added 1500 times, one
addition after the other. -/
theorem matrix_mult_tiling_loop {α : Type} [Add α] [Mul α] [OfNat α 1] [OfNat α 2]
    (m : Matrices α) (r c : Nat) (hr : r < NUM_ROW) (hc : c < NUM_COL) :
    (matrix_mult_tiling m).matZ r c = (fun a : α => a + 1 * 2)^[NUM_COL] (m.matZ r c) := by
  unfold matrix_mult_tiling
  simp only
  have hN : NUM_COL = NUM_ROW := rfl
  rw [hN] at hc ⊢
  rw [tilingLoops_entry_loop NUM_ROW block_size (by decide) _ _ _ r c hr hc]
  exact dotLoop_const NUM_ROW _ _ r c 1 2
    (fun k hk => by rw [fillMatrix_entry, if_pos ⟨hr, hk⟩])
    (fun k hk => by rw [fillMatrix_entry, if_pos ⟨hk, hc⟩]) _

/-- Function `matrix_mult_naive`, for entries of any type: each entry of `matZ` is 0 to
which the product `1 * 2` has been added 1500 times, one addition after the other. -/
theorem matrix_mult_naive_loop {α : Type} [Add α] [Mul α] [OfNat α 0] [OfNat α 1]
    [OfNat α 2] (m : Matrices α) (r c : Nat) (hr : r < NUM_ROW) (hc : c < NUM_COL) :
    (matrix_mult_naive m).matZ r c = (fun a : α => a + 1 * 2)^[NUM_ROW] 0 := by
  unfold matrix_mult_naive
  simp only
  rw [naiveLoops_entry_loop NUM_ROW NUM_COL _ _ _ r c hr hc]
  exact dotLoop_const NUM_ROW _ _ r c 1 2
    (fun k hk => by rw [fillMatrix_entry, if_pos ⟨hr, hk⟩])
    (fun k hk => by rw [fillMatrix_entry, if_pos ⟨hk, hc⟩]) _

/-- Iterating a function from two values it sends to the same value. -/
theorem iterate_eq_of_first {α : Type} (f : α → α) (a b : α) (h : f a = f b) (n : Nat)
    (hn : 0 < n) : f^[n] a = f^[n] b := by
  cases n with
  | zero => omega
  | succ n => rw [Function.iterate_succ_apply, Function.iterate_succ_apply, h]

theorem iterate_of_fixed {α : Type} (f : α → α) (a : α) (h : f a = a) (n : Nat) :
    f^[n] a = a := Function.iterate_fixed h n

/-- In `double` arithmetic, on an entry of `matZ` that holds a non-negative integer `z`
with `z + 3000 < 2 ^ 53`, every addition of the tiling loops is exact: the entry ends as
`z + 3000`; the naive function leaves 3000. -/
theorem matrix_mult_double_exact (m : Matrices IEEE.Double) (r c : Nat) (hr : r < NUM_ROW)
    (hc : c < NUM_COL) (z : Nat) (hz : m.matZ r c = IEEE.ofInt IEEE.binary64 (z : Int))
    (h : z + 3000 < 2 ^ 53) :
    (matrix_mult_tiling m).matZ r c = IEEE.ofInt IEEE.binary64 ((z + 3000 : Nat) : Int) ∧
      (matrix_mult_naive m).matZ r c = IEEE.ofInt IEEE.binary64 ((3000 : Nat) : Int) := by
  constructor
  · rw [matrix_mult_tiling_loop m r c hr hc, hz]
    exact IEEE.iterate_add_one_mul_two 1500 z (by omega)
  · rw [matrix_mult_naive_loop m r c hr hc]
    exact IEEE.iterate_add_one_mul_two 1500 0 (by decide)

set_option maxRecDepth 20000 in
/-- C21, counterexample: in `double` arithmetic the sum of `2 ^ (-60)` and `1 * 2` is the
sum of `0` and `1 * 2`, so on memory whose entries hold `2 ^ (-60)`, which is not zero,
the entry `[0][0]` after `matrix_mult_tiling` is the one `matrix_mult_naive` leaves; and
the sum of `2 ^ 54` and `1 * 2` is `2 ^ 54`, so on memory whose entries hold `2 ^ 54` the
tiling loops leave `matZ[0][0]` as it was: what they add is not the dot product 3000. -/
theorem tiling_result_in_double_arithmetic :
    (exTiny.matZ 0 0 ≠ 0 ∧
      (matrix_mult_tiling exTiny).matZ 0 0 = (matrix_mult_naive exTiny).matZ 0 0) ∧
    ((matrix_mult_tiling exHuge).matZ 0 0 = exHuge.matZ 0 0 ∧
      exHuge.matZ 0 0 + 3000 ≠ exHuge.matZ 0 0) := by
  have h1 : IEEE.twoPow (-60) + (1 : IEEE.Double) * 2 = 0 + (1 : IEEE.Double) * 2 := by decide
  have h2 : IEEE.twoPow 54 + (1 : IEEE.Double) * 2 = IEEE.twoPow 54 := by decide
  have h3 : IEEE.twoPow (-60) ≠ (0 : IEEE.Double) := by decide
  have h4 : IEEE.twoPow 54 + (3000 : IEEE.Double) ≠ IEEE.twoPow 54 := by decide
  have t1 := matrix_mult_tiling_loop exTiny 0 0 (by decide) (by decide)
  have n1 := matrix_mult_naive_loop exTiny 0 0 (by decide) (by decide)
  have t2 := matrix_mult_tiling_loop exHuge 0 0 (by decide) (by decide)
  refine ⟨⟨h3, ?_⟩, ?_, h4⟩
  · rw [t1, n1]
    exact iterate_eq_of_first (fun a : IEEE.Double => a + 1 * 2) _ _ h1 NUM_COL (by decide)
  · rw [t2]
    exact iterate_of_fixed (fun a : IEEE.Double => a + 1 * 2) _ h2 NUM_COL

/-- C21, amended: the six nested loops of `matrix_mult_tiling` (block size 362, which
does not divide 1500, so the tiles start at 0, 362, 724, 1086, 1448 and the last one is
cut by the clamp to the 52 indices 1448 .. 1499) run the innermost statement at the
triples of `tilingVisits`, in which every triple `(row, col, prod)` below 1500 occurs
exactly once and no other triple occurs, and the entry `[row][col]` is updated for
`prod = 0, 1, ..., 1499` in this order.  Hence, in the arithmetic of any entry type, the
entry ends as the value the inner loop of the naive multiplication computes when started
from the initial content of the entry (1500 additions of `1 * 2` after the fills), and
the result of the tiling function agrees with that of `matrix_mult_naive` at an entry
when `matZ` held 0 there before the loops.  In `double` arithmetic on an entry that held
a non-negative integer `z` with `z + 3000 < 2 ^ 53`, and in exact arithmetic (entries
`Int`), the loops add the full dot product, 3000, and the two results agree at the entry
exactly when `matZ` held 0 there. -/
theorem tiling_loops_visit_each_triple_once {α : Type} [Add α] [Mul α] [OfNat α 0]
    [OfNat α 1] [OfNat α 2] (m : Matrices α) (md : Matrices IEEE.Double) (z : Nat)
    (mi : Matrices Int) (row col : Nat) (hrow : row < NUM_ROW) (hcol : col < NUM_COL) :
    (¬ block_size ∣ NUM_COL ∧ tileStarts NUM_COL block_size = [0, 362, 724, 1086, 1448] ∧
      tile NUM_COL block_size 1448 = List.range' 1448 52) ∧
    tilingLoops NUM_ROW NUM_COL block_size m.matX m.matY m.matZ
      = (tilingVisits NUM_ROW NUM_COL block_size).foldl
          (fun acc v => accumulate m.matX m.matY acc v.1 v.2.1 v.2.2) m.matZ ∧
    (∀ prod : Nat, prod < NUM_COL →
      (tilingVisits NUM_ROW NUM_COL block_size).count (row, col, prod) = 1) ∧
    (∀ v ∈ tilingVisits NUM_ROW NUM_COL block_size,
      v.1 < NUM_ROW ∧ v.2.1 < NUM_COL ∧ v.2.2 < NUM_COL) ∧
    prodsAt row col (tilingVisits NUM_ROW NUM_COL block_size) = List.range NUM_COL ∧
    tilingLoops NUM_ROW NUM_COL block_size m.matX m.matY m.matZ row col
      = dotLoop NUM_COL m.matX m.matY row col (m.matZ row col) ∧
    (matrix_mult_tiling m).matZ row col = (fun a : α => a + 1 * 2)^[1500] (m.matZ row col) ∧
    (matrix_mult_naive m).matZ row col = (fun a : α => a + 1 * 2)^[1500] 0 ∧
    (m.matZ row col = 0 →
      (matrix_mult_tiling m).matZ row col = (matrix_mult_naive m).matZ row col) ∧
    (md.matZ row col = IEEE.ofInt IEEE.binary64 (z : Int) → z + 3000 < 2 ^ 53 →
      (matrix_mult_tiling md).matZ row col = IEEE.ofInt IEEE.binary64 ((z + 3000 : Nat) : Int) ∧
      (matrix_mult_naive md).matZ row col = IEEE.ofInt IEEE.binary64 ((3000 : Nat) : Int) ∧
      ((matrix_mult_tiling md).matZ row col = (matrix_mult_naive md).matZ row col
        ↔ z = 0)) ∧
    (tilingLoops NUM_ROW NUM_COL block_size mi.matX mi.matY mi.matZ row col
        = mi.matZ row col + dotProduct NUM_COL mi.matX mi.matY row col ∧
      (matrix_mult_tiling mi).matZ row col = mi.matZ row col + 3000 ∧
      ((matrix_mult_tiling mi).matZ row col = (matrix_mult_naive mi).matZ row col
        ↔ mi.matZ row col = 0)) := by
  have hbs : 0 < block_size := by decide
  have hN : NUM_COL = NUM_ROW := rfl
  have hcol' : col < NUM_ROW := hcol
  have ht := matrix_mult_tiling_loop m row col hrow hcol
  have hn := matrix_mult_naive_loop m row col hrow hcol
  have hti := matrix_mult_tiling_entry mi row col hrow hcol
  have hni := matrix_mult_naive_entry mi row col hrow hcol
  refine ⟨⟨by decide, by decide, by decide⟩, tilingLoops_eq_visits _ _ _ _ _ _, ?_, ?_, ?_, ?_,
    ht, hn, ?_, ?_, ?_, hti, ?_⟩
  · intro prod hprod
    rw [hN] at hprod ⊢
    rw [count_tilingVisits NUM_ROW block_size hbs row col prod, if_pos ⟨hrow, hcol', hprod⟩]
  · intro v hv
    obtain ⟨a, b, d⟩ := v
    have hpos : 0 < (tilingVisits NUM_ROW NUM_COL block_size).count (a, b, d) :=
      List.count_pos_iff.mpr hv
    rw [hN] at hpos ⊢
    rw [count_tilingVisits NUM_ROW block_size hbs a b d] at hpos
    by_cases hin : a < NUM_ROW ∧ b < NUM_ROW ∧ d < NUM_ROW
    · exact hin
    · rw [if_neg hin] at hpos
      exact absurd hpos (by decide)
  · rw [hN]
    exact prodsAt_tilingVisits NUM_ROW block_size hbs row col hrow hcol'
  · rw [hN]
    exact tilingLoops_entry_loop NUM_ROW block_size hbs _ _ _ row col hrow hcol'
  · intro hz
    rw [ht, hn, hz]
    rfl
  · intro hz hlt
    obtain ⟨hd1, hd2⟩ := matrix_mult_double_exact md row col hrow hcol z hz hlt
    refine ⟨hd1, hd2, ?_⟩
    rw [hd1, hd2]
    constructor
    · intro h
      have := IEEE.ofInt_nat_inj (z + 3000) 3000 hlt (by decide) h
      omega
    · intro h
      rw [h]
  · rw [hN]
    exact tilingLoops_entry NUM_ROW block_size hbs _ _ _ row col hrow hcol'
  · rw [hti, hni]
    constructor
    · intro h
      omega
    · intro h
      rw [h]
      rfl

/-- Witness for `tiling_loops_visit_each_triple_once`: the entry `[0][0]`, in `double`
arithmetic on memory whose `matZ` holds 0.0, where the two functions agree, in `double`
arithmetic on memory whose entries hold 1.0, where the tiling function leaves 3001.0,
and in exact arithmetic on memory whose `matZ` holds 1, where the two functions differ. -/
theorem tiling_loops_visit_each_triple_once_witness :
    (0 < NUM_ROW ∧ 0 < NUM_COL) ∧
    (tilingVisits NUM_ROW NUM_COL block_size).count (0, 0, 1499) = 1 ∧
    prodsAt 0 0 (tilingVisits NUM_ROW NUM_COL block_size) = List.range NUM_COL ∧
    (matrix_mult_tiling exCleared).matZ 0 0 = (matrix_mult_naive exCleared).matZ 0 0 ∧
    (exOnesDouble.matZ 0 0 = IEEE.ofInt IEEE.binary64 ((1 : Nat) : Int) ∧
      1 + 3000 < 2 ^ 53 ∧
      (matrix_mult_tiling exOnesDouble).matZ 0 0
        = IEEE.ofInt IEEE.binary64 ((1 + 3000 : Nat) : Int)) ∧
    (matrix_mult_tiling exOnes).matZ 0 0 ≠ (matrix_mult_naive exOnes).matZ 0 0 :=
  ⟨⟨by decide, by decide⟩,
    (tiling_loops_visit_each_triple_once exCleared exOnesDouble 1 exOnes 0 0 (by decide)
      (by decide)).2.2.1 1499 (by decide),
    (tiling_loops_visit_each_triple_once exCleared exOnesDouble 1 exOnes 0 0 (by decide)
      (by decide)).2.2.2.2.1,
    (tiling_loops_visit_each_triple_once exCleared exOnesDouble 1 exOnes 0 0 (by decide)
      (by decide)).2.2.2.2.2.2.2.2.1 rfl,
    ⟨rfl, by decide,
      ((tiling_loops_visit_each_triple_once exCleared exOnesDouble 1 exOnes 0 0 (by decide)
        (by decide)).2.2.2.2.2.2.2.2.2.1 rfl (by decide)).1⟩,
    fun h => absurd
      ((tiling_loops_visit_each_triple_once exCleared exOnesDouble 1 exOnes 0 0 (by decide)
        (by decide)).2.2.2.2.2.2.2.2.2.2.2.2.mp h)
      (by decide)⟩

end MatrixMult
